import Mathlib

/-!
# Huffman file compression: a shallow embedding of `huffman.js`

The JavaScript source is embedded as pure Lean functions.

* A text is the list of its code points, in the order `for (const ch of text)`
  yields them; a symbol is one code point, given by its number.
* A plain JavaScript object with symbol keys is an association list in property
  creation order, with no key twice.
* A `HuffmanNode` reference is either `null` or an object with the four fields
  of the class.
* Loops become structural recursion on a counter that bounds the number of
  iterations; lemmas below show that the counter never cuts a loop short.
* A `TypeError` raised by a property access on `null` is the result `none`.
* A frequency is a JavaScript number with a non-negative integer value; the sum
  of two frequencies is rounded as the sum of two doubles is.
-/

namespace Huffman

/-! ## JavaScript objects used as maps -/

/-- One unit of text: a code point, by its number. -/
abbrev Symbol := Nat

/-- A plain object keyed by one-symbol strings: the own properties in creation order. -/
abbrev JSObject (α : Type) := List (Symbol × α)

/-- The property read `o[k]`; `none` stands for `undefined`. -/
def objGet {α : Type} : JSObject α → Symbol → Option α
  | [], _ => none
  | (k', v) :: rest, k => if k' = k then some v else objGet rest k

/-- The property write `o[k] = v`: an existing property keeps its place, a new one goes last. -/
def objSet {α : Type} : JSObject α → Symbol → α → JSObject α
  | [], k, v => [(k, v)]
  | (k', v') :: rest, k, v =>
    if k' = k then (k, v) :: rest else (k', v') :: objSet rest k v

/-- A one-symbol key is an array index exactly when it is one of the digits "0" to "9", the
code points 48 to 57. -/
def isArrayIndexKey (k : Nat) : Bool := decide (48 ≤ k) && decide (k ≤ 57)

/-- The order of `Object.entries(o)`: array-index keys ascending, then the other keys in
creation order. -/
def objectEntries {α : Type} (o : JSObject α) : List (Symbol × α) :=
  (List.range 10).filterMap (fun d => (objGet o (48 + d)).map (fun v => (48 + d, v)))
    ++ o.filter (fun p => !isArrayIndexKey p.1)

/-! ## Huffman data structures -/

/-- A reference to a `HuffmanNode`: `null`, or an object with `char`, `freq`, `left`, `right`.
The `char` of an internal node is `null`, here `none`. The `freq` is a JavaScript number with
a non-negative integer value, or `Infinity`, written `2 ^ 1024`. -/
inductive HuffmanNode where
  | null : HuffmanNode
  | mk (char : Option Symbol) (freq : Nat) (left right : HuffmanNode) : HuffmanNode
  deriving DecidableEq, Repr

namespace HuffmanNode

/-- The field `freq`; the source never reads it from `null`. -/
def freq : HuffmanNode → Nat
  | null => 0
  | mk _ f _ _ => f

/-- The getter `isLeaf`: `!this.left && !this.right`; the callers test for `null` first. -/
def isLeaf : HuffmanNode → Bool
  | mk _ _ null null => true
  | _ => false

end HuffmanNode

/-- The class `MinHeap`: its only field is the array `data`. -/
structure MinHeap where
  data : List HuffmanNode
  deriving DecidableEq, Repr

/-- The array element `data[i]`; every read in the source is in bounds. -/
def at_ (data : List HuffmanNode) (i : Nat) : HuffmanNode := data.getD i HuffmanNode.null

/-- The destructuring swap `[data[i], data[j]] = [data[j], data[i]]`. -/
def swap (data : List HuffmanNode) (i j : Nat) : List HuffmanNode :=
  (data.set i (at_ data j)).set j (at_ data i)

/-- The loop of `_bubbleUp`; the first argument bounds the iterations left. -/
def bubbleUpLoop : Nat → List HuffmanNode → Nat → List HuffmanNode
  | 0, data, _ => data
  | fuel + 1, data, index =>
    if index > 0 then
      let parent := (index - 1) / 2
      if (at_ data parent).freq ≤ (at_ data index).freq then data
      else bubbleUpLoop fuel (swap data parent index) parent
    else data

/-- The index `smallest` when one iteration of `_bubbleDown` reaches its `break` test. -/
def smallestOf (data : List HuffmanNode) (index : Nat) : Nat :=
  let n := data.length
  let left := 2 * index + 1
  let right := 2 * index + 2
  let smallest := index
  let smallest :=
    if left < n ∧ (at_ data left).freq < (at_ data smallest).freq then left else smallest
  let smallest :=
    if right < n ∧ (at_ data right).freq < (at_ data smallest).freq then right else smallest
  smallest

/-- The loop of `_bubbleDown`; the first argument bounds the iterations left. -/
def bubbleDownLoop : Nat → List HuffmanNode → Nat → List HuffmanNode
  | 0, data, _ => data
  | fuel + 1, data, index =>
    let smallest := smallestOf data index
    if smallest = index then data
    else bubbleDownLoop fuel (swap data smallest index) smallest

namespace MinHeap

/-- The constructor: an empty array. -/
def empty : MinHeap := ⟨[]⟩

/-- The method `size`. -/
def size (h : MinHeap) : Nat := h.data.length

/-- The method `_bubbleUp`: the index drops at every iteration, so `index` iterations suffice. -/
def _bubbleUp (h : MinHeap) (index : Nat) : MinHeap := ⟨bubbleUpLoop index h.data index⟩

/-- The method `_bubbleDown`: the index grows at every iteration and stays below the length. -/
def _bubbleDown (h : MinHeap) (index : Nat) : MinHeap :=
  ⟨bubbleDownLoop h.data.length h.data index⟩

/-- The method `push`. -/
def push (h : MinHeap) (node : HuffmanNode) : MinHeap :=
  _bubbleUp ⟨h.data ++ [node]⟩ (h.data.length + 1 - 1)

/-- The method `pop`: the returned item and the heap afterwards. -/
def pop (h : MinHeap) : HuffmanNode × MinHeap :=
  match h.data with
  | [] => (HuffmanNode.null, h)
  | [only] => (only, ⟨[]⟩)
  | top :: second :: rest =>
    let last := at_ (top :: second :: rest) (rest.length + 1)
    let popped := (top :: second :: rest).dropLast
    (top, _bubbleDown ⟨popped.set 0 last⟩ 0)

end MinHeap

/-! ## Huffman core functions -/

/-- The function `buildFrequencyTable`: `freq[ch] = (freq[ch] || 0) + 1` for every symbol. A
count never exceeds the length of the text, and a string has fewer than `2 ^ 53` elements, so
this addition of JavaScript numbers is the exact one. -/
def buildFrequencyTable (text : List Symbol) : JSObject Nat :=
  text.foldl (fun freq ch => objSet freq ch ((objGet freq ch).getD 0 + 1)) []

/-! ## JavaScript number addition

`freq` is a JavaScript number, an IEEE 754 double. The frequencies handled here are
non-negative integers, which a double holds exactly up to `2 ^ 53`; above that a double keeps
53 significant bits, and a sum is rounded to the nearest such value, a tie going to the even
significand. A finite double is below `2 ^ 1024`; a sum that rounds to `2 ^ 1024` or more is
`Infinity`, which is written `jsInfinity` here: it compares above every finite value and
absorbs every addition, as `Infinity` does. -/

/-- The number that stands for `Infinity`: `2 ^ 1024`. -/
def jsInfinity : Nat := 2 ^ 256 * 2 ^ 256 * 2 ^ 256 * 2 ^ 256

/-- The number of low bits of `n` that do not fit into 53 significant bits; the first argument
bounds the halvings left. -/
def excessBits : Nat → Nat → Nat
  | 0, _ => 0
  | fuel + 1, n => if n < 2 ^ 53 then 0 else excessBits fuel (n / 2) + 1

/-- The double nearest to the natural number `n`, ties to the even significand, `jsInfinity`
from `2 ^ 1024` on. -/
def roundDouble (n : Nat) : Nat :=
  if n ≤ 2 ^ 53 then n
  else
    let shift := excessBits n n
    let q := n / 2 ^ shift
    let r := n % 2 ^ shift
    let half := 2 ^ (shift - 1)
    let q1 := if half < r ∨ (r = half ∧ q % 2 = 1) then q + 1 else q
    min (q1 * 2 ^ shift) jsInfinity

/-- The JavaScript `a + b` on two non-negative integer-valued numbers: the exact sum, rounded
to a double. -/
def jsAdd (a b : Nat) : Nat := roundDouble (a + b)

/-- The `while (heap.size() > 1)` loop of `buildHuffmanTree`; the first argument bounds the
iterations left. The parent is `new HuffmanNode(null, left.freq + right.freq, left, right)`,
with the addition of JavaScript numbers. -/
def mergeLoop : Nat → MinHeap → MinHeap
  | 0, heap => heap
  | fuel + 1, heap =>
    if heap.size > 1 then
      let left := heap.pop.1
      let heap1 := heap.pop.2
      let right := heap1.pop.1
      let heap2 := heap1.pop.2
      let parent := HuffmanNode.mk none (jsAdd left.freq right.freq) left right
      mergeLoop fuel (heap2.push parent)
    else heap

/-- The heap after the first loop of `buildHuffmanTree`: one leaf pushed per entry. -/
def initialHeap (freqMap : JSObject Nat) : MinHeap :=
  (objectEntries freqMap).foldl
    (fun heap e => heap.push (HuffmanNode.mk (some e.1) e.2 HuffmanNode.null HuffmanNode.null))
    MinHeap.empty

/-- The function `buildHuffmanTree`; every iteration of the merge loop shrinks the heap by one,
so `heap.size()` iterations suffice. -/
def buildHuffmanTree (freqMap : JSObject Nat) : HuffmanNode :=
  let heap := initialHeap freqMap
  if heap.size = 0 then HuffmanNode.null
  else if heap.size = 1 then
    let only := heap.pop.1
    HuffmanNode.mk none only.freq only HuffmanNode.null
  else (mergeLoop heap.size heap).pop.1

/-- The value of `prefix || "0"`: the empty string is falsy. -/
def orZero (pfx : List Char) : List Char := if pfx = [] then ['0'] else pfx

/-- The function `generateCodes`; the object `codeMap` it mutates is returned. -/
def generateCodes : HuffmanNode → List Char → JSObject (List Char) → JSObject (List Char)
  | HuffmanNode.null, _, codeMap => codeMap
  | HuffmanNode.mk char freq left right, pfx, codeMap =>
    match (HuffmanNode.mk char freq left right).isLeaf, char with
    | true, some c => objSet codeMap c (orZero pfx)
    | _, _ => generateCodes right (pfx ++ ['1']) (generateCodes left (pfx ++ ['0']) codeMap)

/-- The string that `bitString += codeMap[ch]` appends: a missing code appends "undefined". -/
def codeText : Option (List Char) → List Char
  | some code => code
  | none => ['u', 'n', 'd', 'e', 'f', 'i', 'n', 'e', 'd']

/-- The first loop of `encodeText`: the concatenated codes of the symbols, in input order. -/
def bitStringOf (text : List Symbol) (codeMap : JSObject (List Char)) : List Char :=
  text.foldl (fun bitString ch => bitString ++ codeText (objGet codeMap ch)) []

/-- The inner loop of `encodeText`, with `j` iterations left: the byte and `bitIndex` after it. -/
def packByte (bitString : List Char) (bitLength : Nat) : Nat → Nat → Nat → Nat × Nat
  | 0, byte, bitIndex => (byte, bitIndex)
  | j + 1, byte, bitIndex =>
    let byte := byte <<< 1
    let byte :=
      if bitIndex < bitLength ∧ bitString[bitIndex]? = some '1' then byte ||| 1 else byte
    packByte bitString bitLength j byte (bitIndex + 1)

/-- The result of `encodeText`. -/
structure Encoded where
  dataBytes : List Nat
  bitLength : Nat
  deriving DecidableEq, Repr

/-- The function `encodeText`; a store into the `Uint8Array` keeps the low eight bits. -/
def encodeText (text : List Symbol) (codeMap : JSObject (List Char)) : Encoded :=
  let bitString := bitStringOf text codeMap
  let bitLength := bitString.length
  let byteCount := (bitLength + 7) / 8
  let dataBytes := List.replicate byteCount 0
  let final := (List.range byteCount).foldl
    (fun (st : List Nat × Nat) i =>
      let r := packByte bitString bitLength 8 0 st.2
      (st.1.set i (r.1 % 256), r.2))
    (dataBytes, 0)
  ⟨final.1, bitLength⟩

/-- The string that `result += node.char` appends: the symbol, or "null" for a `null` char. -/
def charText : Option Symbol → List Symbol
  | some c => [c]
  | none => [110, 117, 108, 108]

/-- The local variables of `decodeBytes`. -/
structure DecodeState where
  result : List Symbol
  node : HuffmanNode
  bitsRead : Nat
  deriving DecidableEq, Repr

/-- The body of the inner loop of `decodeBytes` for one bit; `none` is the `TypeError` of
reading a property of `null`. -/
def decodeStep (root : HuffmanNode) (st : DecodeState) (bit : Nat) : Option DecodeState :=
  match st.node with
  | HuffmanNode.null => none
  | HuffmanNode.mk _ _ left right =>
    match (if bit = 0 then left else right) with
    | HuffmanNode.null => none
    | HuffmanNode.mk char freq l r =>
      if (HuffmanNode.mk char freq l r).isLeaf then
        some ⟨st.result ++ charText char, root, st.bitsRead + 1⟩
      else
        some ⟨st.result, HuffmanNode.mk char freq l r, st.bitsRead + 1⟩

/-- The inner loop of `decodeBytes` on one byte, entered with loop variable `i - 1`. -/
def decodeByte (root : HuffmanNode) (bitLength byte : Nat) :
    Nat → DecodeState → Option DecodeState
  | 0, st => some st
  | i + 1, st =>
    if st.bitsRead < bitLength then
      (decodeStep root st ((byte >>> i) &&& 1)).bind (decodeByte root bitLength byte i)
    else some st

/-- The two loops of `decodeBytes`: the local variables when the function returns. -/
def decodeBytesState (dataBytes : List Nat) (root : HuffmanNode) (bitLength : Nat) :
    Option DecodeState :=
  dataBytes.foldlM (fun st byte => decodeByte root bitLength byte 8 st) ⟨[], root, 0⟩

/-- The function `decodeBytes`. -/
def decodeBytes (dataBytes : List Nat) (root : HuffmanNode) (bitLength : Nat) :
    Option (List Symbol) :=
  (decodeBytesState dataBytes root bitLength).map (fun st => st.result)

/-- The code table the compress handler builds: `generateCodes(root, "", codeMap)` on `{}`. -/
def codeTable (root : HuffmanNode) : JSObject (List Char) := generateCodes root [] []

/-! ## The container: `[4 bytes headerLength][headerBytes][dataBytes]`

The compress and decompress handlers build and split the container with `DataView` and
`Uint8Array` calls. A buffer is the list of its bytes; `none` is a `RangeError`. -/

/-- The call `view.setUint32(byteOffset, value)`: the value modulo 2^32, big-endian. -/
def setUint32 (buffer : List Nat) (byteOffset value : Nat) : Option (List Nat) :=
  if byteOffset + 4 ≤ buffer.length then
    let v := value % 2 ^ 32
    some (buffer.take byteOffset ++
      [v / 2 ^ 24 % 256, v / 2 ^ 16 % 256, v / 2 ^ 8 % 256, v % 256] ++
      buffer.drop (byteOffset + 4))
  else none

/-- The call `view.getUint32(byteOffset)`: four bytes read big-endian. -/
def getUint32 (buffer : List Nat) (byteOffset : Nat) : Option Nat :=
  if byteOffset + 4 ≤ buffer.length then
    some (buffer.getD byteOffset 0 * 2 ^ 24 + buffer.getD (byteOffset + 1) 0 * 2 ^ 16 +
      buffer.getD (byteOffset + 2) 0 * 2 ^ 8 + buffer.getD (byteOffset + 3) 0)
  else none

/-- The call `uint8.set(source, offset)`: every source element is stored modulo 256. -/
def uint8Set (target source : List Nat) (offset : Nat) : Option (List Nat) :=
  if offset + source.length ≤ target.length then
    some (target.take offset ++ source.map (fun b => b % 256) ++
      target.drop (offset + source.length))
  else none

/-- The call `uint8.slice(start, end)` for indices that are not negative. -/
def uint8Slice (array : List Nat) (start stop : Nat) : List Nat :=
  (array.take stop).drop start

/-- The container assembly of the compress handler, from `headerBytes` and `dataBytes`. -/
def assembleContainer (headerBytes dataBytes : List Nat) : Option (List Nat) :=
  let headerLength := headerBytes.length
  let totalLength := 4 + headerLength + dataBytes.length
  let buffer := List.replicate totalLength 0
  (setUint32 buffer 0 headerLength).bind fun buffer =>
  (uint8Set buffer headerBytes 4).bind fun buffer =>
  uint8Set buffer dataBytes (4 + headerLength)

/-- The container split of the decompress handler: `headerLength`, `headerBytes` and
`dataBytes`. -/
def splitContainer (buffer : List Nat) : Option (Nat × List Nat × List Nat) :=
  (getUint32 buffer 0).bind fun headerLength =>
  some (headerLength, uint8Slice buffer 4 (4 + headerLength), buffer.drop (4 + headerLength))

/-! ## Notions used to state the properties -/

/-- A leaf object: `new HuffmanNode(ch, freq)`. -/
def leafNode (e : Symbol × Nat) : HuffmanNode :=
  HuffmanNode.mk (some e.1) e.2 HuffmanNode.null HuffmanNode.null

/-- A code tree in which every node is a leaf with a symbol or an internal node with no symbol
and two children. -/
inductive Full : HuffmanNode → Prop where
  | leaf (c : Symbol) (f : Nat) :
      Full (HuffmanNode.mk (some c) f HuffmanNode.null HuffmanNode.null)
  | node (f : Nat) (l r : HuffmanNode) :
      Full l → Full r → Full (HuffmanNode.mk none f l r)

/-- The leaves with a symbol below a node, left to right, each with its `freq`. -/
def leaves : HuffmanNode → List (Symbol × Nat)
  | HuffmanNode.null => []
  | HuffmanNode.mk char freq left right =>
    match (HuffmanNode.mk char freq left right).isLeaf, char with
    | true, some c => [(c, freq)]
    | _, _ => leaves left ++ leaves right

/-- The writes `codeMap[char] = code` that `generateCodes(node, prefix, codeMap)` performs, in
the order it performs them. -/
def codeWrites : HuffmanNode → List Char → List (Symbol × List Char)
  | HuffmanNode.null, _ => []
  | HuffmanNode.mk char freq left right, pfx =>
    match (HuffmanNode.mk char freq left right).isLeaf, char with
    | true, some c => [(c, orZero pfx)]
    | _, _ => codeWrites left (pfx ++ ['0']) ++ codeWrites right (pfx ++ ['1'])

/-- Every item of the heap is a full tree. -/
def Forest (data : List HuffmanNode) : Prop :=
  ∀ t ∈ data, Full t

/-- Every item of the heap has as `freq` the exact total of its leaves, and the total over the
whole heap is at most `2 ^ 53`, so that no addition in the merge loop is rounded. -/
def ExactWeights (data : List HuffmanNode) : Prop :=
  (∀ t ∈ data, t.freq = ((leaves t).map Prod.snd).sum) ∧
    ((data.flatMap leaves).map Prod.snd).sum ≤ 2 ^ 53

/-- The bits `i - 1` down to 0 of a byte, as the inner loop of `decodeBytes` reads them. -/
def bitsFrom (byte : Nat) : Nat → List Nat
  | 0 => []
  | i + 1 => ((byte >>> i) &&& 1) :: bitsFrom byte i

/-- The bits of a byte array, most significant bit of each byte first. -/
def bitsOfBytes (dataBytes : List Nat) : List Nat :=
  dataBytes.flatMap (fun byte => bitsFrom byte 8)

/-- Bit number `i` of a byte array, counting from the most significant bit of the first byte:
bit `7 - i mod 8` of byte `floor(i / 8)`. -/
def bitOf (dataBytes : List Nat) (i : Nat) : Nat :=
  (dataBytes.getD (i / 8) 0 >>> (7 - i % 8)) &&& 1

/-- The tree walk of `decodeBytes` over a list of bits. -/
def walk (root : HuffmanNode) (bits : List Nat) (st : DecodeState) : Option DecodeState :=
  bits.foldlM (decodeStep root) st

/-- The bit that `encodeText` packs at bit index `i`. -/
def bitAt (bitString : List Char) (bitLength i : Nat) : Nat :=
  if i < bitLength ∧ bitString[i]? = some '1' then 1 else 0

/-- The bit that `encodeText` packs for one character of the bit string. -/
def charBit (ch : Char) : Nat := if ch = '1' then 1 else 0

/-- The local variables of `decodeBytes` after the walk has stepped to the node `n`. -/
def descend (root : HuffmanNode) (st : DecodeState) (n : HuffmanNode) : DecodeState :=
  match n with
  | HuffmanNode.null => st
  | HuffmanNode.mk char freq l r =>
    if (HuffmanNode.mk char freq l r).isLeaf then
      ⟨st.result ++ charText char, root, st.bitsRead + 1⟩
    else ⟨st.result, HuffmanNode.mk char freq l r, st.bitsRead + 1⟩

/-- A root as `buildHuffmanTree` returns it: an internal node whose children are full trees,
the one-child possibly missing. -/
def RootOK (t : HuffmanNode) : Prop :=
  ∃ f l r, t = HuffmanNode.mk none f l r ∧ Full l ∧ (Full r ∨ r = HuffmanNode.null)

/-- The heap-order property of the array of a `MinHeap`: no item has a smaller `freq` than its
parent at index `floor((i - 1) / 2)`. -/
def HeapOrdered (data : List HuffmanNode) : Prop :=
  ∀ i, 0 < i → i < data.length → (at_ data ((i - 1) / 2)).freq ≤ (at_ data i).freq

/-- Heap order everywhere but between index `k` and its parent, with the children of `k` not
below the parent of `k`: the loop invariant of `_bubbleUp`. -/
def OrderedButUp (data : List HuffmanNode) (k : Nat) : Prop :=
  (∀ i, 0 < i → i < data.length → i ≠ k → (at_ data ((i - 1) / 2)).freq ≤ (at_ data i).freq) ∧
  (∀ i, 0 < i → i < data.length → (i - 1) / 2 = k → 0 < k →
    (at_ data ((k - 1) / 2)).freq ≤ (at_ data i).freq)

/-- Heap order everywhere but between index `k` and its children, with the children of `k` not
below the parent of `k`: the loop invariant of `_bubbleDown`. -/
def OrderedButDown (data : List HuffmanNode) (k : Nat) : Prop :=
  (∀ i, 0 < i → i < data.length → (i - 1) / 2 ≠ k →
    (at_ data ((i - 1) / 2)).freq ≤ (at_ data i).freq) ∧
  (∀ i, 0 < i → i < data.length → (i - 1) / 2 = k → 0 < k →
    (at_ data ((k - 1) / 2)).freq ≤ (at_ data i).freq)

/-- The Kraft sum of a list of code lengths, scaled by `2 ^ N`. -/
def kraftSum (N : Nat) (ls : List Nat) : Nat := (ls.map (fun l => 2 ^ (N - l))).sum

/-- The Kraft inequality for code lengths that are at most `N`: the sum of `2 ^ (-l)` over the
lengths is at most 1. -/
def Kraft (N : Nat) (ls : List Nat) : Prop := (∀ l ∈ ls, l ≤ N) ∧ kraftSum N ls ≤ 2 ^ N

/-- The weighted length of a list of (weight, length) pairs. -/
def dot (ps : List (Nat × Nat)) : Nat := (ps.map (fun p => p.1 * p.2)).sum

/-- The tails of the codes that start with the bit `b`. -/
def tailsOf (b : Bool) : List (List Bool) → List (List Bool)
  | [] => []
  | [] :: cs => tailsOf b cs
  | (b' :: t) :: cs => if b' = b then t :: tailsOf b cs else tailsOf b cs

/-- Neither of two codes is a prefix of the other. -/
def Incomparable (u v : List Bool) : Prop := ¬ u <+: v ∧ ¬ v <+: u

/-- The weighted path length below a node that sits at depth `d`: the sum over its leaves with
a symbol of `freq` times the depth of the leaf. -/
def pathCost : HuffmanNode → Nat → Nat
  | HuffmanNode.null, _ => 0
  | HuffmanNode.mk char freq left right, d =>
    match (HuffmanNode.mk char freq left right).isLeaf, char with
    | true, some _ => freq * d
    | _, _ => pathCost left (d + 1) + pathCost right (d + 1)

/-! ## Notions for the heap, the tree shape and the decompress path -/

/-- The heaps that a sequence of `push` and `pop` calls produces from `new MinHeap()`; the
pushed items are `HuffmanNode` objects. -/
inductive Reachable : MinHeap → Prop where
  | empty : Reachable MinHeap.empty
  | push (h : MinHeap) (node : HuffmanNode) :
      Reachable h → node ≠ HuffmanNode.null → Reachable (h.push node)
  | pop (h : MinHeap) : Reachable h → Reachable h.pop.2

namespace HuffmanNode

/-- The field `char`. -/
def char : HuffmanNode → Option Symbol
  | null => none
  | mk c _ _ _ => c

/-- The field `left`, the zero-child. -/
def left : HuffmanNode → HuffmanNode
  | null => null
  | mk _ _ l _ => l

/-- The field `right`, the one-child. -/
def right : HuffmanNode → HuffmanNode
  | null => null
  | mk _ _ _ r => r

end HuffmanNode

/-- Every node object of a tree, the root first. -/
def subnodes : HuffmanNode → List HuffmanNode
  | HuffmanNode.null => []
  | HuffmanNode.mk c f l r => HuffmanNode.mk c f l r :: (subnodes l ++ subnodes r)

/-- A tree as the merge loop builds it: a leaf with a symbol, or a node without a symbol whose
`freq` is `left.freq + right.freq` as JavaScript adds the `freq` of its two children, the
zero-child not above the one-child. -/
inductive Built : HuffmanNode → Prop where
  | leaf (c : Symbol) (f : Nat) :
      Built (HuffmanNode.mk (some c) f HuffmanNode.null HuffmanNode.null)
  | node (l r : HuffmanNode) :
      Built l → Built r → l.freq ≤ r.freq →
      Built (HuffmanNode.mk none (jsAdd l.freq r.freq) l r)

/-- The node reached from a node along a code: the zero-child for the character 0, the
one-child for the character 1. -/
def follow : HuffmanNode → List Char → HuffmanNode
  | n, [] => n
  | HuffmanNode.null, _ :: _ => HuffmanNode.null
  | HuffmanNode.mk _ _ l r, ch :: rest =>
    if ch = '0' then follow l rest else if ch = '1' then follow r rest else HuffmanNode.null

/-- What the decompress handler reads from the parsed header: the fields `bitLength` and
`freq`, each `none` when the parsed object has no such field and the read gives `undefined`.
A field that is present has the type the compress handler writes. A parsed value that is not an
object makes the handler raise a `TypeError`, as a header without `freq` does. -/
structure Header where
  bitLength : Option Nat
  freq : Option (JSObject Nat)
  deriving DecidableEq

/-- The `try` block of the decompress handler up to `const text = decodeBytes(...)`. The
result `none` is an exception, which ends the `try` block there. The argument
`parse` stands for `JSON.parse(decoder.decode(headerBytes))`, with `none` for its `SyntaxError`.
With `freq` undefined, `Object.entries` in `buildHuffmanTree` raises a `TypeError`. With
`bitLength` undefined, the test `bitsRead < bitLength` of `decodeBytes` is false from the start,
as it is for `bitLength = 0`. -/
def decompressText (parse : List Nat → Option Header) (buffer : List Nat) :
    Option (List Symbol) :=
  (splitContainer buffer).bind fun parts =>
  (parse parts.2.1).bind fun header =>
  match header.freq with
  | none => none
  | some freqMap =>
    decodeBytes parts.2.2 (buildHuffmanTree freqMap) (header.bitLength.getD 0)

/-- The kinds of value that reach `enableDownloadLink`: `undefined` for a missing argument, a
string, a `Blob` with its text, and the link element of the page. -/
inductive JSValue where
  | undefined : JSValue
  | string : JSValue
  | blob (text : List Symbol) : JSValue
  | element : JSValue
  deriving DecidableEq

/-- The call `URL.createObjectURL(blob)`: it accepts a `Blob` and raises a `TypeError` for a
value of another kind, here `none`. The URL is written as the text it serves. -/
def createObjectURL : JSValue → Option (List Symbol)
  | JSValue.blob text => some text
  | _ => none

/-- The state of a download link that is shown: what `href` serves, and the values of
`download` and `textContent`. -/
structure DownloadLink where
  href : List Symbol
  download : JSValue
  textContent : JSValue
  deriving DecidableEq

/-- The function `enableDownloadLink(linkEl, blob, filename, label)`: the object URL of `blob`
is made first; then the fields of `linkEl` are set and the class `hidden` is removed from its
`classList`, which only an element has. The result `none` is a `TypeError`, and the link of the
page is then left as it was. -/
def enableDownloadLink (linkEl blob filename label : JSValue) : Option DownloadLink :=
  (createObjectURL blob).bind fun url =>
  match linkEl with
  | JSValue.element => some ⟨url, filename, label⟩
  | _ => none

/-- The line that the decompress handler writes to the log when the `try` block is over:
"Decompression finished. ..." at its end, or "Error during decompression. Make sure this file
was created by this tool." from the `catch` block. -/
inductive LogLine where
  | finished : LogLine
  | error : LogLine
  deriving DecidableEq

/-- What the decompress handler leaves behind: the line in the log, and the download link, `none`
while it is hidden, as it is since the file was chosen. -/
structure Outcome where
  log : LogLine
  link : Option DownloadLink
  deriving DecidableEq

/-- The `try` and `catch` blocks of the `onload` function of the decompress handler. After the
text is decoded the block makes `blob = new Blob([text])`, fills in the sizes and the time, and
calls `enableDownloadLink(blob, outName, "Download " + outName)`, with three arguments for the
four parameters: `linkEl` is the blob, `blob` the string `outName`, `filename` the label and
`label` is `undefined`. An exception anywhere in the block goes to `catch`, which logs the
error. -/
def decompressHandler (parse : List Nat → Option Header) (buffer : List Nat) : Outcome :=
  match (decompressText parse buffer).bind fun text =>
      enableDownloadLink (JSValue.blob text) JSValue.string JSValue.string JSValue.undefined with
  | some link => ⟨LogLine.finished, some link⟩
  | none => ⟨LogLine.error, none⟩

/-- The text "aaaaaaaab" as code points. -/
def textSkewed : List Symbol := [97, 97, 97, 97, 97, 97, 97, 97, 98]

/-- The text "abracadabra" as code points. -/
def textAbracadabra : List Symbol := [97, 98, 114, 97, 99, 97, 100, 97, 98, 114, 97]

/-- The UTF-8 bytes of the header text `{"bitLength":4,"freq":{"a":4}}`, the header that the
compress handler writes for the text "aaaa". -/
def headerFull : List Nat :=
  [123, 34, 98, 105, 116, 76, 101, 110, 103, 116, 104, 34, 58, 52, 44, 34, 102, 114, 101, 113,
    34, 58, 123, 34, 97, 34, 58, 52, 125, 125]

/-- The UTF-8 bytes of the header text `{"freq":{"a":4}}`, a header without `bitLength`. -/
def headerNoBitLength : List Nat :=
  [123, 34, 102, 114, 101, 113, 34, 58, 123, 34, 97, 34, 58, 52, 125, 125]

/-- What `JSON.parse` returns for the two header texts above: the object with `bitLength` 4 and
`freq` `{a: 4}`, and the object with `freq` `{a: 4}` alone. No other header text is used with
it. -/
def parseExamples (headerBytes : List Nat) : Option Header :=
  if headerBytes = headerFull then some ⟨some 4, some [(97, 4)]⟩
  else if headerBytes = headerNoBitLength then some ⟨none, some [(97, 4)]⟩
  else none

/-! ## Objects as maps -/

theorem objGet_objSet_same {α : Type} (o : JSObject α) (k : Symbol) (v : α) :
    objGet (objSet o k v) k = some v := by
  induction o with
  | nil => simp [objSet, objGet]
  | cons p rest ih =>
    obtain ⟨k', v'⟩ := p
    by_cases h : k' = k <;> simp [objSet, objGet, h, ih]

theorem objGet_objSet_ne {α : Type} (o : JSObject α) (k k' : Symbol) (v : α) (h : k ≠ k') :
    objGet (objSet o k v) k' = objGet o k' := by
  induction o with
  | nil => simp [objSet, objGet, h]
  | cons p rest ih =>
    obtain ⟨k1, v1⟩ := p
    by_cases h1 : k1 = k
    · subst h1; simp [objSet, objGet, h]
    · by_cases h2 : k1 = k'
      · subst h2; simp [objSet, objGet, h1]
      · simp [objSet, objGet, h1, h2, ih]

theorem objGet_eq_none_iff {α : Type} (o : JSObject α) (k : Symbol) :
    objGet o k = none ↔ k ∉ o.map Prod.fst := by
  induction o with
  | nil => simp [objGet]
  | cons p rest ih =>
    obtain ⟨k1, v1⟩ := p
    by_cases h1 : k1 = k
    · simp [objGet, h1]
    · simp only [objGet, h1, if_false, ih, List.map_cons, List.mem_cons, not_or]
      exact ⟨fun h => ⟨fun e => h1 e.symm, h⟩, fun h => h.2⟩

theorem mem_of_objGet {α : Type} (o : JSObject α) (k : Symbol) (v : α)
    (h : objGet o k = some v) : (k, v) ∈ o := by
  induction o with
  | nil => simp [objGet] at h
  | cons p rest ih =>
    obtain ⟨k1, v1⟩ := p
    by_cases h1 : k1 = k
    · simp [objGet, h1] at h; simp [h1, h]
    · simp [objGet, h1] at h; exact List.mem_cons_of_mem _ (ih h)

theorem objGet_of_mem {α : Type} (o : JSObject α) (k : Symbol) (v : α)
    (hnd : (o.map Prod.fst).Nodup) (h : (k, v) ∈ o) : objGet o k = some v := by
  induction o with
  | nil => simp at h
  | cons p rest ih =>
    obtain ⟨k1, v1⟩ := p
    simp only [List.map_cons, List.nodup_cons] at hnd
    rcases List.mem_cons.mp h with h | h
    · cases h; simp [objGet]
    · have : k1 ≠ k := by
        rintro rfl
        exact hnd.1 (List.mem_map.mpr ⟨(k1, v), h, rfl⟩)
      simp [objGet, this, ih hnd.2 h]

theorem keys_objSet {α : Type} (o : JSObject α) (k : Symbol) (v : α) :
    (objSet o k v).map Prod.fst =
      if k ∈ o.map Prod.fst then o.map Prod.fst else o.map Prod.fst ++ [k] := by
  induction o with
  | nil => simp [objSet]
  | cons p rest ih =>
    obtain ⟨k1, v1⟩ := p
    by_cases h1 : k1 = k
    · subst h1; simp [objSet]
    · have h2 : ¬ k = k1 := fun e => h1 e.symm
      simp only [objSet, h1, if_false, List.map_cons, ih, List.mem_cons, h2, false_or]
      split <;> simp

theorem nodup_keys_objSet {α : Type} (o : JSObject α) (k : Symbol) (v : α)
    (hnd : (o.map Prod.fst).Nodup) : ((objSet o k v).map Prod.fst).Nodup := by
  rw [keys_objSet]
  split
  · exact hnd
  · rename_i h
    exact List.Nodup.append hnd (List.nodup_singleton k) (by simpa using h)

theorem sum_objSet (o : JSObject Nat) (k : Symbol) (v : Nat) :
    ((objSet o k v).map Prod.snd).sum + (objGet o k).getD 0 = (o.map Prod.snd).sum + v := by
  induction o with
  | nil => simp [objSet, objGet]
  | cons p rest ih =>
    obtain ⟨k1, v1⟩ := p
    by_cases h1 : k1 = k
    · simp [objSet, objGet, h1]; omega
    · simp [objSet, objGet, h1]; omega

/-! ## The frequency table -/

theorem buildFrequencyTable_snoc (T : List Symbol) (c : Symbol) :
    buildFrequencyTable (T ++ [c]) =
      objSet (buildFrequencyTable T) c ((objGet (buildFrequencyTable T) c).getD 0 + 1) := by
  simp [buildFrequencyTable, List.foldl_append]

theorem objGet_buildFrequencyTable (T : List Symbol) (c : Symbol) :
    objGet (buildFrequencyTable T) c = if c ∈ T then some (T.count c) else none := by
  induction T using List.reverseRecOn with
  | nil => simp [buildFrequencyTable, objGet]
  | append_singleton T a ih =>
    rw [buildFrequencyTable_snoc]
    by_cases h : a = c
    · subst h
      rw [objGet_objSet_same, ih]
      by_cases hm : a ∈ T
      · simp [hm, List.count_append]
      · simp [hm, List.count_append, List.count_eq_zero_of_not_mem hm]
    · rw [objGet_objSet_ne _ _ _ _ h, ih]
      have hc : ¬ c = a := fun e => h e.symm
      simp [List.count_append, hc, h]

theorem nodup_keys_buildFrequencyTable (T : List Symbol) :
    ((buildFrequencyTable T).map Prod.fst).Nodup := by
  induction T using List.reverseRecOn with
  | nil => simp [buildFrequencyTable]
  | append_singleton T a ih =>
    rw [buildFrequencyTable_snoc]; exact nodup_keys_objSet _ _ _ ih

theorem sum_buildFrequencyTable (T : List Symbol) :
    ((buildFrequencyTable T).map Prod.snd).sum = T.length := by
  induction T using List.reverseRecOn with
  | nil => simp [buildFrequencyTable]
  | append_singleton T a ih =>
    rw [buildFrequencyTable_snoc]
    have := sum_objSet (buildFrequencyTable T) a ((objGet (buildFrequencyTable T) a).getD 0 + 1)
    simp only [List.length_append, List.length_singleton]
    omega

/-- C5: `buildFrequencyTable(T)` has an entry for `c` exactly when `c` occurs in `T`, the entry
is the number of occurrences of `c`; no key is stored twice, every stored count is at least 1,
the counts sum to the length of `T`, and the table of the empty text is empty. -/
theorem buildFrequencyTable_counts (T : List Symbol) :
    (∀ c, objGet (buildFrequencyTable T) c = if c ∈ T then some (T.count c) else none) ∧
    (∀ c, c ∈ (buildFrequencyTable T).map Prod.fst ↔ c ∈ T) ∧
    ((buildFrequencyTable T).map Prod.fst).Nodup ∧
    (∀ e ∈ buildFrequencyTable T, e.2 = T.count e.1 ∧ 1 ≤ e.2) ∧
    ((buildFrequencyTable T).map Prod.snd).sum = T.length ∧
    buildFrequencyTable [] = [] := by
  refine ⟨objGet_buildFrequencyTable T, ?_, nodup_keys_buildFrequencyTable T, ?_,
    sum_buildFrequencyTable T, rfl⟩
  · intro c
    have h := objGet_eq_none_iff (buildFrequencyTable T) c
    rw [objGet_buildFrequencyTable] at h
    by_cases hm : c ∈ T
    · simp only [hm, if_true] at h
      constructor
      · intro _; exact hm
      · intro _; by_contra hc; exact absurd (h.mpr hc) (by simp)
    · simp only [hm, if_false, true_iff] at h
      exact ⟨fun hc => absurd hc h, fun hc => absurd hc hm⟩
  · intro e he
    have h := objGet_of_mem _ e.1 e.2 (nodup_keys_buildFrequencyTable T) he
    rw [objGet_buildFrequencyTable] at h
    by_cases hm : e.1 ∈ T
    · simp only [hm, if_true, Option.some.injEq] at h
      exact ⟨h.symm, by rw [← h]; exact List.count_pos_iff.mpr hm⟩
    · simp [hm] at h

/-! ## The heap keeps its items -/

theorem at_cons_succ (a : HuffmanNode) (l : List HuffmanNode) (i : Nat) :
    at_ (a :: l) (i + 1) = at_ l i := by
  simp [at_]

theorem at_cons_zero (a : HuffmanNode) (l : List HuffmanNode) : at_ (a :: l) 0 = a := by
  simp [at_]

theorem at_mem (l : List HuffmanNode) (i : Nat) (h : i < l.length) : at_ l i ∈ l := by
  induction l generalizing i with
  | nil => simp at h
  | cons a l ih =>
    cases i with
    | zero => simp [at_]
    | succ i =>
      rw [at_cons_succ]
      exact List.mem_cons_of_mem _ (ih i (by simpa using h))

theorem set_perm (l : List HuffmanNode) (j : Nat) (a : HuffmanNode) (h : j < l.length) :
    (at_ l j :: l.set j a).Perm (a :: l) := by
  induction l generalizing j with
  | nil => simp at h
  | cons b t ih =>
    cases j with
    | zero => simpa [at_] using List.Perm.swap a b t
    | succ j =>
      rw [at_cons_succ, List.set_cons_succ]
      have h1 : j < t.length := by simpa using h
      exact ((List.Perm.swap b (at_ t j) (t.set j a)).trans
        ((ih j h1).cons b)).trans (List.Perm.swap a b t)

theorem length_swap (l : List HuffmanNode) (i j : Nat) : (swap l i j).length = l.length := by
  simp [swap]

theorem swap_perm (l : List HuffmanNode) (i j : Nat) (hi : i < l.length) (hj : j < l.length) :
    (swap l i j).Perm l := by
  induction l generalizing i j with
  | nil => simp at hi
  | cons a t ih =>
    cases i with
    | zero =>
      cases j with
      | zero => simp [swap, at_]
      | succ j =>
        have h1 : j < t.length := by simpa using hj
        simpa [swap, at_] using set_perm t j a h1
    | succ i =>
      have h1 : i < t.length := by simpa using hi
      cases j with
      | zero =>
        simpa [swap, at_] using set_perm t i a h1
      | succ j =>
        have h2 : j < t.length := by simpa using hj
        have := ih i j h1 h2
        simpa [swap, at_] using this

theorem length_bubbleUpLoop (fuel : Nat) (data : List HuffmanNode) (index : Nat) :
    (bubbleUpLoop fuel data index).length = data.length := by
  induction fuel generalizing data index with
  | zero => rfl
  | succ fuel ih =>
    simp only [bubbleUpLoop]
    split
    · split
      · rfl
      · rw [ih, length_swap]
    · rfl

theorem bubbleUpLoop_perm (fuel : Nat) (data : List HuffmanNode) (index : Nat)
    (h : index < data.length) : (bubbleUpLoop fuel data index).Perm data := by
  induction fuel generalizing data index with
  | zero => exact List.Perm.refl _
  | succ fuel ih =>
    simp only [bubbleUpLoop]
    split
    · split
      · exact List.Perm.refl _
      · have hp : (index - 1) / 2 < data.length := by omega
        exact (ih _ _ (by rw [length_swap]; exact hp)).trans (swap_perm _ _ _ hp h)
    · exact List.Perm.refl _

theorem length_bubbleDownLoop (fuel : Nat) (data : List HuffmanNode) (index : Nat) :
    (bubbleDownLoop fuel data index).length = data.length := by
  induction fuel generalizing data index with
  | zero => rfl
  | succ fuel ih =>
    simp only [bubbleDownLoop]
    split
    · rfl
    · rw [ih, length_swap]

theorem smallestOf_lt (data : List HuffmanNode) (index : Nat) (h : index < data.length) :
    smallestOf data index < data.length := by
  simp only [smallestOf]
  split_ifs with h1 h2 h3
  · exact h2.1
  · exact h1.1
  · exact h3.1
  · exact h

theorem bubbleDownLoop_perm (fuel : Nat) (data : List HuffmanNode) (index : Nat)
    (h : index < data.length) : (bubbleDownLoop fuel data index).Perm data := by
  induction fuel generalizing data index with
  | zero => exact List.Perm.refl _
  | succ fuel ih =>
    simp only [bubbleDownLoop]
    split
    · exact List.Perm.refl _
    · have hs := smallestOf_lt data index h
      exact (ih _ _ (by rw [length_swap]; exact hs)).trans (swap_perm _ _ _ hs h)

namespace MinHeap

theorem push_perm (h : MinHeap) (node : HuffmanNode) :
    (h.push node).data.Perm (node :: h.data) := by
  simp only [push, _bubbleUp]
  refine (bubbleUpLoop_perm _ _ _ (by simp)).trans ?_
  exact List.perm_append_comm

theorem size_push (h : MinHeap) (node : HuffmanNode) : (h.push node).size = h.size + 1 := by
  simp [push, _bubbleUp, size, length_bubbleUpLoop]

theorem pop_perm (h : MinHeap) (hne : h.data ≠ []) :
    (h.pop.1 :: h.pop.2.data).Perm h.data := by
  obtain ⟨data⟩ := h
  match data, hne with
  | [only], _ => simp [pop]
  | top :: second :: rest, _ =>
    simp only [pop, _bubbleDown]
    refine List.Perm.cons top ?_
    refine (bubbleDownLoop_perm _ _ _ (by simp)).trans ?_
    have hl : at_ (top :: second :: rest) (rest.length + 1) = (second :: rest).getLast (by simp) := by
      simp [at_, List.getLast_eq_getElem, List.getD_eq_getElem?_getD]
    rw [hl]
    simp only [List.dropLast_cons₂, List.set_cons_zero]
    have := @List.dropLast_append_getLast _ (second :: rest) (by simp)
    conv_rhs => rw [← this]
    exact @List.perm_append_comm _ [_] _

theorem size_pop (h : MinHeap) (hne : h.data ≠ []) : h.pop.2.size + 1 = h.size := by
  have := (pop_perm h hne).length_eq
  simpa [size] using this

end MinHeap

/-! ## The heap order -/

theorem at_set (l : List HuffmanNode) (i j : Nat) (a : HuffmanNode) (hi : i < l.length) :
    at_ (l.set i a) j = if j = i then a else at_ l j := by
  unfold at_
  by_cases h : j = i
  · subst h
    simp [List.getD_eq_getElem?_getD, List.getElem?_set, hi]
  · have h' : ¬ i = j := fun e => h e.symm
    simp [List.getD_eq_getElem?_getD, List.getElem?_set, h, h']

theorem at_swap (l : List HuffmanNode) (a b j : Nat) (ha : a < l.length) (hb : b < l.length) :
    at_ (swap l a b) j = if j = b then at_ l a else if j = a then at_ l b else at_ l j := by
  unfold swap
  rw [at_set _ _ _ _ (by simpa using hb), at_set _ _ _ _ ha]

theorem bubbleUpLoop_ordered (fuel : Nat) (data : List HuffmanNode) (k : Nat)
    (hk : k < data.length) (hf : k ≤ fuel) (h : OrderedButUp data k) :
    HeapOrdered (bubbleUpLoop fuel data k) := by
  induction fuel generalizing data k with
  | zero =>
    have : k = 0 := by omega
    subst this
    intro i hi hlt
    exact h.1 i hi hlt (by omega)
  | succ fuel ih =>
    simp only [bubbleUpLoop]
    by_cases hk0 : k > 0
    · rw [if_pos hk0]
      by_cases hle : (at_ data ((k - 1) / 2)).freq ≤ (at_ data k).freq
      · rw [if_pos hle]
        intro i hi hlt
        by_cases hik : i = k
        · subst hik; exact hle
        · exact h.1 i hi hlt hik
      · rw [if_neg hle]
        have hp : (k - 1) / 2 < data.length := by omega
        have hpk : (k - 1) / 2 < k := by omega
        apply ih _ _ (by rw [length_swap]; exact hp) (by omega)
        constructor
        · intro i hi hlt hne
          rw [length_swap] at hlt
          rw [at_swap _ _ _ _ hp hk, at_swap _ _ _ _ hp hk]
          by_cases hik : i = k
          · subst hik
            rw [if_neg (by omega), if_pos rfl, if_pos rfl]
            omega
          · rw [if_neg hik, if_neg hne]
            by_cases hpi : (i - 1) / 2 = k
            · rw [if_pos hpi]
              exact h.2 i hi hlt hpi hk0
            · rw [if_neg hpi]
              by_cases hpp : (i - 1) / 2 = (k - 1) / 2
              · rw [if_pos hpp]
                have := h.1 i hi hlt hik
                rw [hpp] at this
                omega
              · rw [if_neg hpp]
                exact h.1 i hi hlt hik
        · intro i hi hlt hpi hp0
          rw [length_swap] at hlt
          rw [at_swap _ _ _ _ hp hk, at_swap _ _ _ _ hp hk]
          have hpp := h.1 ((k - 1) / 2) hp0 hp (by omega)
          rw [if_neg (by omega), if_neg (by omega)]
          by_cases hik : i = k
          · subst hik
            rw [if_pos rfl]
            exact hpp
          · rw [if_neg hik, if_neg (by omega)]
            have := h.1 i hi hlt hik
            rw [hpi] at this
            omega
    · rw [if_neg hk0]
      have : k = 0 := by omega
      subst this
      intro i hi hlt
      exact h.1 i hi hlt (by omega)
theorem smallestOf_spec (data : List HuffmanNode) (k : Nat) :
    (smallestOf data k = k ∨
      (smallestOf data k = 2 * k + 1 ∧ 2 * k + 1 < data.length) ∨
      (smallestOf data k = 2 * k + 2 ∧ 2 * k + 2 < data.length)) ∧
    (smallestOf data k ≠ k → (at_ data (smallestOf data k)).freq < (at_ data k).freq) ∧
    (at_ data (smallestOf data k)).freq ≤ (at_ data k).freq ∧
    (2 * k + 1 < data.length →
      (at_ data (smallestOf data k)).freq ≤ (at_ data (2 * k + 1)).freq) ∧
    (2 * k + 2 < data.length →
      (at_ data (smallestOf data k)).freq ≤ (at_ data (2 * k + 2)).freq) := by
  simp only [smallestOf]
  split_ifs with h1 h2 h3
  · refine ⟨Or.inr (Or.inr ⟨rfl, h2.1⟩), fun _ => ?_, ?_, fun _ => ?_, fun _ => ?_⟩ <;> omega
  · refine ⟨Or.inr (Or.inl ⟨rfl, h1.1⟩), fun _ => ?_, ?_, fun _ => ?_, fun h => ?_⟩
    · omega
    · omega
    · omega
    · have := fun hh => h2 ⟨h, hh⟩
      omega
  · refine ⟨Or.inr (Or.inr ⟨rfl, h3.1⟩), fun _ => ?_, ?_, fun h => ?_, fun _ => ?_⟩
    · omega
    · omega
    · have := fun hh => h1 ⟨h, hh⟩
      omega
    · omega
  · refine ⟨Or.inl rfl, fun h => absurd rfl h, Nat.le_refl _, fun h => ?_, fun h => ?_⟩
    · have := fun hh => h1 ⟨h, hh⟩
      omega
    · have := fun hh => h3 ⟨h, hh⟩
      omega

theorem bubbleDownLoop_ordered (fuel : Nat) (data : List HuffmanNode) (k : Nat)
    (hf : data.length ≤ k + fuel) (h : OrderedButDown data k) :
    HeapOrdered (bubbleDownLoop fuel data k) := by
  induction fuel generalizing data k with
  | zero =>
    intro i hi hlt
    simp only [bubbleDownLoop] at hlt
    exact h.1 i hi hlt (by omega)
  | succ fuel ih =>
    simp only [bubbleDownLoop]
    obtain ⟨hs, hlt, hle, hl, hr⟩ := smallestOf_spec data k
    by_cases he : smallestOf data k = k
    · rw [if_pos he]
      rw [he] at hl hr
      intro i hi hin
      by_cases hp : (i - 1) / 2 = k
      · rw [hp]
        have : i = 2 * k + 1 ∨ i = 2 * k + 2 := by omega
        rcases this with rfl | rfl
        · exact hl hin
        · exact hr hin
      · exact h.1 i hi hin hp
    · rw [if_neg he]
      have hlt := hlt he
      generalize smallestOf data k = s at *
      have hsn : s < data.length := by omega
      have hkn : k < data.length := by omega
      have hps : (s - 1) / 2 = k := by omega
      have hs0 : 0 < s := by omega
      apply ih _ _ (by rw [length_swap]; omega)
      constructor
      · intro i hi hin hne
        rw [length_swap] at hin
        rw [at_swap _ _ _ _ hsn hkn, at_swap _ _ _ _ hsn hkn]
        by_cases hik : i = k
        · subst hik
          rw [if_pos rfl, if_neg (by omega), if_neg hne]
          exact h.2 s hs0 hsn hps hi
        · rw [if_neg hik]
          by_cases his : i = s
          · subst his
            rw [if_pos rfl, hps, if_pos rfl]
            omega
          · rw [if_neg his, if_neg hne]
            by_cases hpk : (i - 1) / 2 = k
            · rw [if_pos hpk]
              have : i = 2 * k + 1 ∨ i = 2 * k + 2 := by omega
              rcases this with rfl | rfl
              · exact hl hin
              · exact hr hin
            · rw [if_neg hpk]
              exact h.1 i hi hin hpk
      · intro i hi hin hpi _
        rw [length_swap] at hin
        rw [at_swap _ _ _ _ hsn hkn, at_swap _ _ _ _ hsn hkn]
        rw [hps, if_pos rfl, if_neg (by omega), if_neg (by omega)]
        have := h.1 i hi hin (by omega)
        rw [hpi] at this
        exact this

theorem heapOrdered_root_le (data : List HuffmanNode) (h : HeapOrdered data) (i : Nat)
    (hi : i < data.length) : (at_ data 0).freq ≤ (at_ data i).freq := by
  induction i using Nat.strong_induction_on with
  | _ i ih =>
    by_cases h0 : i = 0
    · subst h0; exact Nat.le_refl _
    · have h1 := h i (by omega) hi
      have h2 := ih ((i - 1) / 2) (by omega) (by omega)
      omega

theorem mem_iff_at (data : List HuffmanNode) (t : HuffmanNode) :
    t ∈ data ↔ ∃ i, i < data.length ∧ at_ data i = t := by
  constructor
  · intro h
    obtain ⟨i, hi, e⟩ := List.getElem_of_mem h
    exact ⟨i, hi, by rw [at_, List.getD_eq_getElem _ _ hi, e]⟩
  · rintro ⟨i, hi, rfl⟩
    exact at_mem data i hi

namespace MinHeap

theorem push_ordered (h : MinHeap) (node : HuffmanNode) (ho : HeapOrdered h.data) :
    HeapOrdered (h.push node).data := by
  simp only [push, _bubbleUp]
  apply bubbleUpLoop_ordered _ _ _ (by simp) (Nat.le_refl _)
  have hat : ∀ i, i < h.data.length → at_ (h.data ++ [node]) i = at_ h.data i := by
    intro i hi
    simp [at_, List.getD_eq_getElem?_getD, List.getElem?_append_left hi]
  constructor
  · intro i hi hlt hne
    have hlt' : i < h.data.length := by simp at hlt hne; omega
    rw [hat i hlt', hat _ (by omega)]
    exact ho i hi hlt'
  · intro i hi hlt hp _
    simp at hlt hp
    omega

theorem pop_ordered (h : MinHeap) (ho : HeapOrdered h.data) : HeapOrdered h.pop.2.data := by
  obtain ⟨data⟩ := h
  match data with
  | [] => exact ho
  | [only] => intro i _ hlt; simp [pop] at hlt
  | top :: second :: rest =>
    simp only [pop, _bubbleDown]
    apply bubbleDownLoop_ordered _ _ _ (by simp)
    have hlen : (((top :: second :: rest).dropLast).set 0
        (at_ (top :: second :: rest) (rest.length + 1))).length = rest.length + 1 := by simp
    have hat : ∀ i, 0 < i → i < rest.length + 1 →
        at_ (((top :: second :: rest).dropLast).set 0
          (at_ (top :: second :: rest) (rest.length + 1))) i = at_ (top :: second :: rest) i := by
      intro i hi hlt
      rw [at_set _ _ _ _ (by simp), if_neg (by omega)]
      simp only [at_, List.getD_eq_getElem?_getD]
      rw [List.getElem?_dropLast, if_pos (by simp; omega)]
    constructor
    · intro i hi hlt hne
      rw [hlen] at hlt
      rw [hat i hi hlt, hat _ (by omega) (by omega)]
      exact ho i hi (by simp; omega)
    · intro i _ _ _ h0
      omega

/-- The item `pop` returns has the least `freq` of the heap. -/
theorem pop_min (h : MinHeap) (ho : HeapOrdered h.data) (t : HuffmanNode) (ht : t ∈ h.data) :
    h.pop.1.freq ≤ t.freq := by
  obtain ⟨i, hi, rfl⟩ := (mem_iff_at h.data t).mp ht
  have := heapOrdered_root_le h.data ho i hi
  obtain ⟨data⟩ := h
  match data with
  | [] => simp at hi
  | [only] => simpa [pop, at_] using this
  | top :: second :: rest => simpa [pop, at_] using this

end MinHeap

/-! ## Code lengths under the Kraft inequality -/

theorem kraftSum_cons (N l : Nat) (ls : List Nat) :
    kraftSum N (l :: ls) = 2 ^ (N - l) + kraftSum N ls := by
  simp [kraftSum]

theorem dot_cons (p : Nat × Nat) (ps : List (Nat × Nat)) : dot (p :: ps) = p.1 * p.2 + dot ps := by
  simp [dot]

theorem kraft_perm {N : Nat} {a b : List Nat} (p : a.Perm b) (h : Kraft N a) : Kraft N b := by
  refine ⟨fun l hl => h.1 l (p.mem_iff.mpr hl), ?_⟩
  have : kraftSum N b = kraftSum N a := by
    simp only [kraftSum]
    exact ((p.map _).sum_eq).symm
  rw [this]; exact h.2

theorem dot_perm {a b : List (Nat × Nat)} (p : a.Perm b) : dot a = dot b := by
  simp only [dot]
  exact (p.map _).sum_eq

/-- Moving the two largest lengths to the two smallest weights does not raise the weighted
length. -/
theorem rearrange (x y : Nat) (hxy : x ≤ y) (qs : List (Nat × Nat)) (a b : Nat)
    (hq : ∀ q ∈ qs, y ≤ q.1) :
    ∃ a' b' qs', qs'.map Prod.fst = qs.map Prod.fst ∧
      (a' :: b' :: qs'.map Prod.snd).Perm (a :: b :: qs.map Prod.snd) ∧
      b' ≤ a' ∧ (∀ q ∈ qs', q.2 ≤ b') ∧
      x * a' + y * b' + dot qs' ≤ x * a + y * b + dot qs := by
  induction qs with
  | nil =>
    by_cases hab : b ≤ a
    · exact ⟨a, b, [], rfl, List.Perm.refl _, hab, by simp, Nat.le_refl _⟩
    · refine ⟨b, a, [], rfl, List.Perm.swap _ _ _, by omega, by simp, ?_⟩
      obtain ⟨u, rfl⟩ := Nat.exists_eq_add_of_le hxy
      obtain ⟨v, rfl⟩ := Nat.exists_eq_add_of_le (show a ≤ b by omega)
      simp only [dot, List.map_nil, List.sum_nil]
      nlinarith [Nat.zero_le (u * v)]
  | cons q qs ih =>
    obtain ⟨w, l⟩ := q
    obtain ⟨a', b', qs', h1, h2, h3, h4, h5⟩ := ih (fun q hq' => hq q (List.mem_cons_of_mem _ hq'))
    have hw : y ≤ w := hq (w, l) (by simp)
    obtain ⟨u, rfl⟩ := Nat.exists_eq_add_of_le hxy
    obtain ⟨v, rfl⟩ := Nat.exists_eq_add_of_le hw
    by_cases c1 : l ≤ b'
    · refine ⟨a', b', (x + u + v, l) :: qs', by simp [h1], ?_, h3, ?_, ?_⟩
      · simp only [List.map_cons]
        refine (List.Perm.trans ?_ ((h2.cons l))).trans ?_
        · exact ((List.Perm.swap _ _ _).cons a').trans (List.Perm.swap _ _ _)
        · exact (List.Perm.swap _ _ _).trans ((List.Perm.swap _ _ _).cons a)
      · intro q hq'
        rcases List.mem_cons.mp hq' with rfl | hq'
        · exact c1
        · exact h4 q hq'
      · simp only [dot_cons]; omega
    · by_cases c2 : l ≤ a'
      · refine ⟨a', l, (x + u + v, b') :: qs', by simp [h1], ?_, c2, ?_, ?_⟩
        · simp only [List.map_cons]
          refine (List.Perm.trans ?_ ((h2.cons l))).trans ?_
          · exact (List.Perm.swap _ _ _).trans ((List.Perm.refl _).cons l)
          · exact (List.Perm.swap _ _ _).trans ((List.Perm.swap _ _ _).cons a)
        · intro q hq'
          rcases List.mem_cons.mp hq' with rfl | hq'
          · simp only; omega
          · have := h4 q hq'; omega
        · simp only [dot_cons]
          obtain ⟨p, rfl⟩ := Nat.exists_eq_add_of_le (show b' ≤ l by omega)
          nlinarith [Nat.zero_le (v * p)]
      · refine ⟨l, a', (x + u + v, b') :: qs', by simp [h1], ?_, by omega, ?_, ?_⟩
        · simp only [List.map_cons]
          refine (List.Perm.trans ?_ ((h2.cons l))).trans ?_
          · exact (List.Perm.refl _)
          · exact (List.Perm.swap _ _ _).trans ((List.Perm.swap _ _ _).cons a)
        · intro q hq'
          rcases List.mem_cons.mp hq' with rfl | hq'
          · simp only; omega
          · have := h4 q hq'; omega
        · simp only [dot_cons]
          obtain ⟨p, rfl⟩ := Nat.exists_eq_add_of_le (show a' ≤ l by omega)
          obtain ⟨r, rfl⟩ := Nat.exists_eq_add_of_le h3
          nlinarith [Nat.zero_le (v * p), Nat.zero_le (u * p), Nat.zero_le (v * r)]

theorem dvd_kraftSum (N b : Nat) (hb : b ≤ N) (ls : List Nat) (h : ∀ l ∈ ls, l ≤ b) :
    2 ^ (N - b) ∣ kraftSum N ls := by
  induction ls with
  | nil => simp [kraftSum]
  | cons l ls ih =>
    rw [kraftSum_cons]
    exact Dvd.dvd.add (pow_dvd_pow 2 (by have := h l (by simp); omega))
      (ih (fun l' hl' => h l' (List.mem_cons_of_mem _ hl')))

/-- A single longest length can be shortened to the second longest. -/
theorem kraft_shorten (N a b : Nat) (ls : List Nat) (hba : b ≤ a) (h : ∀ l ∈ ls, l ≤ b)
    (hK : Kraft N (a :: b :: ls)) : Kraft N (b :: b :: ls) := by
  obtain ⟨hN, hS⟩ := hK
  have haN : a ≤ N := hN a (by simp)
  have hbN : b ≤ N := by omega
  refine ⟨?_, ?_⟩
  · intro l hl
    simp only [List.mem_cons] at hl
    rcases hl with rfl | rfl | hl
    · exact hbN
    · exact hbN
    · exact hN l (by simp [hl])
  · by_cases hab : a = b
    · subst hab; exact hS
    · rw [kraftSum_cons, kraftSum_cons] at hS ⊢
      obtain ⟨A, hA⟩ := dvd_kraftSum N b hbN ls h
      obtain ⟨B, hB⟩ : 2 ^ (N - b) ∣ 2 ^ N := pow_dvd_pow 2 (by omega)
      have hpos : 0 < 2 ^ (N - a) := Nat.pow_pos (by norm_num)
      have hm : 0 < 2 ^ (N - b) := Nat.pow_pos (by norm_num)
      rw [hA, hB] at hS ⊢
      generalize 2 ^ (N - b) = m at *
      have : 1 + A < B := by
        by_contra hc
        have : B ≤ 1 + A := by omega
        have := Nat.mul_le_mul_left m this
        rw [Nat.mul_add] at this
        omega
      have := Nat.mul_le_mul_left m (show 1 + 1 + A ≤ B by omega)
      rw [Nat.mul_add, Nat.mul_add] at this
      omega

/-- Two equal lengths merge into one length that is shorter by one. -/
theorem kraft_merge (N b : Nat) (ls : List Nat) (hK : Kraft N (b :: b :: ls)) :
    1 ≤ b ∧ Kraft N ((b - 1) :: ls) := by
  obtain ⟨hN, hS⟩ := hK
  have hbN : b ≤ N := hN b (by simp)
  rw [kraftSum_cons, kraftSum_cons] at hS
  have hb : 1 ≤ b := by
    by_contra hc
    have : b = 0 := by omega
    subst this
    simp only [Nat.sub_zero] at hS
    have : 0 < 2 ^ N := Nat.pow_pos (by norm_num)
    omega
  refine ⟨hb, ?_, ?_⟩
  · intro l hl
    rcases List.mem_cons.mp hl with rfl | hl
    · omega
    · exact hN l (by simp [hl])
  · rw [kraftSum_cons]
    have : N - (b - 1) = (N - b) + 1 := by omega
    rw [this, pow_succ]
    omega

/-- The exchange step of Huffman's algorithm on code lengths: lengths for a list of weights
give lengths for the list with its two smallest weights merged, cheaper by the merged weight. -/
theorem key_step (N x y : Nat) (qs : List (Nat × Nat)) (a b : Nat) (hxy : x ≤ y)
    (hq : ∀ q ∈ qs, y ≤ q.1) (hK : Kraft N (a :: b :: qs.map Prod.snd)) :
    ∃ c qs', qs'.map Prod.fst = qs.map Prod.fst ∧ Kraft N (c :: qs'.map Prod.snd) ∧
      (x + y) + (x + y) * c + dot qs' ≤ x * a + y * b + dot qs := by
  obtain ⟨a', b', qs', h1, h2, h3, h4, h5⟩ := rearrange x y hxy qs a b hq
  have hK1 : Kraft N (a' :: b' :: qs'.map Prod.snd) := kraft_perm h2.symm hK
  have hK2 := kraft_shorten N a' b' _ h3 (by
    intro l hl
    obtain ⟨q, hq', rfl⟩ := List.mem_map.mp hl
    exact h4 q hq') hK1
  obtain ⟨hb, hK3⟩ := kraft_merge N b' _ hK2
  refine ⟨b' - 1, qs', h1, hK3, ?_⟩
  obtain ⟨c, rfl⟩ : ∃ c, b' = c + 1 := ⟨b' - 1, by omega⟩
  obtain ⟨p, rfl⟩ := Nat.exists_eq_add_of_le h3
  simp only [Nat.add_sub_cancel]
  nlinarith [Nat.zero_le (x * p)]

/-! ## The Kraft inequality of a prefix-free code -/

theorem mem_tailsOf (b : Bool) (cs : List (List Bool)) (t : List Bool) :
    t ∈ tailsOf b cs ↔ (b :: t) ∈ cs := by
  induction cs with
  | nil => simp [tailsOf]
  | cons c cs ih =>
    cases c with
    | nil => simp [tailsOf, ih]
    | cons b' t' =>
      by_cases hb : b' = b
      · subst hb; simp [tailsOf, ih]
      · have hb' : ¬ b = b' := fun e => hb e.symm
        simp [tailsOf, ih, hb, hb']

theorem incomparable_tails (b : Bool) (u v : List Bool) (h : Incomparable (b :: u) (b :: v)) :
    Incomparable u v := by
  constructor
  · intro hp; exact h.1 ((List.prefix_cons_inj b).mpr hp)
  · intro hp; exact h.2 ((List.prefix_cons_inj b).mpr hp)

theorem pairwise_tailsOf (b : Bool) (cs : List (List Bool)) (h : cs.Pairwise Incomparable) :
    (tailsOf b cs).Pairwise Incomparable := by
  induction cs with
  | nil => simp [tailsOf]
  | cons c cs ih =>
    rw [List.pairwise_cons] at h
    cases c with
    | nil => simpa [tailsOf] using ih h.2
    | cons b' t =>
      by_cases hb : b' = b
      · subst hb
        simp only [tailsOf, if_true, List.pairwise_cons]
        refine ⟨?_, ih h.2⟩
        intro t' ht'
        exact incomparable_tails b' t t' (h.1 _ ((mem_tailsOf b' cs t').mp ht'))
      · simpa [tailsOf, hb] using ih h.2

theorem kraftSum_split (N : Nat) (cs : List (List Bool)) (hne : ∀ c ∈ cs, c ≠ [])
    (hlen : ∀ c ∈ cs, c.length ≤ N + 1) :
    kraftSum (N + 1) (cs.map List.length) =
      kraftSum N ((tailsOf false cs).map List.length) +
      kraftSum N ((tailsOf true cs).map List.length) := by
  induction cs with
  | nil => simp [tailsOf, kraftSum]
  | cons c cs ih =>
    have ih' := ih (fun c hc => hne c (List.mem_cons_of_mem _ hc))
      (fun c hc => hlen c (List.mem_cons_of_mem _ hc))
    cases c with
    | nil => exact absurd rfl (hne [] (by simp))
    | cons b t =>
      have e : N + 1 - (b :: t).length = N - t.length := by simp
      cases b
      · simp only [List.map_cons, kraftSum_cons, tailsOf, if_true, e, ih']
        simp only [Bool.false_eq_true, if_false]
        omega
      · simp only [List.map_cons, kraftSum_cons, tailsOf, if_true, e, ih']
        simp only [Bool.true_eq_false, if_false]
        omega

theorem pairwise_with_nil (cs : List (List Bool)) (h : cs.Pairwise Incomparable)
    (hn : [] ∈ cs) : cs = [[]] := by
  cases cs with
  | nil => simp at hn
  | cons c cs =>
    rw [List.pairwise_cons] at h
    cases cs with
    | nil => simpa using hn
    | cons c' cs' =>
      exfalso
      rcases List.mem_cons.mp hn with e | e
      · exact (h.1 c' (by simp)).1 (by rw [← e]; exact List.nil_prefix)
      · exact (h.1 [] e).2 List.nil_prefix

/-- The Kraft inequality: pairwise incomparable bit strings of length at most `N`. -/
theorem kraft_of_prefix_free (N : Nat) (cs : List (List Bool)) (hlen : ∀ c ∈ cs, c.length ≤ N)
    (h : cs.Pairwise Incomparable) : Kraft N (cs.map List.length) := by
  refine ⟨by simpa using hlen, ?_⟩
  induction N generalizing cs with
  | zero =>
    cases cs with
    | nil => simp [kraftSum]
    | cons c cs =>
      have hc : c = [] := List.length_eq_zero.mp (by have := hlen c (by simp); omega)
      have := pairwise_with_nil (c :: cs) h (by simp [hc])
      rw [this]; simp [kraftSum]
  | succ N ih =>
    by_cases hn : [] ∈ cs
    · rw [pairwise_with_nil cs h hn]; simp [kraftSum]
    · have hne : ∀ c ∈ cs, c ≠ [] := fun c hc e => hn (e ▸ hc)
      rw [kraftSum_split N cs hne hlen]
      have hl : ∀ b, ∀ t ∈ tailsOf b cs, t.length ≤ N := by
        intro b t ht
        have := hlen _ ((mem_tailsOf b cs t).mp ht)
        simpa using this
      have h0 := ih (tailsOf false cs) (hl false) (pairwise_tailsOf false cs h)
      have h1 := ih (tailsOf true cs) (hl true) (pairwise_tailsOf true cs h)
      rw [pow_succ]
      omega

/-! ## The tree built from a frequency table -/

theorem full_ne_null {t : HuffmanNode} (h : Full t) : t ≠ HuffmanNode.null := by
  cases h <;> simp

theorem freq_mk (c : Option Symbol) (f : Nat) (l r : HuffmanNode) :
    (HuffmanNode.mk c f l r).freq = f := rfl

theorem leaves_leaf (c : Symbol) (f : Nat) :
    leaves (HuffmanNode.mk (some c) f HuffmanNode.null HuffmanNode.null) = [(c, f)] := by
  simp [leaves, HuffmanNode.isLeaf]

theorem leaves_node (f : Nat) (l r : HuffmanNode) :
    leaves (HuffmanNode.mk none f l r) = leaves l ++ leaves r := by
  simp [leaves]

/-- A sum of at most `2 ^ 53` is a double, so the addition of JavaScript numbers is exact. -/
theorem jsAdd_exact (a b : Nat) (h : a + b ≤ 2 ^ 53) : jsAdd a b = a + b := by
  simp only [jsAdd, roundDouble]
  rw [if_pos h]

theorem exactWeights_perm {a b : List HuffmanNode} (p : a.Perm b) (h : ExactWeights a) :
    ExactWeights b :=
  ⟨fun t ht => h.1 t (p.mem_iff.mpr ht),
    by rw [← ((p.flatMap_right leaves).map Prod.snd).sum_eq]; exact h.2⟩

theorem forest_perm {a b : List HuffmanNode} (p : a.Perm b) (h : Forest a) : Forest b :=
  fun t ht => h t (p.mem_iff.mpr ht)

theorem initialHeap_fold_perm (es : List (Symbol × Nat)) (h : MinHeap) :
    (es.foldl (fun heap e => heap.push (HuffmanNode.mk (some e.1) e.2 HuffmanNode.null
        HuffmanNode.null)) h).data.Perm (es.reverse.map leafNode ++ h.data) := by
  induction es generalizing h with
  | nil => simp
  | cons e es ih =>
    simp only [List.foldl_cons]
    refine (ih _).trans ?_
    simp only [List.reverse_cons, List.map_append, List.map_cons, List.map_nil,
      List.append_assoc, List.singleton_append]
    exact List.Perm.append_left _ (MinHeap.push_perm h _)

theorem initialHeap_perm (F : JSObject Nat) :
    (initialHeap F).data.Perm ((objectEntries F).map leafNode) := by
  have := initialHeap_fold_perm (objectEntries F) MinHeap.empty
  simp only [MinHeap.empty, List.append_nil] at this
  exact this.trans ((List.reverse_perm _).map _)

theorem size_initialHeap (F : JSObject Nat) : (initialHeap F).size = (objectEntries F).length := by
  simpa [MinHeap.size] using (initialHeap_perm F).length_eq

theorem forest_leafNodes (es : List (Symbol × Nat)) : Forest (es.map leafNode) := by
  intro t ht
  obtain ⟨e, _, rfl⟩ := List.mem_map.mp ht
  exact Full.leaf _ _

theorem flatMap_leaves_leafNodes (es : List (Symbol × Nat)) :
    (es.map leafNode).flatMap leaves = es := by
  induction es with
  | nil => rfl
  | cons e es ih =>
    simp only [List.map_cons, List.flatMap_cons, ih]
    simp [leafNode, leaves_leaf]

/-- One iteration of the merge loop: the two popped items and the heap after the push. -/
theorem merge_step (heap : MinHeap) (h2 : heap.size > 1) :
    ∃ rest, heap.data.Perm (heap.pop.1 :: heap.pop.2.pop.1 :: rest) ∧
      (heap.pop.2.pop.2.push (HuffmanNode.mk none (jsAdd heap.pop.1.freq heap.pop.2.pop.1.freq)
        heap.pop.1 heap.pop.2.pop.1)).data.Perm
        (HuffmanNode.mk none (jsAdd heap.pop.1.freq heap.pop.2.pop.1.freq)
          heap.pop.1 heap.pop.2.pop.1 :: rest) := by
  have hne : heap.data ≠ [] := by
    intro h; simp [MinHeap.size, h] at h2
  have p1 := MinHeap.pop_perm heap hne
  have s1 := MinHeap.size_pop heap hne
  have hne1 : heap.pop.2.data ≠ [] := by
    intro h; simp [MinHeap.size, h] at s1; simp [MinHeap.size] at h2; omega
  have p2 := MinHeap.pop_perm heap.pop.2 hne1
  exact ⟨heap.pop.2.pop.2.data, p1.symm.trans ((p2.symm).cons _), MinHeap.push_perm _ _⟩

theorem mergeLoop_spec (fuel : Nat) (heap : MinHeap) (hs : heap.size ≤ fuel + 1)
    (h1 : 1 ≤ heap.size) (hf : Forest heap.data) :
    ∃ t, (mergeLoop fuel heap).data = [t] ∧ Full t ∧
      (leaves t).Perm (heap.data.flatMap leaves) := by
  induction fuel generalizing heap with
  | zero =>
    have hl : heap.data.length = 1 := by simp only [MinHeap.size] at hs h1; omega
    obtain ⟨t, ht⟩ := List.length_eq_one.mp hl
    refine ⟨t, by simpa [mergeLoop] using ht, hf t (by simp [ht]), ?_⟩
    simp [ht]
  | succ fuel ih =>
    simp only [mergeLoop]
    by_cases h2 : heap.size > 1
    · simp only [h2, if_true]
      obtain ⟨rest, pa, pb⟩ := merge_step heap h2
      have hfa := forest_perm pa hf
      have hl := hfa heap.pop.1 (by simp)
      have hr := hfa heap.pop.2.pop.1 (by simp)
      have hsz : (heap.pop.2.pop.2.push (HuffmanNode.mk none
          (jsAdd heap.pop.1.freq heap.pop.2.pop.1.freq) heap.pop.1 heap.pop.2.pop.1)).size
          = heap.size - 1 := by
        have e1 := pa.length_eq
        have e2 := pb.length_eq
        simp only [MinHeap.size, List.length_cons] at *
        omega
      have hfb : Forest (heap.pop.2.pop.2.push (HuffmanNode.mk none
          (jsAdd heap.pop.1.freq heap.pop.2.pop.1.freq) heap.pop.1 heap.pop.2.pop.1)).data := by
        refine forest_perm pb.symm ?_
        intro t ht
        rcases List.mem_cons.mp ht with rfl | ht
        · exact Full.node _ _ _ hl hr
        · exact hfa t (by simp [ht])
      obtain ⟨t, e, ft, pl⟩ := ih _ (by omega) (by omega) hfb
      refine ⟨t, e, ft, pl.trans ?_⟩
      refine ((pb.flatMap_right leaves).trans ?_).trans (pa.flatMap_right leaves).symm
      simp [leaves_node]
    · have hl : heap.data.length = 1 := by simp only [MinHeap.size] at h2 h1; omega
      obtain ⟨t, ht⟩ := List.length_eq_one.mp hl
      simp only [h2, if_false]
      exact ⟨t, ht, hf t (by simp [ht]), by simp [ht]⟩

/-- The shape of the result of `buildHuffmanTree` by the number of entries. -/
theorem buildHuffmanTree_cases (F : JSObject Nat) :
    (objectEntries F = [] ∧ buildHuffmanTree F = HuffmanNode.null) ∨
    (∃ e, objectEntries F = [e] ∧
      buildHuffmanTree F = HuffmanNode.mk none e.2 (leafNode e) HuffmanNode.null) ∨
    (2 ≤ (objectEntries F).length ∧ Full (buildHuffmanTree F) ∧
      (leaves (buildHuffmanTree F)).Perm (objectEntries F)) := by
  have hp := initialHeap_perm F
  have hsz := size_initialHeap F
  rcases h : objectEntries F with _ | ⟨e, _ | ⟨e2, es⟩⟩
  · left
    rw [h] at hsz
    simp [buildHuffmanTree, hsz]
  · right; left
    refine ⟨e, rfl, ?_⟩
    rw [h] at hsz hp
    have hd : (initialHeap F).data = [leafNode e] := by
      simpa using hp
    simp [buildHuffmanTree, hsz, MinHeap.pop, hd, leafNode, HuffmanNode.freq]
  · right; right
    rw [h] at hsz
    have hlen : (e :: e2 :: es).length = es.length + 2 := by simp
    refine ⟨by simp, ?_⟩
    have hf : Forest (initialHeap F).data := forest_perm hp.symm (forest_leafNodes _)
    obtain ⟨t, et, ft, pl⟩ := mergeLoop_spec (initialHeap F).size (initialHeap F)
      (by omega) (by rw [hsz, hlen]; omega) hf
    have hb : buildHuffmanTree F = t := by
      simp only [buildHuffmanTree]
      rw [if_neg (by rw [hsz, hlen]; omega), if_neg (by rw [hsz, hlen]; omega)]
      simp [MinHeap.pop, et]
    rw [hb, ← h]
    refine ⟨ft, pl.trans ?_⟩
    refine (hp.flatMap_right leaves).trans ?_
    rw [flatMap_leaves_leafNodes]

/-! ## The merge loop builds a tree of least weighted path length -/

theorem leaves_null : leaves HuffmanNode.null = [] := by simp [leaves]

theorem pathCost_succ (t : HuffmanNode) (d : Nat) :
    pathCost t (d + 1) = pathCost t d + ((leaves t).map Prod.snd).sum := by
  induction t generalizing d with
  | null => simp [pathCost, leaves]
  | mk char freq left right ihl ihr =>
    rw [pathCost.eq_def, pathCost.eq_def (HuffmanNode.mk char freq left right), leaves.eq_def]
    simp only
    split
    · simp [Nat.mul_add]
    · rw [ihl (d + 1), ihr (d + 1), List.map_append, List.sum_append]
      omega

theorem pathCost_node (f : Nat) (l r : HuffmanNode) :
    pathCost (HuffmanNode.mk none f l r) 0 =
      pathCost l 0 + ((leaves l).map Prod.snd).sum +
        (pathCost r 0 + ((leaves r).map Prod.snd).sum) := by
  rw [pathCost.eq_def]
  simp only
  rw [pathCost_succ l 0, pathCost_succ r 0]
  split
  · rename_i h; cases h
  · rfl

theorem exists_perm_cons_of_map_fst (ps : List (Nat × Nat)) (w : Nat) (ws : List Nat)
    (h : (ps.map Prod.fst).Perm (w :: ws)) :
    ∃ a qs, ps.Perm ((w, a) :: qs) ∧ (qs.map Prod.fst).Perm ws := by
  have hm : w ∈ ps.map Prod.fst := h.mem_iff.mpr (by simp)
  obtain ⟨p, hp, rfl⟩ := List.mem_map.mp hm
  obtain ⟨qs, hq⟩ : ∃ qs, ps.Perm (p :: qs) := by
    obtain ⟨s, t, rfl⟩ := List.append_of_mem hp
    exact ⟨s ++ t, List.perm_middle⟩
  refine ⟨p.2, qs, hq, ?_⟩
  have := hq.map Prod.fst
  rw [List.map_cons] at this
  exact List.Perm.cons_inv (this.symm.trans h)

theorem initialHeap_ordered (F : JSObject Nat) : HeapOrdered (initialHeap F).data := by
  have key : ∀ (es : List (Symbol × Nat)) (h : MinHeap), HeapOrdered h.data →
      HeapOrdered (es.foldl (fun heap e => heap.push (HuffmanNode.mk (some e.1) e.2
        HuffmanNode.null HuffmanNode.null)) h).data := by
    intro es
    induction es with
    | nil => intro h ho; exact ho
    | cons e es ih => intro h ho; exact ih _ (MinHeap.push_ordered h _ ho)
  apply key
  intro i _ hlt
  simp [MinHeap.empty] at hlt

/-- One iteration of the merge loop on an ordered heap of full trees: the two popped items
are the two of least `freq`, and the heap afterwards is again an ordered heap of full trees. -/
theorem merge_step_ordered (heap : MinHeap) (h2 : heap.size > 1) (hf : Forest heap.data)
    (ho : HeapOrdered heap.data) :
    heap.data.Perm (heap.pop.1 :: heap.pop.2.pop.1 :: heap.pop.2.pop.2.data) ∧
    (heap.pop.2.pop.2.push (HuffmanNode.mk none (jsAdd heap.pop.1.freq heap.pop.2.pop.1.freq)
        heap.pop.1 heap.pop.2.pop.1)).data.Perm
        (HuffmanNode.mk none (jsAdd heap.pop.1.freq heap.pop.2.pop.1.freq)
          heap.pop.1 heap.pop.2.pop.1 :: heap.pop.2.pop.2.data) ∧
    heap.pop.1.freq ≤ heap.pop.2.pop.1.freq ∧
    (∀ r ∈ heap.pop.2.pop.2.data, heap.pop.2.pop.1.freq ≤ r.freq) ∧
    Forest (heap.pop.2.pop.2.push (HuffmanNode.mk none
        (jsAdd heap.pop.1.freq heap.pop.2.pop.1.freq) heap.pop.1 heap.pop.2.pop.1)).data ∧
    HeapOrdered (heap.pop.2.pop.2.push (HuffmanNode.mk none
        (jsAdd heap.pop.1.freq heap.pop.2.pop.1.freq) heap.pop.1 heap.pop.2.pop.1)).data := by
  have hne : heap.data ≠ [] := by
    intro h; simp [MinHeap.size, h] at h2
  have p1 := MinHeap.pop_perm heap hne
  have s1 := MinHeap.size_pop heap hne
  have hne1 : heap.pop.2.data ≠ [] := by
    intro h; simp [MinHeap.size, h] at s1; simp [MinHeap.size] at h2; omega
  have p2 := MinHeap.pop_perm heap.pop.2 hne1
  have pa : heap.data.Perm (heap.pop.1 :: heap.pop.2.pop.1 :: heap.pop.2.pop.2.data) :=
    p1.symm.trans ((p2.symm).cons _)
  have pb := MinHeap.push_perm heap.pop.2.pop.2 (HuffmanNode.mk none
    (jsAdd heap.pop.1.freq heap.pop.2.pop.1.freq) heap.pop.1 heap.pop.2.pop.1)
  have ho1 := MinHeap.pop_ordered heap ho
  have ho2 := MinHeap.pop_ordered heap.pop.2 ho1
  have hfa := forest_perm pa hf
  have hl := hfa heap.pop.1 (by simp)
  have hr := hfa heap.pop.2.pop.1 (by simp)
  refine ⟨pa, pb, ?_, ?_, ?_, MinHeap.push_ordered _ _ ho2⟩
  · exact MinHeap.pop_min heap ho _ (pa.mem_iff.mpr (by simp))
  · intro r hr'
    exact MinHeap.pop_min heap.pop.2 ho1 r (p2.mem_iff.mp (by simp [hr']))
  · refine forest_perm pb.symm ?_
    intro t ht
    rcases List.mem_cons.mp ht with rfl | ht
    · exact Full.node _ _ _ hl hr
    · exact hfa t (by simp [ht])

/-- While the total of the leaves is at most `2 ^ 53`, an iteration of the merge loop adds the
two popped frequencies exactly, and the heap afterwards has exact weights again. -/
theorem merge_step_exact (heap : MinHeap) (h2 : heap.size > 1) (hx : ExactWeights heap.data) :
    jsAdd heap.pop.1.freq heap.pop.2.pop.1.freq = heap.pop.1.freq + heap.pop.2.pop.1.freq ∧
    ExactWeights (heap.pop.2.pop.2.push (HuffmanNode.mk none
        (jsAdd heap.pop.1.freq heap.pop.2.pop.1.freq) heap.pop.1 heap.pop.2.pop.1)).data := by
  obtain ⟨rest, pa, pb⟩ := merge_step heap h2
  have hxa := exactWeights_perm pa hx
  have hl := hxa.1 heap.pop.1 (by simp)
  have hr := hxa.1 heap.pop.2.pop.1 (by simp)
  have hsum := hxa.2
  simp only [List.flatMap_cons, List.map_append, List.sum_append] at hsum
  have he : jsAdd heap.pop.1.freq heap.pop.2.pop.1.freq
      = heap.pop.1.freq + heap.pop.2.pop.1.freq := jsAdd_exact _ _ (by omega)
  refine ⟨he, exactWeights_perm pb.symm ⟨?_, ?_⟩⟩
  · intro t ht
    rcases List.mem_cons.mp ht with rfl | ht
    · rw [freq_mk, he, leaves_node, List.map_append, List.sum_append, ← hl, ← hr]
    · exact hxa.1 t (by simp [ht])
  · simp only [List.flatMap_cons, List.map_append, List.sum_append, leaves_node]
    omega

/-- The invariant of the merge loop while no addition is rounded: whatever lengths satisfying
the Kraft inequality are given to the items of the heap, the weighted path length of the final
tree is at most the path lengths inside the items plus the weighted lengths. -/
theorem mergeLoop_optimal (N fuel : Nat) (heap : MinHeap) (hs : heap.size ≤ fuel + 1)
    (h1 : 1 ≤ heap.size) (hf : Forest heap.data) (hx : ExactWeights heap.data)
    (ho : HeapOrdered heap.data)
    (t : HuffmanNode) (ht : (mergeLoop fuel heap).data = [t])
    (ps : List (Nat × Nat)) (hp : (ps.map Prod.fst).Perm (heap.data.map HuffmanNode.freq))
    (hK : Kraft N (ps.map Prod.snd)) :
    pathCost t 0 ≤ (heap.data.map (fun n => pathCost n 0)).sum + dot ps := by
  induction fuel generalizing heap ps with
  | zero =>
    have hl : heap.data.length = 1 := by simp only [MinHeap.size] at hs h1; omega
    obtain ⟨t0, ht0⟩ := List.length_eq_one.mp hl
    simp only [mergeLoop, ht0, List.cons.injEq, and_true] at ht
    subst ht
    simp [ht0]
  | succ fuel ih =>
    simp only [mergeLoop] at ht
    by_cases h2 : heap.size > 1
    · rw [if_pos h2] at ht
      obtain ⟨pa, pb, hxy, hrest, hfb, hob⟩ := merge_step_ordered heap h2 hf ho
      obtain ⟨he, hxb⟩ := merge_step_exact heap h2 hx
      have hxa := exactWeights_perm pa hx
      have hl := hxa.1 heap.pop.1 (by simp)
      have hr := hxa.1 heap.pop.2.pop.1 (by simp)
      rw [he] at pb hfb hob hxb ht
      generalize heap.pop.1 = x at *
      generalize heap.pop.2.pop.1 = y at *
      generalize heap.pop.2.pop.2.data = rest at *
      have hsz : (heap.pop.2.pop.2.push (HuffmanNode.mk none (x.freq + y.freq) x y)).size
          = heap.size - 1 := by
        have e1 := pa.length_eq
        have e2 := pb.length_eq
        simp only [MinHeap.size, List.length_cons] at *
        omega
      have hp1 : (ps.map Prod.fst).Perm (x.freq :: y.freq :: rest.map HuffmanNode.freq) :=
        hp.trans (by simpa using pa.map HuffmanNode.freq)
      obtain ⟨a, qs1, q1, q2⟩ := exists_perm_cons_of_map_fst ps _ _ hp1
      obtain ⟨b, qs, q3, q4⟩ := exists_perm_cons_of_map_fst qs1 _ _ q2
      have hps : ps.Perm ((x.freq, a) :: (y.freq, b) :: qs) := q1.trans (q3.cons _)
      have hK1 : Kraft N (a :: b :: qs.map Prod.snd) :=
        kraft_perm (by simpa using hps.map Prod.snd) hK
      have hq : ∀ q ∈ qs, y.freq ≤ q.1 := by
        intro q hq'
        have : q.1 ∈ rest.map HuffmanNode.freq :=
          q4.mem_iff.mp (List.mem_map.mpr ⟨q, hq', rfl⟩)
        obtain ⟨r, hr', e⟩ := List.mem_map.mp this
        rw [← e]; exact hrest r hr'
      obtain ⟨c, qs', k1, k2, k3⟩ := key_step N x.freq y.freq qs a b hxy hq hK1
      have := ih _ (by omega) (by omega) hfb hxb hob ht ((x.freq + y.freq, c) :: qs')
        (by
          simp only [List.map_cons, k1]
          refine List.Perm.trans ?_ (pb.map HuffmanNode.freq).symm
          simp only [List.map_cons, freq_mk]
          exact q4.cons _)
        (by simpa using k2)
      rw [(pb.map (fun n => pathCost n 0)).sum_eq] at this
      rw [(pa.map (fun n => pathCost n 0)).sum_eq, dot_perm hps]
      simp only [List.map_cons, List.sum_cons, dot_cons, pathCost_node, ← hl, ← hr] at this ⊢
      omega
    · rw [if_neg h2] at ht
      have hl : heap.data.length = 1 := by simp only [MinHeap.size] at h2 h1; omega
      obtain ⟨t0, ht0⟩ := List.length_eq_one.mp hl
      simp only [ht0, List.cons.injEq, and_true] at ht
      subst ht
      simp [ht0]

/-! ## The loop counters never cut a loop short -/

theorem bubbleUpLoop_succ (fuel : Nat) (data : List HuffmanNode) (index : Nat) :
    bubbleUpLoop (fuel + 1) data index =
      if index > 0 then
        if (at_ data ((index - 1) / 2)).freq ≤ (at_ data index).freq then data
        else bubbleUpLoop fuel (swap data ((index - 1) / 2) index) ((index - 1) / 2)
      else data := rfl

theorem bubbleDownLoop_succ (fuel : Nat) (data : List HuffmanNode) (index : Nat) :
    bubbleDownLoop (fuel + 1) data index =
      if smallestOf data index = index then data
      else bubbleDownLoop fuel (swap data (smallestOf data index) index)
        (smallestOf data index) := rfl

theorem mergeLoop_succ (fuel : Nat) (heap : MinHeap) :
    mergeLoop (fuel + 1) heap =
      if heap.size > 1 then
        mergeLoop fuel (heap.pop.2.pop.2.push (HuffmanNode.mk none
          (jsAdd heap.pop.1.freq heap.pop.2.pop.1.freq) heap.pop.1 heap.pop.2.pop.1))
      else heap := rfl

/-- More iterations than `index` allow `_bubbleUp` nothing new: the loop has ended. -/
theorem bubbleUpLoop_fuel (fuel : Nat) (data : List HuffmanNode) (index : Nat)
    (h : index ≤ fuel) : bubbleUpLoop (fuel + 1) data index = bubbleUpLoop fuel data index := by
  induction fuel generalizing data index with
  | zero =>
    have : index = 0 := by omega
    subst this
    rfl
  | succ fuel ih =>
    rw [bubbleUpLoop_succ (fuel + 1) data index, bubbleUpLoop_succ fuel data index]
    split
    · split
      · rfl
      · exact ih _ _ (by omega)
    · rfl

/-- More iterations than the length of the array allow `_bubbleDown` nothing new. -/
theorem bubbleDownLoop_fuel (fuel : Nat) (data : List HuffmanNode) (index : Nat)
    (h : data.length ≤ index + fuel) :
    bubbleDownLoop (fuel + 1) data index = bubbleDownLoop fuel data index := by
  induction fuel generalizing data index with
  | zero =>
    have hs : smallestOf data index = index := by
      rcases (smallestOf_spec data index).1 with h1 | ⟨_, h1⟩ | ⟨_, h1⟩
      · exact h1
      · omega
      · omega
    rw [bubbleDownLoop_succ, if_pos hs]
    rfl
  | succ fuel ih =>
    rw [bubbleDownLoop_succ (fuel + 1) data index, bubbleDownLoop_succ fuel data index]
    split
    · rfl
    · rename_i hne
      apply ih
      rw [length_swap]
      rcases (smallestOf_spec data index).1 with h1 | ⟨h1, _⟩ | ⟨h1, _⟩
      · exact absurd h1 hne
      · omega
      · omega

/-- More iterations than the size of the heap allow the merge loop nothing new. -/
theorem mergeLoop_fuel (fuel : Nat) (heap : MinHeap) (h : heap.size ≤ fuel + 1) :
    mergeLoop (fuel + 1) heap = mergeLoop fuel heap := by
  induction fuel generalizing heap with
  | zero =>
    have : ¬ heap.size > 1 := by omega
    rw [mergeLoop_succ, if_neg this]
    rfl
  | succ fuel ih =>
    rw [mergeLoop_succ (fuel + 1) heap, mergeLoop_succ fuel heap]
    split
    · rename_i h2
      apply ih
      obtain ⟨rest, pa, pb⟩ := merge_step heap h2
      have e1 := pa.length_eq
      have e2 := pb.length_eq
      simp only [MinHeap.size, List.length_cons] at *
      omega
    · rfl

/-- The counter of `excessBits` is large enough whenever `n < 2 ^ (53 + fuel)`: the result
`k` is then the number of bits to drop, so that `n / 2 ^ k` has exactly 53 bits when `n` has
more than 53. -/
theorem excessBits_spec (fuel n : Nat) (h : n < 2 ^ (53 + fuel)) :
    n < 2 ^ 53 * 2 ^ excessBits fuel n ∧
      (2 ^ 53 ≤ n → 2 ^ 52 * 2 ^ excessBits fuel n ≤ n) := by
  induction fuel generalizing n with
  | zero =>
    simp only [excessBits, Nat.pow_zero, Nat.mul_one]
    exact ⟨h, fun h2 => by omega⟩
  | succ fuel ih =>
    rw [excessBits]
    split
    · rename_i hlt
      simp only [Nat.pow_zero, Nat.mul_one]
      exact ⟨hlt, fun h2 => by omega⟩
    · rename_i hge
      have hh : n / 2 < 2 ^ (53 + fuel) := by
        have : 2 ^ (53 + (fuel + 1)) = 2 * 2 ^ (53 + fuel) := by
          rw [← Nat.add_assoc, Nat.pow_succ, Nat.mul_comm]
        omega
      obtain ⟨a, b⟩ := ih (n / 2) hh
      rw [Nat.pow_succ]
      constructor
      · omega
      · intro _
        by_cases h54 : 2 ^ 53 ≤ n / 2
        · have := b h54
          omega
        · have hz : excessBits fuel (n / 2) = 0 := by
            cases fuel with
            | zero => rfl
            | succ f => rw [excessBits, if_pos (by omega)]
          rw [hz]
          omega

/-- The counter that `roundDouble` gives to `excessBits` is large enough. -/
theorem excessBits_self (n : Nat) :
    n < 2 ^ 53 * 2 ^ excessBits n n ∧ (2 ^ 53 ≤ n → 2 ^ 52 * 2 ^ excessBits n n ≤ n) :=
  excessBits_spec n n (lt_of_lt_of_le (Nat.lt_two_pow n)
    (Nat.pow_le_pow_right (by decide) (Nat.le_add_left n 53)))

/-! ## The order of `Object.entries` -/

theorem isArrayIndexKey_iff (k : Nat) : isArrayIndexKey k = true ↔ ∃ d, d < 10 ∧ k = 48 + d := by
  simp only [isArrayIndexKey, Bool.and_eq_true, decide_eq_true_eq]
  constructor
  · intro h; exact ⟨k - 48, by omega, by omega⟩
  · rintro ⟨d, hd, rfl⟩; omega

theorem mem_objectEntries_iff {α : Type} (o : JSObject α) (e : Symbol × α) :
    e ∈ objectEntries o ↔
      (isArrayIndexKey e.1 = true ∧ objGet o e.1 = some e.2) ∨
      (isArrayIndexKey e.1 = false ∧ e ∈ o) := by
  obtain ⟨k, v⟩ := e
  simp only [objectEntries, List.mem_append, List.mem_filterMap, List.mem_range, List.mem_filter,
    Option.map_eq_some', Prod.mk.injEq, Bool.not_eq_true', isArrayIndexKey_iff]
  constructor
  · rintro (⟨d, hd, v', hv, rfl, rfl⟩ | ⟨h1, h2⟩)
    · exact Or.inl ⟨⟨d, hd, rfl⟩, hv⟩
    · exact Or.inr ⟨h2, h1⟩
  · rintro (⟨⟨d, hd, rfl⟩, hv⟩ | ⟨h1, h2⟩)
    · exact Or.inl ⟨d, hd, v, hv, rfl, rfl⟩
    · exact Or.inr ⟨h2, h1⟩

theorem objectEntries_eq_nil_iff {α : Type} (o : JSObject α) : objectEntries o = [] ↔ o = [] := by
  constructor
  · intro h
    cases o with
    | nil => rfl
    | cons e rest =>
      exfalso
      have hm : e ∈ objectEntries (e :: rest) := by
        rw [mem_objectEntries_iff]
        cases hk : isArrayIndexKey e.1
        · exact Or.inr ⟨rfl, by simp⟩
        · exact Or.inl ⟨rfl, by simp [objGet]⟩
      rw [h] at hm
      simp at hm
  · rintro rfl
    simp [objectEntries, objGet]

theorem nodup_of_nodup_keys {α : Type} (o : JSObject α) (h : (o.map Prod.fst).Nodup) : o.Nodup :=
  List.Nodup.of_map _ h

theorem objectEntries_nodup {α : Type} (o : JSObject α) (h : (o.map Prod.fst).Nodup) :
    (objectEntries o).Nodup := by
  simp only [objectEntries]
  refine List.Nodup.append ?_ ((nodup_of_nodup_keys o h).filter _) ?_
  · refine List.Nodup.filterMap ?_ (List.nodup_range 10)
    intro a a' b hb hb'
    simp only [Option.mem_def, Option.map_eq_some'] at hb hb'
    obtain ⟨v, _, rfl⟩ := hb
    obtain ⟨v', _, h2⟩ := hb'
    simp only [Prod.mk.injEq] at h2
    exact (Nat.add_left_cancel h2.1).symm
  · intro e h1 h2
    simp only [List.mem_filterMap, List.mem_range, Option.map_eq_some'] at h1
    obtain ⟨d, hd, v, _, rfl⟩ := h1
    simp only [List.mem_filter, Bool.not_eq_true'] at h2
    have := (isArrayIndexKey_iff (48 + d)).mpr ⟨d, hd, rfl⟩
    simp [this] at h2

theorem objectEntries_perm {α : Type} (o : JSObject α) (h : (o.map Prod.fst).Nodup) :
    (objectEntries o).Perm o := by
  rw [List.perm_ext_iff_of_nodup (objectEntries_nodup o h) (nodup_of_nodup_keys o h)]
  intro e
  rw [mem_objectEntries_iff]
  constructor
  · rintro (⟨_, h2⟩ | ⟨_, h2⟩)
    · exact mem_of_objGet o e.1 e.2 h2
    · exact h2
  · intro he
    cases hk : isArrayIndexKey e.1
    · exact Or.inr ⟨rfl, he⟩
    · exact Or.inl ⟨rfl, objGet_of_mem o e.1 e.2 h he⟩

theorem objectEntries_keys_nodup {α : Type} (o : JSObject α) (h : (o.map Prod.fst).Nodup) :
    ((objectEntries o).map Prod.fst).Nodup :=
  (((objectEntries_perm o h).map Prod.fst).nodup_iff).mpr h

/-- C6: `buildHuffmanTree` returns `null` exactly when the frequency table has no entries; so
the tree of the frequency table of a text is `null` exactly for the empty text. -/
theorem buildHuffmanTree_null_iff (F : JSObject Nat) (T : List Symbol) :
    (buildHuffmanTree F = HuffmanNode.null ↔ F = []) ∧
    buildHuffmanTree (buildFrequencyTable []) = HuffmanNode.null ∧
    (buildHuffmanTree (buildFrequencyTable T) = HuffmanNode.null ↔ T = []) := by
  have key : ∀ G : JSObject Nat, buildHuffmanTree G = HuffmanNode.null ↔ G = [] := by
    intro G
    rw [← objectEntries_eq_nil_iff]
    rcases buildHuffmanTree_cases G with ⟨h1, h2⟩ | ⟨e, h1, h2⟩ | ⟨h1, h2, _⟩
    · simp [h1, h2]
    · simp [h1, h2]
    · constructor
      · intro h; exact absurd h (full_ne_null h2)
      · intro h; rw [h] at h1; simp at h1
  refine ⟨key F, (key _).mpr rfl, (key _).trans ?_⟩
  constructor
  · intro h
    by_contra hT
    obtain ⟨c, hc⟩ := List.exists_mem_of_ne_nil T hT
    have := objGet_buildFrequencyTable T c
    rw [h] at this
    simp [objGet, hc] at this
  · rintro rfl; rfl

/-! ## The code table -/

theorem generateCodes_eq_foldl (t : HuffmanNode) (pfx : List Char) (cm : JSObject (List Char)) :
    generateCodes t pfx cm = (codeWrites t pfx).foldl (fun m e => objSet m e.1 e.2) cm := by
  induction t generalizing pfx cm with
  | null => simp [generateCodes, codeWrites]
  | mk char freq left right ihl ihr =>
    unfold generateCodes codeWrites
    split
    · simp
    · rw [List.foldl_append, ← ihl, ← ihr]

theorem mem_objSet {α : Type} (o : JSObject α) (k : Symbol) (v : α) (e : Symbol × α)
    (h : e ∈ objSet o k v) : e ∈ o ∨ e = (k, v) := by
  induction o with
  | nil => simpa [objSet] using h
  | cons p rest ih =>
    obtain ⟨k1, v1⟩ := p
    by_cases h1 : k1 = k
    · simp only [objSet, h1, if_true, List.mem_cons] at h
      rcases h with h | h
      · exact Or.inr h
      · exact Or.inl (List.mem_cons_of_mem _ h)
    · simp only [objSet, h1, if_false, List.mem_cons] at h
      rcases h with h | h
      · exact Or.inl (by simp [h])
      · rcases ih h with h | h
        · exact Or.inl (List.mem_cons_of_mem _ h)
        · exact Or.inr h

theorem mem_foldl_objSet {α : Type} (L : List (Symbol × α)) (o : JSObject α) (e : Symbol × α)
    (h : e ∈ L.foldl (fun m e => objSet m e.1 e.2) o) : e ∈ o ∨ e ∈ L := by
  induction L generalizing o with
  | nil => exact Or.inl h
  | cons a L ih =>
    rcases ih _ h with h | h
    · rcases mem_objSet _ _ _ _ h with h | h
      · exact Or.inl h
      · exact Or.inr (by simp [h])
    · exact Or.inr (List.mem_cons_of_mem _ h)

theorem mem_codeTable (t : HuffmanNode) (e : Symbol × List Char) (h : e ∈ codeTable t) :
    e ∈ codeWrites t [] := by
  rw [codeTable, generateCodes_eq_foldl] at h
  rcases mem_foldl_objSet _ _ _ h with h | h
  · simp at h
  · exact h

theorem orZero_ne_nil (pfx : List Char) : orZero pfx ≠ [] := by
  unfold orZero; split <;> simp [*]

theorem prefix_orZero (pfx : List Char) : pfx <+: orZero pfx := by
  unfold orZero; split <;> simp [*]

theorem mem_orZero (pfx : List Char) (ch : Char) (h : ch ∈ orZero pfx) : ch ∈ pfx ∨ ch = '0' := by
  unfold orZero at h
  split at h
  · right; simpa using h
  · left; exact h

theorem codeWrites_mk (char : Option Symbol) (freq : Nat) (left right : HuffmanNode)
    (pfx : List Char) :
    (∃ c, codeWrites (HuffmanNode.mk char freq left right) pfx = [(c, orZero pfx)]) ∨
    codeWrites (HuffmanNode.mk char freq left right) pfx =
      codeWrites left (pfx ++ ['0']) ++ codeWrites right (pfx ++ ['1']) := by
  rw [codeWrites.eq_def]
  simp only
  split
  · exact Or.inl ⟨_, rfl⟩
  · exact Or.inr rfl

/-- Every code written below `prefix` extends `prefix`, is not empty, and adds only the
characters 0 and 1. -/
theorem codeWrites_shape (t : HuffmanNode) (pfx : List Char) (e : Symbol × List Char)
    (h : e ∈ codeWrites t pfx) :
    pfx <+: e.2 ∧ e.2 ≠ [] ∧ ∀ ch ∈ e.2, ch ∈ pfx ∨ ch = '0' ∨ ch = '1' := by
  induction t generalizing pfx with
  | null => simp [codeWrites] at h
  | mk char freq left right ihl ihr =>
    rcases codeWrites_mk char freq left right pfx with ⟨c, hc⟩ | hc <;> rw [hc] at h
    · simp only [List.mem_singleton] at h
      subst h
      refine ⟨prefix_orZero pfx, orZero_ne_nil pfx, ?_⟩
      intro ch hch
      rcases mem_orZero pfx ch hch with h | h
      · exact Or.inl h
      · exact Or.inr (Or.inl h)
    · rcases List.mem_append.mp h with h | h
      · obtain ⟨h1, h2, h3⟩ := ihl _ h
        refine ⟨(List.prefix_append _ _).trans h1, h2, ?_⟩
        intro ch hch
        rcases h3 ch hch with h | h
        · rcases List.mem_append.mp h with h | h
          · exact Or.inl h
          · exact Or.inr (Or.inl (by simpa using h))
        · exact Or.inr h
      · obtain ⟨h1, h2, h3⟩ := ihr _ h
        refine ⟨(List.prefix_append _ _).trans h1, h2, ?_⟩
        intro ch hch
        rcases h3 ch hch with h | h
        · rcases List.mem_append.mp h with h | h
          · exact Or.inl h
          · exact Or.inr (Or.inr (by simpa using h))
        · exact Or.inr h

theorem branches_disjoint (pfx w1 w2 : List Char) (h1 : pfx ++ ['0'] <+: w1)
    (h2 : pfx ++ ['1'] <+: w2) : ¬ w1 <+: w2 ∧ ¬ w2 <+: w1 := by
  have key : ∀ w : List Char, pfx ++ ['0'] <+: w → pfx ++ ['1'] <+: w → False := by
    intro w a b
    have := List.prefix_of_prefix_length_le a b (by simp)
    have := this.eq_of_length (by simp)
    simp at this
  exact ⟨fun h => key w2 (h1.trans h) h2, fun h => key w1 h1 (h2.trans h)⟩

theorem codeWrites_prefix_free (t : HuffmanNode) (pfx : List Char) (e1 e2 : Symbol × List Char)
    (h1 : e1 ∈ codeWrites t pfx) (h2 : e2 ∈ codeWrites t pfx) (hp : e1.2 <+: e2.2) :
    e1.1 = e2.1 := by
  induction t generalizing pfx with
  | null => simp [codeWrites] at h1
  | mk char freq left right ihl ihr =>
    rcases codeWrites_mk char freq left right pfx with ⟨c, hc⟩ | hc <;> rw [hc] at h1 h2
    · simp only [List.mem_singleton] at h1 h2
      rw [h1, h2]
    · rcases List.mem_append.mp h1 with a | a <;> rcases List.mem_append.mp h2 with b | b
      · exact ihl _ a b
      · exact absurd hp (branches_disjoint pfx _ _ (codeWrites_shape _ _ _ a).1
          (codeWrites_shape _ _ _ b).1).1
      · exact absurd hp (branches_disjoint pfx _ _ (codeWrites_shape _ _ _ b).1
          (codeWrites_shape _ _ _ a).1).2
      · exact ihr _ a b

/-- C2: in the code table generated from the tree of a frequency table, the code of one symbol
is never a prefix of the code of a different symbol. -/
theorem codeTable_prefix_free (F : JSObject Nat) (c1 c2 : Symbol) (w1 w2 : List Char)
    (h1 : objGet (codeTable (buildHuffmanTree F)) c1 = some w1)
    (h2 : objGet (codeTable (buildHuffmanTree F)) c2 = some w2)
    (hne : c1 ≠ c2) : ¬ w1 <+: w2 := by
  intro hp
  exact hne (codeWrites_prefix_free _ [] (c1, w1) (c2, w2)
    (mem_codeTable _ _ (mem_of_objGet _ _ _ h1)) (mem_codeTable _ _ (mem_of_objGet _ _ _ h2)) hp)

/-- An instance of the prefix-free property: the codes of "a" and "b" in the table of
`{a: 5, b: 2, r: 2, c: 1, d: 1}`. -/
theorem codeTable_prefix_free_witness :
    objGet (codeTable (buildHuffmanTree [(97, 5), (98, 2), (114, 2), (99, 1), (100, 1)])) 97
      = some ['0'] ∧
    objGet (codeTable (buildHuffmanTree [(97, 5), (98, 2), (114, 2), (99, 1), (100, 1)])) 98
      = some ['1', '1', '0'] ∧
    (97 : Symbol) ≠ 98 ∧ ¬ ['0'] <+: ['1', '1', '0'] :=
  ⟨by decide, by decide, by decide,
    codeTable_prefix_free [(97, 5), (98, 2), (114, 2), (99, 1), (100, 1)] 97 98 ['0']
      ['1', '1', '0'] (by decide) (by decide) (by decide)⟩

/-- C3: every code that `generateCodes(node, "", {})` leaves in the code table, for any node at
all, has length at least 1 and consists of the characters 0 and 1; a root that is a bare leaf
gets the code "0". -/
theorem codeTable_codes_nonempty (node : HuffmanNode) (c : Symbol) (code : List Char)
    (h : objGet (codeTable node) c = some code) :
    1 ≤ code.length ∧ (∀ ch ∈ code, ch = '0' ∨ ch = '1') ∧
    ∀ (s : Symbol) (f : Nat),
      codeTable (HuffmanNode.mk (some s) f HuffmanNode.null HuffmanNode.null) = [(s, ['0'])] := by
  obtain ⟨_, h2, h3⟩ := codeWrites_shape node [] (c, code)
    (mem_codeTable _ _ (mem_of_objGet _ _ _ h))
  refine ⟨List.length_pos.mpr h2, ?_, ?_⟩
  · intro ch hch
    rcases h3 ch hch with h | h
    · simp at h
    · exact h
  · intro s f
    simp [codeTable, generateCodes, HuffmanNode.isLeaf, orZero, objSet]

/-- An instance of the non-empty codes property: the code of "a" in the table of `{a: 4}`. -/
theorem codeTable_codes_nonempty_witness :
    objGet (codeTable (buildHuffmanTree [(97, 4)])) 97 = some ['0'] ∧
    1 ≤ ['0'].length ∧ (∀ ch ∈ ['0'], ch = '0' ∨ ch = '1') ∧
    ∀ (s : Symbol) (f : Nat),
      codeTable (HuffmanNode.mk (some s) f HuffmanNode.null HuffmanNode.null) = [(s, ['0'])] :=
  ⟨by decide, codeTable_codes_nonempty (buildHuffmanTree [(97, 4)]) 97 ['0'] (by decide)⟩

/-! ## Decoding reads the first `bitLength` bits -/

theorem walk_nil (root : HuffmanNode) (st : DecodeState) : walk root [] st = some st := rfl

theorem walk_cons (root : HuffmanNode) (b : Nat) (bits : List Nat) (st : DecodeState) :
    walk root (b :: bits) st = (decodeStep root st b).bind (walk root bits) := by
  simp only [walk, List.foldlM_cons]
  rfl

theorem walk_append (root : HuffmanNode) (a b : List Nat) (st : DecodeState) :
    walk root (a ++ b) st = (walk root a st).bind (walk root b) := by
  simp only [walk, List.foldlM_append]
  rfl

theorem decodeStep_bitsRead (root : HuffmanNode) (st st' : DecodeState) (bit : Nat)
    (h : decodeStep root st bit = some st') : st'.bitsRead = st.bitsRead + 1 := by
  unfold decodeStep at h
  split at h
  · simp at h
  · split at h
    · simp at h
    · split at h <;> simp only [Option.some.injEq] at h <;> rw [← h]

theorem walk_bitsRead (root : HuffmanNode) (bits : List Nat) (st st' : DecodeState)
    (h : walk root bits st = some st') : st'.bitsRead = st.bitsRead + bits.length := by
  induction bits generalizing st with
  | nil => simp only [walk_nil, Option.some.injEq] at h; simp [← h]
  | cons b bits ih =>
    rw [walk_cons] at h
    cases hs : decodeStep root st b with
    | none => simp [hs] at h
    | some st1 =>
      rw [hs] at h
      have := ih st1 h
      have := decodeStep_bitsRead _ _ _ _ hs
      simp only [List.length_cons]; omega

theorem length_bitsFrom (byte i : Nat) : (bitsFrom byte i).length = i := by
  induction i with
  | zero => rfl
  | succ i ih => simp [bitsFrom, ih]

theorem decodeByte_eq_walk (root : HuffmanNode) (L byte i : Nat) (st : DecodeState) :
    decodeByte root L byte i st = walk root ((bitsFrom byte i).take (L - st.bitsRead)) st := by
  induction i generalizing st with
  | zero => simp [decodeByte, bitsFrom, walk_nil]
  | succ i ih =>
    simp only [decodeByte, bitsFrom]
    by_cases h : st.bitsRead < L
    · obtain ⟨n, hn⟩ : ∃ n, L - st.bitsRead = n + 1 := ⟨L - st.bitsRead - 1, by omega⟩
      rw [if_pos h, hn, List.take_succ_cons, walk_cons]
      cases hs : decodeStep root st ((byte >>> i) &&& 1) with
      | none => rfl
      | some st1 =>
        have := decodeStep_bitsRead _ _ _ _ hs
        simp only [Option.some_bind]
        rw [ih st1]
        congr 2
        omega
    · rw [if_neg h]
      have : L - st.bitsRead = 0 := by omega
      rw [this, List.take_zero, walk_nil]

theorem foldlM_decodeByte_eq_walk (root : HuffmanNode) (L : Nat) (data : List Nat)
    (st : DecodeState) :
    data.foldlM (fun st byte => decodeByte root L byte 8 st) st =
      walk root ((bitsOfBytes data).take (L - st.bitsRead)) st := by
  induction data generalizing st with
  | nil => simp [bitsOfBytes, walk_nil]
  | cons byte data ih =>
    simp only [List.foldlM_cons, bitsOfBytes, List.flatMap_cons]
    rw [List.take_append_eq_append_take, walk_append, ← decodeByte_eq_walk, length_bitsFrom]
    cases hs : decodeByte root L byte 8 st with
    | none => rfl
    | some st1 =>
      have hb : st1.bitsRead = st.bitsRead + min (L - st.bitsRead) 8 := by
        rw [decodeByte_eq_walk] at hs
        have := walk_bitsRead _ _ _ _ hs
        simpa [length_bitsFrom, Nat.min_comm] using this
      show data.foldlM (fun st byte => decodeByte root L byte 8 st) st1 = _
      rw [ih st1]
      simp only [Option.some_bind, bitsOfBytes]
      congr 2
      omega

/-- The loops of `decodeBytes` are the tree walk over the first `bitLength` bits of the data. -/
theorem decodeBytesState_eq_walk (data : List Nat) (root : HuffmanNode) (L : Nat) :
    decodeBytesState data root L = walk root ((bitsOfBytes data).take L) ⟨[], root, 0⟩ := by
  rw [decodeBytesState, foldlM_decodeByte_eq_walk]
  rfl

theorem length_bitsOfBytes (data : List Nat) : (bitsOfBytes data).length = 8 * data.length := by
  induction data with
  | nil => rfl
  | cons b data ih =>
    simp only [bitsOfBytes, List.flatMap_cons, List.length_append, length_bitsFrom,
      List.length_cons] at *
    omega

theorem getD_bitsFrom (byte i k : Nat) (h : k < i) :
    (bitsFrom byte i).getD k 0 = (byte >>> (i - 1 - k)) &&& 1 := by
  induction i generalizing k with
  | zero => omega
  | succ i ih =>
    cases k with
    | zero => simp [bitsFrom]
    | succ k =>
      simp only [bitsFrom, List.getD_cons_succ]
      rw [ih k (by omega)]
      congr 2
      omega

theorem getD_bitsOfBytes (data : List Nat) (i : Nat) (h : i < 8 * data.length) :
    (bitsOfBytes data).getD i 0 = bitOf data i := by
  induction data generalizing i with
  | nil => simp at h
  | cons b data ih =>
    simp only [bitsOfBytes, List.flatMap_cons]
    by_cases hi : i < 8
    · rw [List.getD_append _ _ _ _ (by rw [length_bitsFrom]; exact hi), getD_bitsFrom _ _ _ hi]
      have h1 : i / 8 = 0 := by omega
      have h2 : i % 8 = i := by omega
      simp [bitOf, h1, h2]
    · rw [List.getD_append_right _ _ _ _ (by rw [length_bitsFrom]; omega), length_bitsFrom]
      have := ih (i - 8) (by simp only [List.length_cons] at h; omega)
      simp only [bitsOfBytes] at this
      rw [this]
      have h1 : i / 8 = (i - 8) / 8 + 1 := by omega
      have h2 : i % 8 = (i - 8) % 8 := by omega
      simp [bitOf, h1, h2]

/-- Two byte arrays that are long enough and agree on their first `L` bits have the same first
`L` bits as lists. -/
theorem take_bitsOfBytes_eq (D1 D2 : List Nat) (L : Nat)
    (h1 : (L + 7) / 8 ≤ D1.length) (h2 : (L + 7) / 8 ≤ D2.length)
    (hb : ∀ i, i < L → bitOf D1 i = bitOf D2 i) :
    (bitsOfBytes D1).take L = (bitsOfBytes D2).take L := by
  apply List.ext_getElem
  · simp only [List.length_take, length_bitsOfBytes]; omega
  · intro i hi1 hi2
    simp only [List.length_take, length_bitsOfBytes] at hi1 hi2
    rw [List.getElem_take, List.getElem_take]
    have a := getD_bitsOfBytes D1 i (by omega)
    have b := getD_bitsOfBytes D2 i (by omega)
    rw [List.getD_eq_getElem _ _ (by rw [length_bitsOfBytes]; omega)] at a b
    rw [a, b]
    exact hb i (by omega)

/-- C9 (as amended): for every root and bit length `L`, two byte arrays with at least
`ceil(L / 8)` bytes that agree on their first `L` bits decode alike: `decodeBytes` returns the
same text for both or raises the `TypeError` for both, with the same local variables at the
end; and whenever `decodeBytes` returns, exactly `L` bits have been consumed. -/
theorem decodeBytes_padding_irrelevant (root : HuffmanNode) (L : Nat) (D1 D2 : List Nat)
    (h1 : (L + 7) / 8 ≤ D1.length) (h2 : (L + 7) / 8 ≤ D2.length)
    (hb : ∀ i, i < L → bitOf D1 i = bitOf D2 i) :
    decodeBytes D1 root L = decodeBytes D2 root L ∧
    decodeBytesState D1 root L = decodeBytesState D2 root L ∧
    ∀ st, decodeBytesState D1 root L = some st → st.bitsRead = L := by
  have e : decodeBytesState D1 root L = decodeBytesState D2 root L := by
    rw [decodeBytesState_eq_walk, decodeBytesState_eq_walk, take_bitsOfBytes_eq D1 D2 L h1 h2 hb]
  refine ⟨by rw [decodeBytes, decodeBytes, e], e, ?_⟩
  intro st hst
  rw [decodeBytesState_eq_walk] at hst
  have := walk_bitsRead _ _ _ _ hst
  simp only [List.length_take, length_bitsOfBytes] at this
  omega

/-- An instance of the padding property: the bytes `0x00` and `0x0F` with
`bitLength = 4` on the tree of `{a: 4}`. -/
theorem decodeBytes_padding_irrelevant_witness :
    (4 + 7) / 8 ≤ [0].length ∧ (4 + 7) / 8 ≤ [15].length ∧
    (∀ i, i < 4 → bitOf [0] i = bitOf [15] i) ∧
    decodeBytes [0] (buildHuffmanTree [(97, 4)]) 4 =
      decodeBytes [15] (buildHuffmanTree [(97, 4)]) 4 ∧
    decodeBytesState [0] (buildHuffmanTree [(97, 4)]) 4 =
      decodeBytesState [15] (buildHuffmanTree [(97, 4)]) 4 ∧
    ∀ st, decodeBytesState [0] (buildHuffmanTree [(97, 4)]) 4 = some st → st.bitsRead = 4 :=
  ⟨by decide, by decide, by decide,
    decodeBytes_padding_irrelevant (buildHuffmanTree [(97, 4)]) 4 [0] [15]
      (by decide) (by decide) (by decide)⟩

/-- C9 fails as stated: on the tree of the one-symbol table `{a: 1}` and the two bytes
`0x80 0x00` with `bitLength = 16`, the first bit steps to the missing one-child and
`decodeBytes` raises a `TypeError`; it does not consume 16 bits and returns no text. -/
theorem decodeBytes_consumed_counterexample :
    (16 + 7) / 8 ≤ [128, 0].length ∧
    decodeBytes [128, 0] (buildHuffmanTree [(97, 1)]) 16 = none ∧
    ¬ ∃ st, decodeBytesState [128, 0] (buildHuffmanTree [(97, 1)]) 16 = some st ∧
      st.bitsRead = 16 := by
  refine ⟨by decide, by decide, ?_⟩
  have h : decodeBytesState [128, 0] (buildHuffmanTree [(97, 1)]) 16 = none := by decide
  rw [h]
  simp

/-! ## Bit packing -/

theorem bitStringOf_eq_flatMap (T : List Symbol) (C : JSObject (List Char)) :
    bitStringOf T C = T.flatMap (fun ch => codeText (objGet C ch)) := by
  have key : ∀ (acc : List Char),
      T.foldl (fun bitString ch => bitString ++ codeText (objGet C ch)) acc =
        acc ++ T.flatMap (fun ch => codeText (objGet C ch)) := by
    induction T with
    | nil => intro acc; simp
    | cons c T ih => intro acc; simp [List.foldl_cons, ih, List.flatMap_cons, List.append_assoc]
  simpa [bitStringOf] using key []

theorem bitAt_le_one (S : List Char) (L i : Nat) : bitAt S L i ≤ 1 := by
  unfold bitAt; split <;> simp

theorem packByte_succ (S : List Char) (L j byte bi : Nat) :
    packByte S L (j + 1) byte bi = packByte S L j (2 * byte + bitAt S L bi) (bi + 1) := by
  simp only [packByte, bitAt]
  split
  · rw [Nat.shiftLeft_eq, pow_one, Nat.mul_comm,
      ← Nat.mul_add_lt_is_or (show 1 < 2 ^ 1 by norm_num) byte, pow_one]
  · rw [Nat.shiftLeft_eq, pow_one, Nat.mul_comm]; rfl

theorem packByte_spec (S : List Char) (L j byte bi : Nat) :
    (packByte S L j byte bi).2 = bi + j ∧
    (packByte S L j byte bi).1 / 2 ^ j = byte ∧
    ∀ k, k < j → (packByte S L j byte bi).1 / 2 ^ (j - 1 - k) % 2 = bitAt S L (bi + k) := by
  induction j generalizing byte bi with
  | zero => simp [packByte]
  | succ j ih =>
    rw [packByte_succ]
    obtain ⟨h1, h2, h3⟩ := ih (2 * byte + bitAt S L bi) (bi + 1)
    have hb := bitAt_le_one S L bi
    refine ⟨by omega, ?_, ?_⟩
    · rw [pow_succ, ← Nat.div_div_eq_div_mul, h2]; omega
    · intro k hk
      cases k with
      | zero =>
        have : j + 1 - 1 - 0 = j := by omega
        rw [this, h2]; simp only [Nat.add_zero]; omega
      | succ k =>
        have e1 : j + 1 - 1 - (k + 1) = j - 1 - k := by omega
        have e2 : bi + (k + 1) = bi + 1 + k := by omega
        rw [e1, e2]
        exact h3 k (by omega)

/-- The state of the outer loop of `encodeText` after `n` iterations. -/
theorem encode_loop (S : List Char) (L m n : Nat) (h : n ≤ m) :
    (List.range n).foldl
      (fun (st : List Nat × Nat) i =>
        ((st.1.set i ((packByte S L 8 0 st.2).1 % 256)), (packByte S L 8 0 st.2).2))
      (List.replicate m 0, 0) =
    ((List.range n).map (fun i => (packByte S L 8 0 (8 * i)).1 % 256) ++
      List.replicate (m - n) 0, 8 * n) := by
  induction n with
  | zero => simp
  | succ n ih =>
    rw [List.range_succ, List.foldl_append, ih (by omega)]
    simp only [List.foldl_cons, List.foldl_nil, List.map_append, List.map_cons, List.map_nil,
      (packByte_spec S L 8 0 (8 * n)).1]
    refine Prod.ext ?_ (by simp only; omega)
    simp only
    obtain ⟨r, hr⟩ : ∃ r, m - n = r + 1 := ⟨m - n - 1, by omega⟩
    have hr2 : m - (n + 1) = r := by omega
    rw [hr, hr2, List.replicate_succ]
    have hl : ((List.range n).map (fun i => (packByte S L 8 0 (8 * i)).1 % 256)).length = n := by
      simp
    rw [List.set_append_right _ _ (by rw [hl])]
    simp [hl]

theorem encodeText_dataBytes (T : List Symbol) (C : JSObject (List Char)) :
    (encodeText T C).dataBytes =
      (List.range (((bitStringOf T C).length + 7) / 8)).map
        (fun i => (packByte (bitStringOf T C) (bitStringOf T C).length 8 0 (8 * i)).1 % 256) := by
  simp only [encodeText]
  rw [encode_loop _ _ _ _ (Nat.le_refl _)]
  simp

theorem packByte_lt (S : List Char) (L bi : Nat) : (packByte S L 8 0 bi).1 < 256 := by
  have := (packByte_spec S L 8 0 bi).2.1
  have h2 : 0 < 2 ^ 8 := by norm_num
  rw [Nat.div_eq_zero_iff h2] at this
  simpa using this

theorem bitOf_encodeText (T : List Symbol) (C : JSObject (List Char)) (i : Nat)
    (h : i < 8 * (((bitStringOf T C).length + 7) / 8)) :
    bitOf (encodeText T C).dataBytes i = bitAt (bitStringOf T C) (bitStringOf T C).length i := by
  have hi : i / 8 < ((bitStringOf T C).length + 7) / 8 := by omega
  rw [bitOf, encodeText_dataBytes, List.getD_eq_getElem _ _ (by simpa using hi)]
  simp only [List.getElem_map, List.getElem_range, Nat.mod_eq_of_lt (packByte_lt _ _ _),
    Nat.shiftRight_eq_div_pow, Nat.and_one_is_mod]
  have := (packByte_spec (bitStringOf T C) (bitStringOf T C).length 8 0 (8 * (i / 8))).2.2
    (i % 8) (Nat.mod_lt _ (by norm_num))
  have e1 : 8 - 1 - i % 8 = 7 - i % 8 := by omega
  have e2 : 8 * (i / 8) + i % 8 = i := Nat.div_add_mod i 8
  rw [e1, e2] at this
  exact this

/-- C8: for a code table with a 0/1 code for every symbol of the text, with `S` the codes of
the symbols concatenated in input order, `encodeText` returns `bitLength = length(S)` and
`ceil(bitLength / 8)` bytes, each below 256, and bit `7 - i mod 8` of byte `floor(i / 8)` is 1
exactly when `i < bitLength` and `S[i]` is the character 1. -/
theorem encodeText_packing (T : List Symbol) (C : JSObject (List Char))
    (hC : ∀ ch ∈ T, ∃ code, objGet C ch = some code ∧ ∀ x ∈ code, x = '0' ∨ x = '1') :
    (encodeText T C).bitLength = (T.flatMap (fun ch => (objGet C ch).getD [])).length ∧
    (encodeText T C).dataBytes.length = ((encodeText T C).bitLength + 7) / 8 ∧
    (∀ b ∈ (encodeText T C).dataBytes, b < 256) ∧
    ∀ i, i < 8 * (encodeText T C).dataBytes.length →
      (bitOf (encodeText T C).dataBytes i = 1 ↔
        (i < (encodeText T C).bitLength ∧
          (T.flatMap (fun ch => (objGet C ch).getD []))[i]? = some '1')) := by
  have hS : bitStringOf T C = T.flatMap (fun ch => (objGet C ch).getD []) := by
    rw [bitStringOf_eq_flatMap]
    have : ∀ (l : List Symbol), (∀ ch ∈ l, ∃ code, objGet C ch = some code ∧
        ∀ x ∈ code, x = '0' ∨ x = '1') →
        l.flatMap (fun ch => codeText (objGet C ch)) =
          l.flatMap (fun ch => (objGet C ch).getD []) := by
      intro l hl
      induction l with
      | nil => rfl
      | cons c l ih =>
        obtain ⟨code, hc, _⟩ := hl c (by simp)
        rw [List.flatMap_cons, List.flatMap_cons, ih (fun ch h => hl ch (List.mem_cons_of_mem _ h)),
          hc]
        rfl
    exact this T hC
  have hL : (encodeText T C).bitLength = (bitStringOf T C).length := rfl
  have hlen : (encodeText T C).dataBytes.length = ((bitStringOf T C).length + 7) / 8 := by
    rw [encodeText_dataBytes]; simp
  refine ⟨by rw [hL, hS], by rw [hlen, hL], ?_, ?_⟩
  · intro b hb
    rw [encodeText_dataBytes] at hb
    obtain ⟨i, _, rfl⟩ := List.mem_map.mp hb
    exact Nat.mod_lt _ (by norm_num)
  · intro i hi
    rw [hlen] at hi
    rw [bitOf_encodeText T C i hi, hL, ← hS, bitAt]
    split
    · rename_i h; simpa using h
    · rename_i h; simpa using h

/-- An instance of the bit packing property: the text "aba" with the code table
`{a: "0", b: "1"}`. -/
theorem encodeText_packing_witness :
    (∀ ch ∈ [97, 98, 97], ∃ code, objGet [(97, ['0']), (98, ['1'])] ch = some code ∧
      ∀ x ∈ code, x = '0' ∨ x = '1') ∧
    (encodeText [97, 98, 97] [(97, ['0']), (98, ['1'])]).bitLength =
      ([97, 98, 97].flatMap (fun ch => (objGet [(97, ['0']), (98, ['1'])] ch).getD [])).length ∧
    (encodeText [97, 98, 97] [(97, ['0']), (98, ['1'])]).dataBytes.length =
      ((encodeText [97, 98, 97] [(97, ['0']), (98, ['1'])]).bitLength + 7) / 8 ∧
    (∀ b ∈ (encodeText [97, 98, 97] [(97, ['0']), (98, ['1'])]).dataBytes, b < 256) ∧
    ∀ i, i < 8 * (encodeText [97, 98, 97] [(97, ['0']), (98, ['1'])]).dataBytes.length →
      (bitOf (encodeText [97, 98, 97] [(97, ['0']), (98, ['1'])]).dataBytes i = 1 ↔
        (i < (encodeText [97, 98, 97] [(97, ['0']), (98, ['1'])]).bitLength ∧
          ([97, 98, 97].flatMap (fun ch => (objGet [(97, ['0']), (98, ['1'])] ch).getD []))[i]?
            = some '1')) :=
  ⟨by simp [objGet], encodeText_packing [97, 98, 97] [(97, ['0']), (98, ['1'])]
    (by simp [objGet])⟩

/-! ## Decoding the encoded text -/

theorem decodeStep_descend (root : HuffmanNode) (res : List Symbol) (b : Nat)
    (c : Option Symbol) (f : Nat) (l r : HuffmanNode) (bit : Nat)
    (h : (if bit = 0 then l else r) ≠ HuffmanNode.null) :
    decodeStep root ⟨res, HuffmanNode.mk c f l r, b⟩ bit =
      some (descend root ⟨res, HuffmanNode.mk c f l r, b⟩ (if bit = 0 then l else r)) := by
  simp only [decodeStep]
  cases hn : (if bit = 0 then l else r) with
  | null => exact absurd hn h
  | mk char freq l' r' => simp only [descend]; split <;> rfl

theorem codeWrites_node (f : Nat) (l r : HuffmanNode) (pfx : List Char) :
    codeWrites (HuffmanNode.mk none f l r) pfx =
      codeWrites l (pfx ++ ['0']) ++ codeWrites r (pfx ++ ['1']) := by
  rw [codeWrites.eq_def]
  simp only
  split
  · rename_i h; cases h
  · rfl

theorem codeText_some (w : List Char) : codeText (some w) = w := rfl

/-- Below a full node, every written code extends the prefix by the path to its leaf, and the
walk along that path emits the symbol and returns to the root. -/
theorem full_walk (n : HuffmanNode) (hn : Full n) (pfx : List Char) (hp : pfx ≠ [])
    (e : Symbol × List Char) (he : e ∈ codeWrites n pfx) :
    ∃ s, e.2 = pfx ++ s ∧ ∀ (root : HuffmanNode) (st : DecodeState),
      walk root (s.map charBit) (descend root st n) =
        some ⟨st.result ++ [e.1], root, st.bitsRead + 1 + s.length⟩ := by
  induction hn generalizing pfx with
  | leaf c f =>
    have hw : codeWrites (HuffmanNode.mk (some c) f HuffmanNode.null HuffmanNode.null) pfx
        = [(c, pfx)] := by
      simp [codeWrites, HuffmanNode.isLeaf, orZero, hp]
    rw [hw, List.mem_singleton] at he
    subst he
    refine ⟨[], by simp, ?_⟩
    intro root st
    simp [walk_nil, descend, HuffmanNode.isLeaf, charText]
  | node f l r hl hr ihl ihr =>
    have hw := codeWrites_node f l r pfx
    have hnl : (HuffmanNode.mk none f l r).isLeaf = false := by
      cases hl <;> simp [HuffmanNode.isLeaf]
    rw [hw] at he
    rcases List.mem_append.mp he with he | he
    · obtain ⟨s, hs, hwalk⟩ := ihl (pfx ++ ['0']) (by simp) he
      refine ⟨'0' :: s, by simp [hs], ?_⟩
      intro root st
      have hd : descend root st (HuffmanNode.mk none f l r) =
          ⟨st.result, HuffmanNode.mk none f l r, st.bitsRead + 1⟩ := by
        simp [descend, hnl]
      rw [hd, List.map_cons, walk_cons]
      have := decodeStep_descend root st.result (st.bitsRead + 1) none f l r (charBit '0')
        (by simpa [charBit] using full_ne_null hl)
      rw [this]
      simp only [Option.some_bind, charBit, Char.reduceEq, if_false, if_true]
      rw [hwalk]
      simp only [List.length_cons]
      congr 2
      omega
    · obtain ⟨s, hs, hwalk⟩ := ihr (pfx ++ ['1']) (by simp) he
      refine ⟨'1' :: s, by simp [hs], ?_⟩
      intro root st
      have hd : descend root st (HuffmanNode.mk none f l r) =
          ⟨st.result, HuffmanNode.mk none f l r, st.bitsRead + 1⟩ := by
        simp [descend, hnl]
      rw [hd, List.map_cons, walk_cons]
      have := decodeStep_descend root st.result (st.bitsRead + 1) none f l r (charBit '1')
        (by simpa [charBit] using full_ne_null hr)
      rw [this]
      simp only [Option.some_bind, charBit, if_true, one_ne_zero, if_false]
      rw [hwalk]
      simp only [List.length_cons]
      congr 2
      omega

/-- From the root, the walk along a written code emits its symbol and is back at the root. -/
theorem root_walk (root : HuffmanNode) (hr : RootOK root) (e : Symbol × List Char)
    (he : e ∈ codeWrites root []) (res : List Symbol) (b : Nat) :
    walk root (e.2.map charBit) ⟨res, root, b⟩ = some ⟨res ++ [e.1], root, b + e.2.length⟩ := by
  obtain ⟨f, l, r, rfl, hl, hr⟩ := hr
  have hw : codeWrites (HuffmanNode.mk none f l r) [] =
      codeWrites l ['0'] ++ codeWrites r ['1'] := codeWrites_node f l r []
  rw [hw] at he
  rcases List.mem_append.mp he with he | he
  · obtain ⟨s, hs, hwalk⟩ := full_walk l hl ['0'] (by simp) e he
    rw [hs, List.map_append, walk_append]
    simp only [List.map_cons, List.map_nil, walk_cons, walk_nil]
    have := decodeStep_descend (HuffmanNode.mk none f l r) res b none f l r (charBit '0')
      (by simpa [charBit] using full_ne_null hl)
    rw [this]
    simp only [Option.some_bind, charBit, Char.reduceEq, if_false, if_true]
    rw [hwalk]
    simp only [List.length_append, List.length_singleton]
    congr 2
    omega
  · rcases hr with hr | hr
    · obtain ⟨s, hs, hwalk⟩ := full_walk r hr ['1'] (by simp) e he
      rw [hs, List.map_append, walk_append]
      simp only [List.map_cons, List.map_nil, walk_cons, walk_nil]
      have := decodeStep_descend (HuffmanNode.mk none f l r) res b none f l r (charBit '1')
        (by simpa [charBit] using full_ne_null hr)
      rw [this]
      simp only [Option.some_bind, charBit, if_true, one_ne_zero, if_false]
      rw [hwalk]
      simp only [List.length_append, List.length_singleton]
      congr 2
      omega
    · subst hr
      simp [codeWrites] at he

/-- The walk over the concatenated codes of a text emits the text. -/
theorem walk_text (root : HuffmanNode) (hr : RootOK root) (C : JSObject (List Char))
    (T : List Symbol)
    (hC : ∀ ch ∈ T, ∃ w, objGet C ch = some w ∧ (ch, w) ∈ codeWrites root [])
    (res : List Symbol) (b : Nat) :
    walk root ((T.flatMap (fun ch => codeText (objGet C ch))).map charBit) ⟨res, root, b⟩ =
      some ⟨res ++ T, root, b + (T.flatMap (fun ch => codeText (objGet C ch))).length⟩ := by
  induction T generalizing res b with
  | nil => simp [walk_nil]
  | cons c T ih =>
    obtain ⟨w, hw, hm⟩ := hC c (by simp)
    rw [List.flatMap_cons, List.map_append, walk_append, hw, codeText_some,
      root_walk root hr (c, w) hm res b]
    simp only [Option.some_bind]
    rw [ih (fun ch h => hC ch (List.mem_cons_of_mem _ h))]
    simp only [List.length_append, List.append_assoc, List.singleton_append]
    congr 2
    omega

/-- The first `bitLength` bits of the packed bytes are the bits of the bit string. -/
theorem take_bitsOfBytes_encodeText (T : List Symbol) (C : JSObject (List Char)) :
    (bitsOfBytes (encodeText T C).dataBytes).take (encodeText T C).bitLength =
      (bitStringOf T C).map charBit := by
  have hlen : (encodeText T C).dataBytes.length = ((bitStringOf T C).length + 7) / 8 := by
    rw [encodeText_dataBytes]; simp
  have hL : (encodeText T C).bitLength = (bitStringOf T C).length := rfl
  apply List.ext_getElem
  · simp only [List.length_take, length_bitsOfBytes, List.length_map, hlen, hL]; omega
  · intro i h1 h2
    simp only [List.length_map] at h2
    rw [List.getElem_take]
    have a := getD_bitsOfBytes (encodeText T C).dataBytes i (by rw [hlen]; omega)
    rw [List.getD_eq_getElem _ _ (by rw [length_bitsOfBytes, hlen]; omega)] at a
    rw [a, bitOf_encodeText T C i (by omega), bitAt, List.getElem_map, charBit]
    simp [h2, List.getElem?_eq_getElem]

/-- Decoding what `encodeText` produced returns the text, when every symbol of the text has a
code that the tree walk of `generateCodes` wrote. -/
theorem decode_encode (root : HuffmanNode) (hr : RootOK root) (C : JSObject (List Char))
    (T : List Symbol)
    (hC : ∀ ch ∈ T, ∃ w, objGet C ch = some w ∧ (ch, w) ∈ codeWrites root []) :
    decodeBytesState (encodeText T C).dataBytes root (encodeText T C).bitLength =
      some ⟨T, root, (encodeText T C).bitLength⟩ := by
  rw [decodeBytesState_eq_walk, take_bitsOfBytes_encodeText, bitStringOf_eq_flatMap,
    walk_text root hr C T hC]
  simp [encodeText, bitStringOf_eq_flatMap]

/-! ## Every symbol of the text has a code -/

theorem mem_keys_foldl_objSet {α : Type} (L : List (Symbol × α)) (o : JSObject α) (k : Symbol) :
    k ∈ (L.foldl (fun m e => objSet m e.1 e.2) o).map Prod.fst ↔
      k ∈ o.map Prod.fst ∨ k ∈ L.map Prod.fst := by
  induction L generalizing o with
  | nil => simp
  | cons a L ih =>
    rw [List.foldl_cons, ih, keys_objSet]
    split
    · rename_i h
      simp only [List.map_cons, List.mem_cons]
      constructor
      · rintro (h1 | h1)
        · exact Or.inl h1
        · exact Or.inr (Or.inr h1)
      · rintro (h1 | h1 | h1)
        · exact Or.inl h1
        · exact Or.inl (h1 ▸ h)
        · exact Or.inr h1
    · simp only [List.mem_append, List.mem_singleton, List.map_cons, List.mem_cons]
      tauto

theorem leaves_mk (char : Option Symbol) (freq : Nat) (left right : HuffmanNode) :
    (∃ c, leaves (HuffmanNode.mk char freq left right) = [(c, freq)] ∧
      ∀ pfx, codeWrites (HuffmanNode.mk char freq left right) pfx = [(c, orZero pfx)]) ∨
    (leaves (HuffmanNode.mk char freq left right) = leaves left ++ leaves right ∧
      ∀ pfx, codeWrites (HuffmanNode.mk char freq left right) pfx =
        codeWrites left (pfx ++ ['0']) ++ codeWrites right (pfx ++ ['1'])) := by
  rw [leaves.eq_def]
  simp only
  split
  · rename_i c h
    refine Or.inl ⟨c, rfl, ?_⟩
    intro pfx
    rw [codeWrites.eq_def]
    simp only [h]
  · rename_i h
    refine Or.inr ⟨rfl, ?_⟩
    intro pfx
    rw [codeWrites.eq_def]
    simp only

theorem keys_codeWrites (t : HuffmanNode) (pfx : List Char) :
    (codeWrites t pfx).map Prod.fst = (leaves t).map Prod.fst := by
  induction t generalizing pfx with
  | null => simp [codeWrites, leaves]
  | mk char freq left right ihl ihr =>
    rcases leaves_mk char freq left right with ⟨c, h1, h2⟩ | ⟨h1, h2⟩
    · rw [h1, h2]; rfl
    · rw [h1, h2, List.map_append, List.map_append, ihl, ihr]

theorem keys_subset_objectEntries {α : Type} (o : JSObject α) (k : Symbol)
    (h : k ∈ o.map Prod.fst) : k ∈ (objectEntries o).map Prod.fst := by
  cases hk : isArrayIndexKey k
  · obtain ⟨e, he, rfl⟩ := List.mem_map.mp h
    exact List.mem_map.mpr ⟨e, (mem_objectEntries_iff o e).mpr (Or.inr ⟨hk, he⟩), rfl⟩
  · cases hg : objGet o k with
    | none => exact absurd h ((objGet_eq_none_iff o k).mp hg)
    | some v =>
      exact List.mem_map.mpr ⟨(k, v), (mem_objectEntries_iff o (k, v)).mpr (Or.inl ⟨hk, hg⟩), rfl⟩

theorem full_two_leaves (t : HuffmanNode) (h : Full t) (h2 : 2 ≤ (leaves t).length) :
    ∃ f l r, t = HuffmanNode.mk none f l r ∧ Full l ∧ Full r := by
  cases h with
  | leaf c f => simp [leaves_leaf] at h2
  | node f l r hl hr => exact ⟨f, l, r, rfl, hl, hr⟩

/-- The tree of a table with an entry is a root that `decodeBytes` can walk, and every key of the
table labels one of its leaves. -/
theorem buildHuffmanTree_root (F : JSObject Nat) (hF : F ≠ []) :
    RootOK (buildHuffmanTree F) ∧
    ∀ k ∈ F.map Prod.fst, k ∈ (leaves (buildHuffmanTree F)).map Prod.fst := by
  rcases buildHuffmanTree_cases F with ⟨h1, _⟩ | ⟨e, h1, h2⟩ | ⟨h1, h2, h4⟩
  · exact absurd ((objectEntries_eq_nil_iff F).mp h1) hF
  · refine ⟨⟨e.2, leafNode e, HuffmanNode.null, h2, Full.leaf _ _, Or.inr rfl⟩, ?_⟩
    intro k hk
    have := keys_subset_objectEntries F k hk
    rw [h1] at this
    have hl : leaves (HuffmanNode.mk none e.2 (leafNode e) HuffmanNode.null) = [e] := by
      rw [leaves_node, leafNode, leaves_leaf]; rfl
    rw [h2, hl]
    simpa using this
  · obtain ⟨f, l, r, e, hl, hr⟩ := full_two_leaves _ h2 (by rw [h4.length_eq]; exact h1)
    refine ⟨⟨f, l, r, e, hl, Or.inl hr⟩, ?_⟩
    intro k hk
    exact (h4.map Prod.fst).mem_iff.mpr (keys_subset_objectEntries F k hk)

/-- Every leaf symbol of a tree has a code in the code table, one that the walk wrote. -/
theorem codeTable_covers (t : HuffmanNode) (k : Symbol) (h : k ∈ (leaves t).map Prod.fst) :
    ∃ w, objGet (codeTable t) k = some w ∧ (k, w) ∈ codeWrites t [] := by
  have hk : k ∈ (codeTable t).map Prod.fst := by
    rw [codeTable, generateCodes_eq_foldl, mem_keys_foldl_objSet, keys_codeWrites]
    exact Or.inr h
  cases hg : objGet (codeTable t) k with
  | none => exact absurd hk ((objGet_eq_none_iff _ k).mp hg)
  | some w => exact ⟨w, rfl, mem_codeTable t (k, w) (mem_of_objGet _ _ _ hg)⟩

/-- Decoding the encoding of a text, with the tree and code table of the text itself. -/
theorem decode_encode_text (T : List Symbol) :
    decodeBytes
      (encodeText T (codeTable (buildHuffmanTree (buildFrequencyTable T)))).dataBytes
      (buildHuffmanTree (buildFrequencyTable T))
      (encodeText T (codeTable (buildHuffmanTree (buildFrequencyTable T)))).bitLength
      = some T := by
  by_cases hT : T = []
  · subst hT; rfl
  · have hF : buildFrequencyTable T ≠ [] := by
      intro h
      obtain ⟨c, hc⟩ := List.exists_mem_of_ne_nil T hT
      have := objGet_buildFrequencyTable T c
      rw [h] at this
      simp [objGet, hc] at this
    obtain ⟨hr, hk⟩ := buildHuffmanTree_root (buildFrequencyTable T) hF
    have hC : ∀ ch ∈ T, ∃ w,
        objGet (codeTable (buildHuffmanTree (buildFrequencyTable T))) ch = some w ∧
        (ch, w) ∈ codeWrites (buildHuffmanTree (buildFrequencyTable T)) [] := by
      intro ch hch
      apply codeTable_covers
      apply hk
      by_contra hn
      have h1 := (objGet_eq_none_iff (buildFrequencyTable T) ch).mpr hn
      rw [objGet_buildFrequencyTable] at h1
      simp [hch] at h1
    rw [decodeBytes, decode_encode _ hr _ T hC]
    rfl

/-- C1: for every text `T`, with the frequency table, the tree and the code table built from
`T`, decoding the bytes and bit length that `encodeText` returns gives back exactly `T`. -/
theorem huffman_round_trip (T : List Symbol) :
    decodeBytes
      (encodeText T (codeTable (buildHuffmanTree (buildFrequencyTable T)))).dataBytes
      (buildHuffmanTree (buildFrequencyTable T))
      (encodeText T (codeTable (buildHuffmanTree (buildFrequencyTable T)))).bitLength
      = some T :=
  decode_encode_text T

/-! ## A text of one repeated symbol -/

theorem buildFrequencyTable_replicate (c : Symbol) (n : Nat) :
    buildFrequencyTable (List.replicate (n + 1) c) = [(c, n + 1)] := by
  induction n with
  | zero => simp [buildFrequencyTable, objGet, objSet]
  | succ n ih =>
    rw [List.replicate_succ', buildFrequencyTable_snoc, ih]
    simp [objGet, objSet]

theorem objectEntries_singleton (e : Symbol × Nat) : objectEntries [e] = [e] :=
  List.perm_singleton.mp (objectEntries_perm [e] (by simp))

theorem buildHuffmanTree_singleton (e : Symbol × Nat) :
    buildHuffmanTree [e] = HuffmanNode.mk none e.2 (leafNode e) HuffmanNode.null := by
  rcases buildHuffmanTree_cases [e] with ⟨h1, _⟩ | ⟨e', h1, h2⟩ | ⟨h1, _⟩
  · rw [objectEntries_singleton] at h1; simp at h1
  · rw [objectEntries_singleton] at h1
    simp only [List.cons.injEq, and_true] at h1
    rw [h2, ← h1]
  · rw [objectEntries_singleton] at h1; simp at h1

theorem codeTable_singleton (c : Symbol) (f : Nat) :
    codeTable (HuffmanNode.mk none f (leafNode (c, f)) HuffmanNode.null) = [(c, ['0'])] := by
  simp [codeTable, generateCodes, leafNode, HuffmanNode.isLeaf, orZero, objSet]

theorem bitStringOf_replicate (c : Symbol) (n : Nat) :
    bitStringOf (List.replicate n c) [(c, ['0'])] = List.replicate n '0' := by
  rw [bitStringOf_eq_flatMap]
  induction n with
  | zero => rfl
  | succ n ih =>
    rw [List.replicate_succ, List.flatMap_cons, ih]
    simp [objGet, codeText, List.replicate_succ]

theorem packByte_zero (n bi : Nat) :
    (packByte (List.replicate n '0') n 8 0 bi).1 = 0 := by
  have hb : ∀ i, bitAt (List.replicate n '0') n i = 0 := by
    intro i
    unfold bitAt
    rw [if_neg]
    rintro ⟨h1, h2⟩
    rw [List.getElem?_eq_getElem (by simpa using h1)] at h2
    simp at h2
  obtain ⟨_, h0, h⟩ := packByte_spec (List.replicate n '0') n 8 0 bi
  have k0 := h 0 (by norm_num)
  have k1 := h 1 (by norm_num)
  have k2 := h 2 (by norm_num)
  have k3 := h 3 (by norm_num)
  have k4 := h 4 (by norm_num)
  have k5 := h 5 (by norm_num)
  have k6 := h 6 (by norm_num)
  have k7 := h 7 (by norm_num)
  simp only [hb] at k0 k1 k2 k3 k4 k5 k6 k7
  norm_num at h0 k0 k1 k2 k3 k4 k5 k6 k7
  omega

/-- C7: for the text of `n ≥ 1` copies of a symbol `c`, the code table is exactly `{c: "0"}`,
`encodeText` returns `bitLength = n` and `ceil(n / 8)` bytes that are all zero, and
`decodeBytes` on those bytes with the rebuilt tree and `bitLength = n` returns the text. -/
theorem single_symbol (c : Symbol) (n : Nat) (hn : 1 ≤ n) :
    codeTable (buildHuffmanTree (buildFrequencyTable (List.replicate n c))) = [(c, ['0'])] ∧
    (encodeText (List.replicate n c)
      (codeTable (buildHuffmanTree (buildFrequencyTable (List.replicate n c))))).bitLength = n ∧
    (encodeText (List.replicate n c)
      (codeTable (buildHuffmanTree (buildFrequencyTable (List.replicate n c))))).dataBytes
      = List.replicate ((n + 7) / 8) 0 ∧
    decodeBytes (List.replicate ((n + 7) / 8) 0)
      (buildHuffmanTree (buildFrequencyTable (List.replicate n c))) n
      = some (List.replicate n c) := by
  obtain ⟨m, rfl⟩ : ∃ m, n = m + 1 := ⟨n - 1, by omega⟩
  have hC : codeTable (buildHuffmanTree (buildFrequencyTable (List.replicate (m + 1) c)))
      = [(c, ['0'])] := by
    rw [buildFrequencyTable_replicate, buildHuffmanTree_singleton]
    exact codeTable_singleton c (m + 1)
  have hL : (encodeText (List.replicate (m + 1) c) [(c, ['0'])]).bitLength = m + 1 := by
    show (bitStringOf (List.replicate (m + 1) c) [(c, ['0'])]).length = m + 1
    rw [bitStringOf_replicate]; simp
  have hD : (encodeText (List.replicate (m + 1) c) [(c, ['0'])]).dataBytes
      = List.replicate ((m + 1 + 7) / 8) 0 := by
    rw [encodeText_dataBytes, bitStringOf_replicate]
    simp only [List.length_replicate, packByte_zero, Nat.zero_mod]
    apply List.ext_getElem <;> simp
  have hR := decode_encode_text (List.replicate (m + 1) c)
  rw [hC, hL, hD] at hR
  rw [hC]
  exact ⟨rfl, hL, hD, hR⟩

/-- An instance of the single-symbol property: the text "aaaa" gives `bitLength = 4` and one zero byte. -/
theorem single_symbol_witness :
    1 ≤ 4 ∧
    codeTable (buildHuffmanTree (buildFrequencyTable (List.replicate 4 97))) = [(97, ['0'])] ∧
    (encodeText (List.replicate 4 97)
      (codeTable (buildHuffmanTree (buildFrequencyTable (List.replicate 4 97))))).bitLength = 4 ∧
    (encodeText (List.replicate 4 97)
      (codeTable (buildHuffmanTree (buildFrequencyTable (List.replicate 4 97))))).dataBytes
      = List.replicate ((4 + 7) / 8) 0 ∧
    decodeBytes (List.replicate ((4 + 7) / 8) 0)
      (buildHuffmanTree (buildFrequencyTable (List.replicate 4 97))) 4
      = some (List.replicate 4 97) :=
  ⟨by decide, single_symbol 97 4 (by decide)⟩

/-! ## The generated code is optimal -/

theorem node_cases (char : Option Symbol) (freq : Nat) (left right : HuffmanNode) :
    (∃ c, char = some c ∧ left = HuffmanNode.null ∧ right = HuffmanNode.null) ∨
    (∀ c, (HuffmanNode.mk char freq left right).isLeaf = true → char = some c → False) := by
  cases char with
  | none => exact Or.inr (fun c _ h => by cases h)
  | some c =>
    cases left with
    | mk _ _ _ _ => exact Or.inr (fun c h _ => by simp [HuffmanNode.isLeaf] at h)
    | null =>
      cases right with
      | mk _ _ _ _ => exact Or.inr (fun c h _ => by simp [HuffmanNode.isLeaf] at h)
      | null => exact Or.inl ⟨c, rfl, rfl, rfl⟩

theorem leaves_inner (char : Option Symbol) (freq : Nat) (left right : HuffmanNode)
    (h : ∀ c, (HuffmanNode.mk char freq left right).isLeaf = true → char = some c → False) :
    leaves (HuffmanNode.mk char freq left right) = leaves left ++ leaves right := by
  rw [leaves.eq_def]
  simp only

theorem codeWrites_inner (char : Option Symbol) (freq : Nat) (left right : HuffmanNode)
    (pfx : List Char)
    (h : ∀ c, (HuffmanNode.mk char freq left right).isLeaf = true → char = some c → False) :
    codeWrites (HuffmanNode.mk char freq left right) pfx =
      codeWrites left (pfx ++ ['0']) ++ codeWrites right (pfx ++ ['1']) := by
  rw [codeWrites.eq_def]
  simp only

theorem pathCost_inner (char : Option Symbol) (freq : Nat) (left right : HuffmanNode) (d : Nat)
    (h : ∀ c, (HuffmanNode.mk char freq left right).isLeaf = true → char = some c → False) :
    pathCost (HuffmanNode.mk char freq left right) d =
      pathCost left (d + 1) + pathCost right (d + 1) := by
  rw [pathCost.eq_def]
  simp only

/-- Leaf by leaf, `freq` times the length of the written code adds up to the weighted path
length. -/
theorem zip_cost (t : HuffmanNode) (pfx : List Char) (hp : pfx ≠ []) :
    (List.zipWith (fun (e : Symbol × Nat) (w : Symbol × List Char) => e.2 * w.2.length)
      (leaves t) (codeWrites t pfx)).sum = pathCost t pfx.length := by
  induction t generalizing pfx with
  | null => simp [leaves, codeWrites, pathCost]
  | mk char freq left right ihl ihr =>
    rcases node_cases char freq left right with ⟨c, rfl, rfl, rfl⟩ | h
    · simp [leaves, codeWrites, pathCost, HuffmanNode.isLeaf, orZero, hp]
    · rw [leaves_inner _ _ _ _ h, codeWrites_inner _ _ _ _ _ h, pathCost_inner _ _ _ _ _ h,
        List.zipWith_append _ _ _ _ _ (by
          have := congrArg List.length (keys_codeWrites left (pfx ++ ['0']))
          simpa using this.symm),
        List.sum_append, ihl _ (by simp), ihr _ (by simp)]
      simp

theorem zip_cost_root (f : Nat) (l r : HuffmanNode) :
    (List.zipWith (fun (e : Symbol × Nat) (w : Symbol × List Char) => e.2 * w.2.length)
      (leaves (HuffmanNode.mk none f l r)) (codeWrites (HuffmanNode.mk none f l r) [])).sum
      = pathCost (HuffmanNode.mk none f l r) 0 := by
  have h : ∀ c, (HuffmanNode.mk none f l r).isLeaf = true → (none : Option Symbol) = some c →
      False := fun c _ e => by cases e
  rw [leaves_inner _ _ _ _ h, codeWrites_inner _ _ _ _ _ h, pathCost_inner _ _ _ _ _ h,
    List.zipWith_append _ _ _ _ _ (by
      have := congrArg List.length (keys_codeWrites l ([] ++ ['0']))
      simpa using this.symm),
    List.sum_append, zip_cost l _ (by simp), zip_cost r _ (by simp)]
  simp

theorem sum_map_eq_zip (code : Symbol → List Char) (L : List (Symbol × Nat))
    (W : List (Symbol × List Char)) (hk : L.map Prod.fst = W.map Prod.fst)
    (hc : ∀ w ∈ W, code w.1 = w.2) :
    (L.map (fun e => e.2 * (code e.1).length)).sum =
      (List.zipWith (fun (e : Symbol × Nat) (w : Symbol × List Char) => e.2 * w.2.length)
        L W).sum := by
  induction L generalizing W with
  | nil => simp
  | cons e L ih =>
    cases W with
    | nil => simp at hk
    | cons w W =>
      simp only [List.map_cons, List.cons.injEq] at hk
      simp only [List.map_cons, List.sum_cons, List.zipWith_cons_cons]
      rw [ih W hk.2 (fun w' hw' => hc w' (List.mem_cons_of_mem _ hw')), hk.1, hc w (by simp)]

theorem objGet_foldl_objSet_of_not_mem {α : Type} (L : List (Symbol × α)) (o : JSObject α)
    (k : Symbol) (h : k ∉ L.map Prod.fst) :
    objGet (L.foldl (fun m e => objSet m e.1 e.2) o) k = objGet o k := by
  induction L generalizing o with
  | nil => rfl
  | cons a L ih =>
    simp only [List.map_cons, List.mem_cons, not_or] at h
    rw [List.foldl_cons, ih _ h.2, objGet_objSet_ne _ _ _ _ (fun e => h.1 e.symm)]

theorem objGet_foldl_objSet_of_nodup {α : Type} (L : List (Symbol × α)) (o : JSObject α)
    (hnd : (L.map Prod.fst).Nodup) (e : Symbol × α) (he : e ∈ L) :
    objGet (L.foldl (fun m e => objSet m e.1 e.2) o) e.1 = some e.2 := by
  induction L generalizing o with
  | nil => simp at he
  | cons a L ih =>
    simp only [List.map_cons, List.nodup_cons] at hnd
    rw [List.foldl_cons]
    rcases List.mem_cons.mp he with rfl | he
    · rw [objGet_foldl_objSet_of_not_mem _ _ _ hnd.1, objGet_objSet_same]
    · exact ih _ hnd.2 he

/-- With distinct leaf symbols, the weighted code length over the leaves of a root is its
weighted path length. -/
theorem codeTable_cost (f : Nat) (l r : HuffmanNode)
    (hnd : ((leaves (HuffmanNode.mk none f l r)).map Prod.fst).Nodup) :
    ((leaves (HuffmanNode.mk none f l r)).map (fun e => e.2 *
      ((objGet (codeTable (HuffmanNode.mk none f l r)) e.1).getD []).length)).sum =
      pathCost (HuffmanNode.mk none f l r) 0 := by
  rw [← zip_cost_root]
  apply sum_map_eq_zip (fun s => (objGet (codeTable (HuffmanNode.mk none f l r)) s).getD [])
  · exact (keys_codeWrites _ _).symm
  · intro w hw
    rw [codeTable, generateCodes_eq_foldl,
      objGet_foldl_objSet_of_nodup _ _ (by rw [keys_codeWrites]; exact hnd) w hw]
    rfl

theorem exactWeights_leafNodes (es : List (Symbol × Nat))
    (h : (es.map Prod.snd).sum ≤ 2 ^ 53) : ExactWeights (es.map leafNode) := by
  refine ⟨?_, by rw [flatMap_leaves_leafNodes]; exact h⟩
  intro t ht
  obtain ⟨e, _, rfl⟩ := List.mem_map.mp ht
  simp [leafNode, leaves_leaf, HuffmanNode.freq]

theorem buildHuffmanTree_cost_le (N : Nat) (F : JSObject Nat)
    (h2 : 2 ≤ (objectEntries F).length)
    (hsum : ((objectEntries F).map Prod.snd).sum ≤ 2 ^ 53) (ps : List (Nat × Nat))
    (hp : (ps.map Prod.fst).Perm ((objectEntries F).map Prod.snd))
    (hK : Kraft N (ps.map Prod.snd)) :
    pathCost (buildHuffmanTree F) 0 ≤ dot ps := by
  have hperm := initialHeap_perm F
  have hsz := size_initialHeap F
  have hf : Forest (initialHeap F).data := forest_perm hperm.symm (forest_leafNodes _)
  obtain ⟨t, et, _⟩ := mergeLoop_spec (initialHeap F).size (initialHeap F)
    (by omega) (by omega) hf
  have hb : buildHuffmanTree F = t := by
    simp only [buildHuffmanTree]
    rw [if_neg (by omega), if_neg (by omega)]
    simp [MinHeap.pop, et]
  have hx : ExactWeights (initialHeap F).data :=
    exactWeights_perm hperm.symm (exactWeights_leafNodes _ hsum)
  have := mergeLoop_optimal N (initialHeap F).size (initialHeap F) (by omega) (by omega) hf hx
    (initialHeap_ordered F) t et ps
    (hp.trans (by
      have := (hperm.map HuffmanNode.freq).symm
      simpa [List.map_map, Function.comp_def, leafNode, HuffmanNode.freq] using this))
    hK
  rw [hb]
  have hz : ((initialHeap F).data.map (fun n => pathCost n 0)).sum = 0 := by
    rw [(hperm.map (fun n => pathCost n 0)).sum_eq, List.map_map]
    apply List.sum_eq_zero
    intro x hx
    obtain ⟨e, _, rfl⟩ := List.mem_map.mp hx
    simp [leafNode, pathCost, HuffmanNode.isLeaf]
  omega

theorem length_le_sum_of_mem (ls : List Nat) (l : Nat) (h : l ∈ ls) : l ≤ ls.sum :=
  List.single_le_sum (fun _ _ => Nat.zero_le _) l h

/-- C4, amended: for a frequency table `F` whose counts sum to at most `2 ^ 53`, so that every
`left.freq + right.freq` of the merge loop is exact, every symbol of `F` has a code in the
table generated from `buildHuffmanTree(F)`, and the weighted code length, the sum over the
symbols `s` of `F(s) * length(C(s))`, is at most the same sum for every prefix-free assignment
of non-empty bit strings to the symbols of `F`. -/
theorem huffman_optimal (F : JSObject Nat) (hF : (F.map Prod.fst).Nodup)
    (hsum : (F.map Prod.snd).sum ≤ 2 ^ 53)
    (A : Symbol → List Bool) (hne : ∀ s ∈ F.map Prod.fst, A s ≠ [])
    (hpf : ∀ s ∈ F.map Prod.fst, ∀ s' ∈ F.map Prod.fst, s ≠ s' → ¬ A s <+: A s') :
    (∀ s ∈ F.map Prod.fst, ∃ w, objGet (codeTable (buildHuffmanTree F)) s = some w) ∧
    (F.map (fun e => e.2 *
      ((objGet (codeTable (buildHuffmanTree F)) e.1).getD []).length)).sum ≤
      (F.map (fun e => e.2 * (A e.1).length)).sum := by
  constructor
  · intro s hs
    have hFne : F ≠ [] := by rintro rfl; simp at hs
    obtain ⟨w, hw, _⟩ := codeTable_covers _ s ((buildHuffmanTree_root F hFne).2 s hs)
    exact ⟨w, hw⟩
  · have hpe := objectEntries_perm F hF
    rcases buildHuffmanTree_cases F with ⟨h1, _⟩ | ⟨e, h1, h2⟩ | ⟨h1, h2, h4⟩
    · rw [(objectEntries_eq_nil_iff F).mp h1]; simp
    · rw [h1] at hpe
      have hFe : F = [e] := List.perm_singleton.mp hpe.symm
      rw [h2, hFe]
      obtain ⟨c, f⟩ := e
      rw [codeTable_singleton]
      have : A c ≠ [] := hne c (by simp [hFe])
      have := List.length_pos.mpr this
      simp only [List.map_cons, List.map_nil, List.sum_cons, List.sum_nil, objGet, if_true,
        Option.getD_some, List.length_singleton, Nat.add_zero, Nat.mul_one]
      exact Nat.le_mul_of_pos_right f this
    · obtain ⟨f, l, r, et, _, _⟩ := full_two_leaves _ h2 (by rw [h4.length_eq]; exact h1)
      have hLF : (leaves (buildHuffmanTree F)).Perm F := h4.trans hpe
      have hnd : ((leaves (buildHuffmanTree F)).map Prod.fst).Nodup :=
        ((hLF.map Prod.fst).nodup_iff).mpr hF
      have hcost := codeTable_cost f l r (by rw [← et]; exact hnd)
      rw [← et] at hcost
      rw [← (hLF.map (fun e => e.2 *
        ((objGet (codeTable (buildHuffmanTree F)) e.1).getD []).length)).sum_eq, hcost]
      have hK : Kraft ((F.map (fun e => A e.1)).map List.length).sum
          ((F.map (fun e => A e.1)).map List.length) := by
        apply kraft_of_prefix_free
        · intro c hc
          exact length_le_sum_of_mem _ _ (List.mem_map.mpr ⟨c, hc, rfl⟩)
        · rw [List.pairwise_map]
          have hnd' : F.Pairwise (fun a b => a.1 ≠ b.1) := by
            have := hF
            rwa [List.Nodup, List.pairwise_map] at this
          refine List.Pairwise.imp_of_mem ?_ hnd'
          intro a b ha hb hab
          exact ⟨hpf a.1 (List.mem_map.mpr ⟨a, ha, rfl⟩) b.1 (List.mem_map.mpr ⟨b, hb, rfl⟩) hab,
            hpf b.1 (List.mem_map.mpr ⟨b, hb, rfl⟩) a.1 (List.mem_map.mpr ⟨a, ha, rfl⟩)
              (fun e => hab e.symm)⟩
      have := buildHuffmanTree_cost_le _ F h1
        (by rw [((hpe.map Prod.snd)).sum_eq]; exact hsum)
        (F.map (fun e => (e.2, (A e.1).length)))
        (by
          rw [List.map_map]
          exact (hpe.map Prod.snd).symm)
        (by
          rw [List.map_map] at hK ⊢
          exact hK)
      simpa [dot, List.map_map, Function.comp_def] using this

/-- An instance of the optimality property: the table `{a: 5, b: 2, r: 2}` against the prefix-free
code a = 00, b = 01, r = 1. -/
theorem huffman_optimal_witness :
    ([(97, 5), (98, 2), (114, 2)].map Prod.fst).Nodup ∧
    ([(97, 5), (98, 2), (114, 2)].map Prod.snd).sum ≤ 2 ^ 53 ∧
    (∀ s ∈ [(97, 5), (98, 2), (114, 2)].map Prod.fst,
      (fun s => if s = 97 then [false, false] else if s = 98 then [false, true] else [true]) s
        ≠ []) ∧
    (∀ s ∈ [(97, 5), (98, 2), (114, 2)].map Prod.fst,
      ∀ s' ∈ [(97, 5), (98, 2), (114, 2)].map Prod.fst, s ≠ s' →
      ¬ (fun s => if s = 97 then [false, false] else if s = 98 then [false, true] else [true]) s
        <+: (fun s => if s = 97 then [false, false] else if s = 98 then [false, true]
          else [true]) s') ∧
    (∀ s ∈ [(97, 5), (98, 2), (114, 2)].map Prod.fst,
      ∃ w, objGet (codeTable (buildHuffmanTree [(97, 5), (98, 2), (114, 2)])) s = some w) ∧
    ([(97, 5), (98, 2), (114, 2)].map (fun e => e.2 *
      ((objGet (codeTable (buildHuffmanTree [(97, 5), (98, 2), (114, 2)])) e.1).getD []).length)).sum
      ≤ ([(97, 5), (98, 2), (114, 2)].map (fun e => e.2 *
        ((fun s => if s = 97 then [false, false] else if s = 98 then [false, true]
          else [true]) e.1).length)).sum :=
  ⟨by decide, by decide, by decide, by decide,
    huffman_optimal [(97, 5), (98, 2), (114, 2)] (by decide) (by decide)
      (fun s => if s = 97 then [false, false] else if s = 98 then [false, true] else [true])
      (by decide) (by decide)⟩

/-- C4, the counterexample: the table `{a: 2^53, b: 1, c: 2^53, d: 2^53}`. The first merge adds
`1 + 2^53`, which as a double is `2^53` again, so the loop next pairs that node with `c` and
leaves `a` for the root: the code lengths are a: 1, c: 2, b: 3, d: 3, of weighted length
`6 * 2^53 + 3`, while the prefix-free code a = 00, b = 01, c = 10, d = 11 has weighted length
`6 * 2^53 + 2`. -/
theorem huffman_optimal_counterexample :
    ([(97, 2 ^ 53), (98, 1), (99, 2 ^ 53), (100, 2 ^ 53)].map Prod.fst).Nodup ∧
    (∀ e ∈ [(97, 2 ^ 53), (98, 1), (99, 2 ^ 53), (100, 2 ^ 53)], 0 < e.2) ∧
    (∀ s ∈ [(97, 2 ^ 53), (98, 1), (99, 2 ^ 53), (100, 2 ^ 53)].map Prod.fst,
      (fun s => if s = 97 then [false, false] else if s = 98 then [false, true]
        else if s = 99 then [true, false] else [true, true]) s ≠ []) ∧
    (∀ s ∈ [(97, 2 ^ 53), (98, 1), (99, 2 ^ 53), (100, 2 ^ 53)].map Prod.fst,
      ∀ s' ∈ [(97, 2 ^ 53), (98, 1), (99, 2 ^ 53), (100, 2 ^ 53)].map Prod.fst, s ≠ s' →
      ¬ (fun s => if s = 97 then [false, false] else if s = 98 then [false, true]
        else if s = 99 then [true, false] else [true, true]) s
        <+: (fun s => if s = 97 then [false, false] else if s = 98 then [false, true]
        else if s = 99 then [true, false] else [true, true]) s') ∧
    codeTable (buildHuffmanTree [(97, 2 ^ 53), (98, 1), (99, 2 ^ 53), (100, 2 ^ 53)]) =
      [(97, ['0']), (99, ['1', '0']), (98, ['1', '1', '0']), (100, ['1', '1', '1'])] ∧
    ([(97, 2 ^ 53), (98, 1), (99, 2 ^ 53), (100, 2 ^ 53)].map (fun e => e.2 *
      ((fun s => if s = 97 then [false, false] else if s = 98 then [false, true]
        else if s = 99 then [true, false] else [true, true]) e.1).length)).sum <
    ([(97, 2 ^ 53), (98, 1), (99, 2 ^ 53), (100, 2 ^ 53)].map (fun e => e.2 *
      ((objGet (codeTable (buildHuffmanTree
        [(97, 2 ^ 53), (98, 1), (99, 2 ^ 53), (100, 2 ^ 53)])) e.1).getD []).length)).sum := by
  refine ⟨by decide, by decide, by decide, by decide, by decide, by decide⟩

/-! ## Container framing -/

theorem map_mod_256 (l : List Nat) (h : ∀ b ∈ l, b < 256) : l.map (fun b => b % 256) = l := by
  induction l with
  | nil => rfl
  | cons a l ih =>
    rw [List.map_cons, ih (fun b hb => h b (List.mem_cons_of_mem _ hb)),
      Nat.mod_eq_of_lt (h a (by simp))]

theorem uint8Set_middle (p q r s : List Nat) (n : Nat) (hn : n = p.length)
    (hq : q.length = s.length) (hs : ∀ b ∈ s, b < 256) :
    uint8Set (p ++ q ++ r) s n = some (p ++ s ++ r) := by
  subst hn
  rw [uint8Set, if_pos (by simp; omega), map_mod_256 s hs, List.append_assoc p q r,
    List.take_left', ← hq, ← List.length_append, ← List.append_assoc, List.drop_left']
  · rfl
  · rfl

/-- The four big-endian bytes of an unsigned 32-bit value. -/
theorem be32_bytes (v : Nat) (hv : v < 2 ^ 32) :
    v / 2 ^ 24 % 256 * 2 ^ 24 + v / 2 ^ 16 % 256 * 2 ^ 16 + v / 2 ^ 8 % 256 * 2 ^ 8 + v % 256
      = v := by
  norm_num at hv ⊢
  omega

theorem assembleContainer_eq (h d : List Nat) (hh : ∀ b ∈ h, b < 256) (hd : ∀ b ∈ d, b < 256) :
    assembleContainer h d = some
      ([h.length % 2 ^ 32 / 2 ^ 24 % 256, h.length % 2 ^ 32 / 2 ^ 16 % 256,
        h.length % 2 ^ 32 / 2 ^ 8 % 256, h.length % 2 ^ 32 % 256] ++ h ++ d) := by
  have e1 : setUint32 (List.replicate (4 + h.length + d.length) 0) 0 h.length = some
      ([h.length % 2 ^ 32 / 2 ^ 24 % 256, h.length % 2 ^ 32 / 2 ^ 16 % 256,
        h.length % 2 ^ 32 / 2 ^ 8 % 256, h.length % 2 ^ 32 % 256] ++
        List.replicate h.length 0 ++ List.replicate d.length 0) := by
    rw [setUint32, if_pos (by simp; omega)]
    simp only [List.take_zero, List.nil_append, List.drop_replicate, Nat.zero_add,
      List.append_assoc]
    have : 4 + h.length + d.length - 4 = h.length + d.length := by omega
    rw [this, List.replicate_add]
  rw [assembleContainer]
  simp only [e1, Option.some_bind]
  rw [uint8Set_middle _ _ _ h 4 (by simp) (by simp) hh]
  simp only [Option.some_bind]
  have := uint8Set_middle
    ([h.length % 2 ^ 32 / 2 ^ 24 % 256, h.length % 2 ^ 32 / 2 ^ 16 % 256,
        h.length % 2 ^ 32 / 2 ^ 8 % 256, h.length % 2 ^ 32 % 256] ++ h)
    (List.replicate d.length 0) [] d (4 + h.length) (by simp; omega) (by simp) hd
  simpa using this

/-- C10: for a header byte string `h` shorter than 2^32 and a packed byte string `d`, the
buffer of the compress path has length `4 + length(h) + length(d)`, starts with the big-endian
unsigned 32-bit encoding of `length(h)`, and the split of the decompress path returns
`headerLength = length(h)`, the header bytes `h` and the data bytes `d`. -/
theorem container_round_trip (h d : List Nat) (hlen : h.length < 2 ^ 32)
    (hh : ∀ b ∈ h, b < 256) (hd : ∀ b ∈ d, b < 256) :
    ∃ buffer, assembleContainer h d = some buffer ∧
      buffer.length = 4 + h.length + d.length ∧
      buffer.take 4 = [h.length / 2 ^ 24 % 256, h.length / 2 ^ 16 % 256,
        h.length / 2 ^ 8 % 256, h.length % 256] ∧
      getUint32 buffer 0 = some h.length ∧
      splitContainer buffer = some (h.length, h, d) := by
  have hm : h.length % 2 ^ 32 = h.length := Nat.mod_eq_of_lt hlen
  have hg : getUint32 ([h.length / 2 ^ 24 % 256, h.length / 2 ^ 16 % 256,
      h.length / 2 ^ 8 % 256, h.length % 256] ++ h ++ d) 0 = some h.length := by
    rw [getUint32, if_pos (by simp)]
    simp only [List.append_assoc, List.cons_append, List.nil_append, List.getD_cons_zero,
      Nat.zero_add, List.getD_cons_succ]
    rw [be32_bytes _ hlen]
  refine ⟨_, assembleContainer_eq h d hh hd, ?_, ?_, ?_, ?_⟩
  · simp
    omega
  · rw [hm]; simp
  · rw [hm]; exact hg
  · rw [hm, splitContainer, hg]
    simp only [Option.some_bind, uint8Slice]
    have e4 : ([h.length / 2 ^ 24 % 256, h.length / 2 ^ 16 % 256,
      h.length / 2 ^ 8 % 256, h.length % 256] ++ h).length = 4 + h.length := by simp; omega
    rw [← e4, List.take_left', List.drop_left']
    · simp
    · rfl
    · rfl

/-- An instance of the container framing property: a two-byte header and three data bytes. -/
theorem container_round_trip_witness :
    [123, 125].length < 2 ^ 32 ∧ (∀ b ∈ [123, 125], b < 256) ∧ (∀ b ∈ [105, 207, 104], b < 256) ∧
    ∃ buffer, assembleContainer [123, 125] [105, 207, 104] = some buffer ∧
      buffer.length = 4 + [123, 125].length + [105, 207, 104].length ∧
      buffer.take 4 = [[123, 125].length / 2 ^ 24 % 256, [123, 125].length / 2 ^ 16 % 256,
        [123, 125].length / 2 ^ 8 % 256, [123, 125].length % 256] ∧
      getUint32 buffer 0 = some [123, 125].length ∧
      splitContainer buffer = some ([123, 125].length, [123, 125], [105, 207, 104]) :=
  ⟨by decide, by decide, by decide,
    container_round_trip [123, 125] [105, 207, 104] (by decide) (by decide) (by decide)⟩

/-- C13: the text "aaaaaaaab" encodes to fewer than 8 * 9 = 72 bits, and the text "abracadabra",
with frequencies a: 5, b: 2, r: 2, c: 1, d: 1, to fewer than 11 * 8 = 88 bits, each with the
code table generated from its own Huffman tree. -/
theorem compactness_examples :
    (encodeText textSkewed
      (codeTable (buildHuffmanTree (buildFrequencyTable textSkewed)))).bitLength < 8 * 9 ∧
    buildFrequencyTable textAbracadabra = [(97, 5), (98, 2), (114, 2), (99, 1), (100, 1)] ∧
    (encodeText textAbracadabra
      (codeTable (buildHuffmanTree (buildFrequencyTable textAbracadabra)))).bitLength < 11 * 8 ∧
    (encodeText textSkewed
      (codeTable (buildHuffmanTree (buildFrequencyTable textSkewed)))).bitLength = 9 ∧
    (encodeText textAbracadabra
      (codeTable (buildHuffmanTree (buildFrequencyTable textAbracadabra)))).bitLength = 23 := by
  refine ⟨by decide, by decide, by decide, by decide, by decide⟩

/-- C17: for a frequency table with exactly one entry `(c, f)`, `buildHuffmanTree` returns an
internal node with no symbol and `freq = f`, whose zero-child is the leaf `(c, f)` and whose
one-child is `null`. -/
theorem single_entry_tree (c : Symbol) (f : Nat) :
    buildHuffmanTree [(c, f)] =
      HuffmanNode.mk none f
        (HuffmanNode.mk (some c) f HuffmanNode.null HuffmanNode.null) HuffmanNode.null ∧
    (initialHeap [(c, f)]).size = 1 := by
  refine ⟨buildHuffmanTree_singleton (c, f), ?_⟩
  rw [size_initialHeap, objectEntries_singleton]
  rfl

/-- C14: on a non-empty heap in heap order, `pop` returns an item of the heap whose `freq` is
at most the `freq` of every item of the heap, the heap afterwards holds the previous items
without the returned one, and its size is smaller by 1; on the empty heap `pop` returns `null`
and leaves the heap empty. -/
theorem pop_extract_min (h : MinHeap) (hne : h.data ≠ []) (ho : HeapOrdered h.data) :
    h.pop.1 ∈ h.data ∧
    (∀ t ∈ h.data, h.pop.1.freq ≤ t.freq) ∧
    (h.pop.1 :: h.pop.2.data).Perm h.data ∧
    h.pop.2.size + 1 = h.size ∧
    MinHeap.empty.pop = (HuffmanNode.null, MinHeap.empty) := by
  refine ⟨?_, fun t ht => MinHeap.pop_min h ho t ht, MinHeap.pop_perm h hne,
    MinHeap.size_pop h hne, rfl⟩
  exact (MinHeap.pop_perm h hne).mem_iff.mp (by simp)

/-- An instance of the extract-min property: a heap of three leaves. -/
theorem pop_extract_min_witness :
    (MinHeap.mk [leafNode (97, 1), leafNode (98, 3), leafNode (99, 2)]).data ≠ [] ∧
    (MinHeap.mk [leafNode (97, 1), leafNode (98, 3), leafNode (99, 2)]).pop.1
      = leafNode (97, 1) ∧
    (MinHeap.mk [leafNode (97, 1), leafNode (98, 3), leafNode (99, 2)]).pop.2.data
      = [leafNode (99, 2), leafNode (98, 3)] ∧
    ((MinHeap.mk [leafNode (97, 1), leafNode (98, 3), leafNode (99, 2)]).pop.1 ∈
      (MinHeap.mk [leafNode (97, 1), leafNode (98, 3), leafNode (99, 2)]).data ∧
    (∀ t ∈ (MinHeap.mk [leafNode (97, 1), leafNode (98, 3), leafNode (99, 2)]).data,
      (MinHeap.mk [leafNode (97, 1), leafNode (98, 3), leafNode (99, 2)]).pop.1.freq ≤ t.freq) ∧
    ((MinHeap.mk [leafNode (97, 1), leafNode (98, 3), leafNode (99, 2)]).pop.1 ::
      (MinHeap.mk [leafNode (97, 1), leafNode (98, 3), leafNode (99, 2)]).pop.2.data).Perm
      (MinHeap.mk [leafNode (97, 1), leafNode (98, 3), leafNode (99, 2)]).data ∧
    (MinHeap.mk [leafNode (97, 1), leafNode (98, 3), leafNode (99, 2)]).pop.2.size + 1
      = (MinHeap.mk [leafNode (97, 1), leafNode (98, 3), leafNode (99, 2)]).size ∧
    MinHeap.empty.pop = (HuffmanNode.null, MinHeap.empty)) :=
  ⟨by decide, by decide, by decide,
    pop_extract_min (MinHeap.mk [leafNode (97, 1), leafNode (98, 3), leafNode (99, 2)])
      (by decide)
      (by
        intro i hi hlt
        have : i = 1 ∨ i = 2 := by simp at hlt; omega
        rcases this with rfl | rfl <;> decide)⟩

/-- C15: every heap reached from the empty heap by `push` and `pop` calls is in heap order,
`data[floor((i - 1) / 2)].freq <= data[i].freq` for every index `i >= 1`, and `push` keeps the
items already present and adds exactly the pushed item. -/
theorem reachable_heap_ordered (h : MinHeap) (hr : Reachable h) :
    (∀ i, 1 ≤ i → i < h.data.length →
      (at_ h.data ((i - 1) / 2)).freq ≤ (at_ h.data i).freq) ∧
    ∀ node, (h.push node).data.Perm (node :: h.data) ∧ (h.push node).size = h.size + 1 := by
  constructor
  · have : HeapOrdered h.data := by
      induction hr with
      | empty => intro i _ hlt; simp [MinHeap.empty] at hlt
      | push h node _ _ ih => exact MinHeap.push_ordered h node ih
      | pop h _ ih => exact MinHeap.pop_ordered h ih
    exact this
  · intro node
    exact ⟨MinHeap.push_perm h node, MinHeap.size_push h node⟩

/-- An instance of the heap-order property: three pushes and one pop. -/
theorem reachable_heap_ordered_witness :
    Reachable (((MinHeap.empty.push (leafNode (97, 3))).push (leafNode (98, 1))).push
      (leafNode (99, 2))).pop.2 ∧
    (∀ i, 1 ≤ i → i < (((MinHeap.empty.push (leafNode (97, 3))).push (leafNode (98, 1))).push
        (leafNode (99, 2))).pop.2.data.length →
      (at_ (((MinHeap.empty.push (leafNode (97, 3))).push (leafNode (98, 1))).push
        (leafNode (99, 2))).pop.2.data ((i - 1) / 2)).freq ≤
      (at_ (((MinHeap.empty.push (leafNode (97, 3))).push (leafNode (98, 1))).push
        (leafNode (99, 2))).pop.2.data i).freq) ∧
    ∀ node, ((((MinHeap.empty.push (leafNode (97, 3))).push (leafNode (98, 1))).push
        (leafNode (99, 2))).pop.2.push node).data.Perm
        (node :: (((MinHeap.empty.push (leafNode (97, 3))).push (leafNode (98, 1))).push
        (leafNode (99, 2))).pop.2.data) ∧
      ((((MinHeap.empty.push (leafNode (97, 3))).push (leafNode (98, 1))).push
        (leafNode (99, 2))).pop.2.push node).size =
      (((MinHeap.empty.push (leafNode (97, 3))).push (leafNode (98, 1))).push
        (leafNode (99, 2))).pop.2.size + 1 :=
  ⟨Reachable.pop _ (Reachable.push _ _ (Reachable.push _ _ (Reachable.push _ _ Reachable.empty
      (by decide)) (by decide)) (by decide)),
    reachable_heap_ordered _ (Reachable.pop _ (Reachable.push _ _ (Reachable.push _ _
      (Reachable.push _ _ Reachable.empty (by decide)) (by decide)) (by decide)))⟩

/-! ## The encoded size -/

theorem weighted_sum_objSet (g : Symbol → Nat) (o : JSObject Nat) (k : Symbol) (v : Nat) :
    ((objSet o k v).map (fun e => e.2 * g e.1)).sum + (objGet o k).getD 0 * g k =
      (o.map (fun e => e.2 * g e.1)).sum + v * g k := by
  induction o with
  | nil => simp [objSet, objGet]
  | cons p rest ih =>
    obtain ⟨k1, v1⟩ := p
    by_cases h1 : k1 = k
    · subst h1
      simp [objSet, objGet]
      omega
    · simp only [objSet, objGet, h1, if_false, List.map_cons, List.sum_cons]
      omega

/-- A sum over the symbols of a text is the sum over its frequency table, each entry taken as
often as its count says. -/
theorem sum_text_eq_sum_table (g : Symbol → Nat) (T : List Symbol) :
    (T.map g).sum = ((buildFrequencyTable T).map (fun e => e.2 * g e.1)).sum := by
  induction T using List.reverseRecOn with
  | nil => simp [buildFrequencyTable]
  | append_singleton T a ih =>
    rw [buildFrequencyTable_snoc, List.map_append, List.sum_append, ih]
    have := weighted_sum_objSet g (buildFrequencyTable T) a
      ((objGet (buildFrequencyTable T) a).getD 0 + 1)
    simp only [List.map_cons, List.map_nil, List.sum_cons, List.sum_nil]
    rw [Nat.add_mul] at this
    omega

theorem length_flatMap_eq_sum {α β : Type} (l : List α) (f : α → List β) :
    (l.flatMap f).length = (l.map (fun a => (f a).length)).sum := by
  induction l with
  | nil => rfl
  | cons a l ih => simp [List.flatMap_cons, ih]

/-- Every symbol of a text has a code in the code table of the text. -/
theorem text_codes (T : List Symbol) (ch : Symbol) (hch : ch ∈ T) :
    ∃ w, objGet (codeTable (buildHuffmanTree (buildFrequencyTable T))) ch = some w ∧
      (ch, w) ∈ codeWrites (buildHuffmanTree (buildFrequencyTable T)) [] := by
  have hF : buildFrequencyTable T ≠ [] := by
    intro h
    have := objGet_buildFrequencyTable T ch
    rw [h] at this
    simp [objGet, hch] at this
  apply codeTable_covers
  apply (buildHuffmanTree_root (buildFrequencyTable T) hF).2
  by_contra hn
  have h1 := (objGet_eq_none_iff (buildFrequencyTable T) ch).mpr hn
  rw [objGet_buildFrequencyTable] at h1
  simp [hch] at h1

/-- C20: for every text `T`, empty or not, with `F` its frequency table and `C` the code table
generated from `buildHuffmanTree(F)`, every symbol of `F` has a code in `C`, and the
`bitLength` that `encodeText(T, C)` returns is the sum over the symbols `s` of `F` of
`F(s) * length(C(s))`. -/
theorem bitLength_eq_weighted_length (T : List Symbol) :
    (∀ e ∈ buildFrequencyTable T,
      ∃ w, objGet (codeTable (buildHuffmanTree (buildFrequencyTable T))) e.1 = some w) ∧
    (encodeText T (codeTable (buildHuffmanTree (buildFrequencyTable T)))).bitLength =
      ((buildFrequencyTable T).map (fun e => e.2 *
        ((objGet (codeTable (buildHuffmanTree (buildFrequencyTable T))) e.1).getD []).length)).sum
      := by
  constructor
  · intro e he
    have hm : e.1 ∈ T := by
      have h := objGet_of_mem _ e.1 e.2 (nodup_keys_buildFrequencyTable T) he
      rw [objGet_buildFrequencyTable] at h
      by_contra hn
      simp [hn] at h
    obtain ⟨w, hw, _⟩ := text_codes T e.1 hm
    exact ⟨w, hw⟩
  · rw [← sum_text_eq_sum_table (fun s =>
      ((objGet (codeTable (buildHuffmanTree (buildFrequencyTable T))) s).getD []).length) T]
    show (bitStringOf T _).length = _
    rw [bitStringOf_eq_flatMap, length_flatMap_eq_sum]
    congr 1
    apply List.map_congr_left
    intro ch hch
    obtain ⟨w, hw, _⟩ := text_codes T ch hch
    rw [hw]
    rfl

/-! ## The shape of the tree -/

theorem built_ne_null {t : HuffmanNode} (h : Built t) : t ≠ HuffmanNode.null := by
  cases h <;> simp

/-- One iteration of the merge loop keeps every item of an ordered heap a built tree. -/
theorem merge_step_built (heap : MinHeap) (h2 : heap.size > 1)
    (hb : ∀ t ∈ heap.data, Built t) (ho : HeapOrdered heap.data) :
    (∀ t ∈ (heap.pop.2.pop.2.push (HuffmanNode.mk none (jsAdd heap.pop.1.freq heap.pop.2.pop.1.freq)
        heap.pop.1 heap.pop.2.pop.1)).data, Built t) ∧
    HeapOrdered (heap.pop.2.pop.2.push (HuffmanNode.mk none
        (jsAdd heap.pop.1.freq heap.pop.2.pop.1.freq) heap.pop.1 heap.pop.2.pop.1)).data ∧
    (heap.pop.2.pop.2.push (HuffmanNode.mk none (jsAdd heap.pop.1.freq heap.pop.2.pop.1.freq)
        heap.pop.1 heap.pop.2.pop.1)).size + 1 = heap.size := by
  have hne : heap.data ≠ [] := by
    intro h; simp [MinHeap.size, h] at h2
  have p1 := MinHeap.pop_perm heap hne
  have s1 := MinHeap.size_pop heap hne
  have hne1 : heap.pop.2.data ≠ [] := by
    intro h; simp [MinHeap.size, h] at s1; simp [MinHeap.size] at h2; omega
  have p2 := MinHeap.pop_perm heap.pop.2 hne1
  have s2 := MinHeap.size_pop heap.pop.2 hne1
  have ho1 := MinHeap.pop_ordered heap ho
  have ho2 := MinHeap.pop_ordered heap.pop.2 ho1
  have hx : heap.pop.1 ∈ heap.data := p1.mem_iff.mp (by simp)
  have hy1 : heap.pop.2.pop.1 ∈ heap.pop.2.data := p2.mem_iff.mp (by simp)
  have hy : heap.pop.2.pop.1 ∈ heap.data := p1.mem_iff.mp (List.mem_cons_of_mem _ hy1)
  refine ⟨?_, MinHeap.push_ordered _ _ ho2, ?_⟩
  · intro t ht
    rcases List.mem_cons.mp ((MinHeap.push_perm _ _).mem_iff.mp ht) with rfl | ht
    · exact Built.node _ _ (hb _ hx) (hb _ hy) (MinHeap.pop_min heap ho _ hy)
    · exact hb t (p1.mem_iff.mp (List.mem_cons_of_mem _
        (p2.mem_iff.mp (List.mem_cons_of_mem _ ht))))
  · rw [MinHeap.size_push]; omega

theorem mergeLoop_built (fuel : Nat) (heap : MinHeap) (hs : heap.size ≤ fuel + 1)
    (hb : ∀ t ∈ heap.data, Built t) (ho : HeapOrdered heap.data) :
    ∀ t ∈ (mergeLoop fuel heap).data, Built t := by
  induction fuel generalizing heap with
  | zero => exact hb
  | succ fuel ih =>
    rw [mergeLoop_succ]
    split
    · rename_i h2
      obtain ⟨b1, b2, b3⟩ := merge_step_built heap h2 hb ho
      exact ih _ (by omega) b1 b2
    · exact hb

/-- The tree of a table with two or more entries is a built tree. -/
theorem buildHuffmanTree_built (F : JSObject Nat) (h2 : 2 ≤ (objectEntries F).length) :
    Built (buildHuffmanTree F) := by
  have hperm := initialHeap_perm F
  have hsz := size_initialHeap F
  have hf : Forest (initialHeap F).data := forest_perm hperm.symm (forest_leafNodes _)
  obtain ⟨t, et, _⟩ := mergeLoop_spec (initialHeap F).size (initialHeap F)
    (by omega) (by omega) hf
  have hb : buildHuffmanTree F = t := by
    simp only [buildHuffmanTree]
    rw [if_neg (by omega), if_neg (by omega)]
    simp [MinHeap.pop, et]
  rw [hb]
  refine mergeLoop_built (initialHeap F).size (initialHeap F) (by omega) ?_
    (initialHeap_ordered F) t (by simp [et])
  intro n hn
  obtain ⟨e, _, rfl⟩ := List.mem_map.mp (hperm.mem_iff.mp hn)
  exact Built.leaf _ _

/-- In a built tree every node that is not a leaf has no symbol, two children and the sum of
their `freq` as JavaScript adds them, the zero-child not above the one-child. -/
theorem built_subnodes (t : HuffmanNode) (h : Built t) (n : HuffmanNode) (hn : n ∈ subnodes t)
    (hl : n.isLeaf = false) :
    n.char = none ∧ n.left ≠ HuffmanNode.null ∧ n.right ≠ HuffmanNode.null ∧
    n.freq = jsAdd n.left.freq n.right.freq ∧ n.left.freq ≤ n.right.freq := by
  induction h with
  | leaf c f =>
    simp only [subnodes, List.append_nil, List.mem_singleton] at hn
    subst hn
    simp [HuffmanNode.isLeaf] at hl
  | node l r hbl hbr hle ihl ihr =>
    simp only [subnodes, List.mem_cons, List.mem_append] at hn
    rcases hn with rfl | hn | hn
    · exact ⟨rfl, built_ne_null hbl, built_ne_null hbr, rfl, hle⟩
    · exact ihl hn
    · exact ihr hn

/-- C16: for a frequency table with at least two entries, in the tree that `buildHuffmanTree`
returns every internal node carries no symbol, has a zero-child and a one-child, has `freq`
equal to the sum `left.freq + right.freq` of the `freq` of its two children as JavaScript
evaluates it, which is their exact sum whenever that is at most `2 ^ 53`, and its zero-child
has `freq` at most that of its one-child. -/
theorem tree_structure (F : JSObject Nat) (hF : (F.map Prod.fst).Nodup) (h2 : 2 ≤ F.length)
    (n : HuffmanNode) (hn : n ∈ subnodes (buildHuffmanTree F)) (hl : n.isLeaf = false) :
    n.char = none ∧ n.left ≠ HuffmanNode.null ∧ n.right ≠ HuffmanNode.null ∧
    n.freq = jsAdd n.left.freq n.right.freq ∧
    (n.left.freq + n.right.freq ≤ 2 ^ 53 → n.freq = n.left.freq + n.right.freq) ∧
    n.left.freq ≤ n.right.freq := by
  obtain ⟨a, b, c, d, e⟩ := built_subnodes _ (buildHuffmanTree_built F
    (by rw [(objectEntries_perm F hF).length_eq]; exact h2)) n hn hl
  exact ⟨a, b, c, d, fun h => by rw [d, jsAdd_exact _ _ h], e⟩

/-- An instance of the tree structure property: the root of the tree of
`{a: 5, b: 2, r: 2, c: 1, d: 1}`, with `freq` 11 over children of `freq` 5 and 6. -/
theorem tree_structure_witness :
    ([(97, 5), (98, 2), (114, 2), (99, 1), (100, 1)].map Prod.fst).Nodup ∧
    2 ≤ [(97, 5), (98, 2), (114, 2), (99, 1), (100, 1)].length ∧
    buildHuffmanTree [(97, 5), (98, 2), (114, 2), (99, 1), (100, 1)] ∈
      subnodes (buildHuffmanTree [(97, 5), (98, 2), (114, 2), (99, 1), (100, 1)]) ∧
    (buildHuffmanTree [(97, 5), (98, 2), (114, 2), (99, 1), (100, 1)]).isLeaf = false ∧
    (buildHuffmanTree [(97, 5), (98, 2), (114, 2), (99, 1), (100, 1)]).freq = 11 ∧
    ((buildHuffmanTree [(97, 5), (98, 2), (114, 2), (99, 1), (100, 1)]).char = none ∧
    (buildHuffmanTree [(97, 5), (98, 2), (114, 2), (99, 1), (100, 1)]).left
      ≠ HuffmanNode.null ∧
    (buildHuffmanTree [(97, 5), (98, 2), (114, 2), (99, 1), (100, 1)]).right
      ≠ HuffmanNode.null ∧
    (buildHuffmanTree [(97, 5), (98, 2), (114, 2), (99, 1), (100, 1)]).freq =
      jsAdd (buildHuffmanTree [(97, 5), (98, 2), (114, 2), (99, 1), (100, 1)]).left.freq
        (buildHuffmanTree [(97, 5), (98, 2), (114, 2), (99, 1), (100, 1)]).right.freq ∧
    ((buildHuffmanTree [(97, 5), (98, 2), (114, 2), (99, 1), (100, 1)]).left.freq +
      (buildHuffmanTree [(97, 5), (98, 2), (114, 2), (99, 1), (100, 1)]).right.freq ≤ 2 ^ 53 →
      (buildHuffmanTree [(97, 5), (98, 2), (114, 2), (99, 1), (100, 1)]).freq =
        (buildHuffmanTree [(97, 5), (98, 2), (114, 2), (99, 1), (100, 1)]).left.freq +
        (buildHuffmanTree [(97, 5), (98, 2), (114, 2), (99, 1), (100, 1)]).right.freq) ∧
    (buildHuffmanTree [(97, 5), (98, 2), (114, 2), (99, 1), (100, 1)]).left.freq ≤
      (buildHuffmanTree [(97, 5), (98, 2), (114, 2), (99, 1), (100, 1)]).right.freq) :=
  ⟨by decide, by decide, by decide, by decide, by decide,
    tree_structure [(97, 5), (98, 2), (114, 2), (99, 1), (100, 1)] (by decide) (by decide)
      (buildHuffmanTree [(97, 5), (98, 2), (114, 2), (99, 1), (100, 1)]) (by decide)
      (by decide)⟩

/-! ## The code table covers exactly the alphabet -/

theorem subnodes_null : subnodes HuffmanNode.null = [] := rfl

theorem full_leaf_subnodes (t : HuffmanNode) (h : Full t) :
    (subnodes t).filter (fun n => n.isLeaf) = (leaves t).map leafNode := by
  induction h with
  | leaf c f => simp [subnodes, leaves_leaf, leafNode, HuffmanNode.isLeaf]
  | node f l r hl hr ihl ihr =>
    have hnl : (HuffmanNode.mk none f l r).isLeaf = false := by
      cases hl <;> simp [HuffmanNode.isLeaf]
    rw [subnodes, List.filter_cons, leaves_node, List.filter_append, ihl, ihr, List.map_append]
    simp [hnl]

theorem root_leaf_subnodes (t : HuffmanNode) (h : RootOK t) :
    (subnodes t).filter (fun n => n.isLeaf) = (leaves t).map leafNode := by
  obtain ⟨f, l, r, rfl, hl, hr⟩ := h
  have hnl : (HuffmanNode.mk none f l r).isLeaf = false := by
    cases hl <;> simp [HuffmanNode.isLeaf]
  rw [subnodes, List.filter_cons, leaves_node, List.filter_append, full_leaf_subnodes l hl,
    List.map_append]
  rcases hr with hr | rfl
  · rw [full_leaf_subnodes r hr]; simp [hnl]
  · simp [hnl, subnodes, leaves]

/-- The leaves of the tree of a table are the entries of the table. -/
theorem leaves_buildHuffmanTree (F : JSObject Nat) (hF : (F.map Prod.fst).Nodup) (hne : F ≠ []) :
    (leaves (buildHuffmanTree F)).Perm F := by
  have hpe := objectEntries_perm F hF
  rcases buildHuffmanTree_cases F with ⟨h1, _⟩ | ⟨e, h1, h2⟩ | ⟨_, _, h4⟩
  · exact absurd ((objectEntries_eq_nil_iff F).mp h1) hne
  · rw [h1] at hpe
    have hl : leaves (HuffmanNode.mk none e.2 (leafNode e) HuffmanNode.null) = [e] := by
      rw [leaves_node, leafNode, leaves_leaf]; rfl
    rw [h2, hl]
    exact hpe
  · exact h4.trans hpe

theorem follow_zero (c : Option Symbol) (f : Nat) (l r : HuffmanNode) (s : List Char) :
    follow (HuffmanNode.mk c f l r) ('0' :: s) = follow l s := by
  simp [follow]

theorem follow_one (c : Option Symbol) (f : Nat) (l r : HuffmanNode) (s : List Char) :
    follow (HuffmanNode.mk c f l r) ('1' :: s) = follow r s := by
  simp [follow]

theorem follow_nil (n : HuffmanNode) : follow n [] = n := by
  cases n <;> rfl

/-- Below a full node, every written code extends the prefix by the path to a leaf that
carries the symbol of the code. -/
theorem full_follow (n : HuffmanNode) (hn : Full n) (pfx : List Char) (hp : pfx ≠ [])
    (e : Symbol × List Char) (he : e ∈ codeWrites n pfx) :
    ∃ s f, e.2 = pfx ++ s ∧
      follow n s = HuffmanNode.mk (some e.1) f HuffmanNode.null HuffmanNode.null ∧
      (e.1, f) ∈ leaves n := by
  induction hn generalizing pfx with
  | leaf c f =>
    have hw : codeWrites (HuffmanNode.mk (some c) f HuffmanNode.null HuffmanNode.null) pfx
        = [(c, pfx)] := by
      simp [codeWrites, HuffmanNode.isLeaf, orZero, hp]
    rw [hw, List.mem_singleton] at he
    subst he
    exact ⟨[], f, by simp, follow_nil _, by simp [leaves_leaf]⟩
  | node f l r hl hr ihl ihr =>
    rw [codeWrites_node] at he
    rcases List.mem_append.mp he with he | he
    · obtain ⟨s, g, hs, hf, hm⟩ := ihl (pfx ++ ['0']) (by simp) he
      exact ⟨'0' :: s, g, by simp [hs], by rw [follow_zero]; exact hf,
        by rw [leaves_node]; exact List.mem_append_left _ hm⟩
    · obtain ⟨s, g, hs, hf, hm⟩ := ihr (pfx ++ ['1']) (by simp) he
      exact ⟨'1' :: s, g, by simp [hs], by rw [follow_one]; exact hf,
        by rw [leaves_node]; exact List.mem_append_right _ hm⟩

theorem root_follow (t : HuffmanNode) (ht : RootOK t) (e : Symbol × List Char)
    (he : e ∈ codeWrites t []) :
    ∃ f, follow t e.2 = HuffmanNode.mk (some e.1) f HuffmanNode.null HuffmanNode.null ∧
      (e.1, f) ∈ leaves t := by
  obtain ⟨f, l, r, rfl, hl, hr⟩ := ht
  rw [codeWrites_node] at he
  rcases List.mem_append.mp he with he | he
  · obtain ⟨s, g, hs, hf, hm⟩ := full_follow l hl _ (by simp) e he
    refine ⟨g, ?_, by rw [leaves_node]; exact List.mem_append_left _ hm⟩
    rw [hs]
    simpa [follow_zero] using hf
  · rcases hr with hr | rfl
    · obtain ⟨s, g, hs, hf, hm⟩ := full_follow r hr _ (by simp) e he
      refine ⟨g, ?_, by rw [leaves_node]; exact List.mem_append_right _ hm⟩
      rw [hs]
      simpa [follow_one] using hf
    · simp [codeWrites] at he

theorem value_unique {α : Type} (o : JSObject α) (hnd : (o.map Prod.fst).Nodup) (k : Symbol)
    (v v' : α) (h : (k, v) ∈ o) (h' : (k, v') ∈ o) : v = v' := by
  have a := objGet_of_mem o k v hnd h
  have b := objGet_of_mem o k v' hnd h'
  rw [a] at b
  exact Option.some.inj b

/-- C18: for a non-empty frequency table `F` with distinct keys, the leaves of
`buildHuffmanTree(F)` are exactly one leaf per entry of `F`, carrying its symbol and count; the
keys of the generated code table are the keys of `F`; and the code of each symbol is the path
from the root to its leaf, the character 0 for a step to the zero-child and 1 for a step to the
one-child. -/
theorem codeTable_covers_alphabet (F : JSObject Nat) (hF : (F.map Prod.fst).Nodup)
    (hne : F ≠ []) :
    ((subnodes (buildHuffmanTree F)).filter (fun n => n.isLeaf)).Perm (F.map leafNode) ∧
    (leaves (buildHuffmanTree F)).Perm F ∧
    (∀ s, s ∈ (codeTable (buildHuffmanTree F)).map Prod.fst ↔ s ∈ F.map Prod.fst) ∧
    ∀ e ∈ F, ∃ code, objGet (codeTable (buildHuffmanTree F)) e.1 = some code ∧
      (∀ ch ∈ code, ch = '0' ∨ ch = '1') ∧
      follow (buildHuffmanTree F) code = leafNode e := by
  have hroot := (buildHuffmanTree_root F hne).1
  have hL := leaves_buildHuffmanTree F hF hne
  refine ⟨?_, hL, ?_, ?_⟩
  · rw [root_leaf_subnodes _ hroot]
    exact hL.map leafNode
  · intro s
    rw [codeTable, generateCodes_eq_foldl, mem_keys_foldl_objSet, keys_codeWrites]
    simp only [List.map_nil, List.not_mem_nil, false_or]
    exact (hL.map Prod.fst).mem_iff
  · intro e he
    have hk : e.1 ∈ (leaves (buildHuffmanTree F)).map Prod.fst :=
      List.mem_map.mpr ⟨e, hL.mem_iff.mpr he, rfl⟩
    obtain ⟨w, hw, hm⟩ := codeTable_covers _ e.1 hk
    obtain ⟨f, hf, hmf⟩ := root_follow _ hroot (e.1, w) hm
    have hnd : ((leaves (buildHuffmanTree F)).map Prod.fst).Nodup :=
      ((hL.map Prod.fst).nodup_iff).mpr hF
    have : f = e.2 := value_unique _ hnd e.1 f e.2 hmf (hL.mem_iff.mpr he)
    subst this
    refine ⟨w, hw, ?_, hf⟩
    intro ch hch
    rcases (codeWrites_shape _ [] (e.1, w) hm).2.2 ch hch with h | h
    · simp at h
    · exact h

/-- An instance of the alphabet property: the table `{a: 5, b: 2, r: 2, c: 1, d: 1}`, where
the code of "b" is 110. -/
theorem codeTable_covers_alphabet_witness :
    ([(97, 5), (98, 2), (114, 2), (99, 1), (100, 1)].map Prod.fst).Nodup ∧
    ([(97, 5), (98, 2), (114, 2), (99, 1), (100, 1)] : JSObject Nat) ≠ [] ∧
    objGet (codeTable (buildHuffmanTree [(97, 5), (98, 2), (114, 2), (99, 1), (100, 1)])) 98
      = some ['1', '1', '0'] ∧
    follow (buildHuffmanTree [(97, 5), (98, 2), (114, 2), (99, 1), (100, 1)]) ['1', '1', '0']
      = leafNode (98, 2) ∧
    (((subnodes (buildHuffmanTree [(97, 5), (98, 2), (114, 2), (99, 1), (100, 1)])).filter
      (fun n => n.isLeaf)).Perm
      ([(97, 5), (98, 2), (114, 2), (99, 1), (100, 1)].map leafNode) ∧
    (leaves (buildHuffmanTree [(97, 5), (98, 2), (114, 2), (99, 1), (100, 1)])).Perm
      [(97, 5), (98, 2), (114, 2), (99, 1), (100, 1)] ∧
    (∀ s, s ∈ (codeTable (buildHuffmanTree
      [(97, 5), (98, 2), (114, 2), (99, 1), (100, 1)])).map Prod.fst ↔
      s ∈ [(97, 5), (98, 2), (114, 2), (99, 1), (100, 1)].map Prod.fst) ∧
    ∀ e ∈ ([(97, 5), (98, 2), (114, 2), (99, 1), (100, 1)] : JSObject Nat),
      ∃ code, objGet (codeTable (buildHuffmanTree
        [(97, 5), (98, 2), (114, 2), (99, 1), (100, 1)])) e.1 = some code ∧
      (∀ ch ∈ code, ch = '0' ∨ ch = '1') ∧
      follow (buildHuffmanTree [(97, 5), (98, 2), (114, 2), (99, 1), (100, 1)]) code
        = leafNode e) :=
  ⟨by decide, by decide, by decide, by decide,
    codeTable_covers_alphabet [(97, 5), (98, 2), (114, 2), (99, 1), (100, 1)] (by decide)
      (by decide)⟩

/-! ## Decoding ends exactly on a leaf -/

theorem descend_inner (root : HuffmanNode) (st : DecodeState) (f : Nat) (l r : HuffmanNode)
    (hl : Full l) :
    descend root st (HuffmanNode.mk none f l r) =
      ⟨st.result, HuffmanNode.mk none f l r, st.bitsRead + 1⟩ := by
  have hnl : (HuffmanNode.mk none f l r).isLeaf = false := by
    cases hl <;> simp [HuffmanNode.isLeaf]
  simp [descend, hnl]

theorem nil_or_snoc (s : List Char) : s = [] ∨ ∃ s0 b0, s = s0 ++ [b0] := by
  rcases List.eq_nil_or_concat s with h | ⟨s0, b0, h⟩
  · exact Or.inl h
  · exact Or.inr ⟨s0, b0, by rw [h, List.concat_eq_append]⟩

/-- Below a full node, the walk along a code without its last bit emits nothing. -/
theorem full_walk_pending (n : HuffmanNode) (hn : Full n) (pfx : List Char) (hp : pfx ≠ [])
    (e : Symbol × List Char) (he : e ∈ codeWrites n pfx) :
    ∃ s, e.2 = pfx ++ s ∧ ∀ (root : HuffmanNode) (st : DecodeState) (s' : List Char) (b : Char),
      s = s' ++ [b] →
      ∃ st', walk root (s'.map charBit) (descend root st n) = some st' ∧
        st'.result = st.result := by
  induction hn generalizing pfx with
  | leaf c f =>
    have hw : codeWrites (HuffmanNode.mk (some c) f HuffmanNode.null HuffmanNode.null) pfx
        = [(c, pfx)] := by
      simp [codeWrites, HuffmanNode.isLeaf, orZero, hp]
    rw [hw, List.mem_singleton] at he
    subst he
    refine ⟨[], by simp, ?_⟩
    intro root st s' b h
    simp at h
  | node f l r hl hr ihl ihr =>
    rw [codeWrites_node] at he
    have key : ∀ (child : HuffmanNode) (bit : Char), Full child →
        (if charBit bit = 0 then l else r) = child →
        (∀ (pfx : List Char), pfx ≠ [] → e ∈ codeWrites child pfx →
          ∃ s, e.2 = pfx ++ s ∧ ∀ (root : HuffmanNode) (st : DecodeState) (s' : List Char)
            (b : Char), s = s' ++ [b] →
            ∃ st', walk root (s'.map charBit) (descend root st child) = some st' ∧
              st'.result = st.result) →
        e ∈ codeWrites child (pfx ++ [bit]) →
        ∃ s, e.2 = pfx ++ s ∧ ∀ (root : HuffmanNode) (st : DecodeState) (s' : List Char)
          (b : Char), s = s' ++ [b] →
          ∃ st', walk root (s'.map charBit) (descend root st (HuffmanNode.mk none f l r))
            = some st' ∧ st'.result = st.result := by
      intro child bit hfull hsel ih hmem
      obtain ⟨s, hs, hpend⟩ := ih (pfx ++ [bit]) (by simp) hmem
      refine ⟨bit :: s, by simp [hs], ?_⟩
      intro root st s' b hsb
      rw [descend_inner root st f l r hl]
      rcases nil_or_snoc s with rfl | ⟨s0, b0, rfl⟩
      · have : s' = [] := by
          cases s' with
          | nil => rfl
          | cons x xs =>
            have := congrArg List.length hsb
            simp at this
        subst this
        exact ⟨_, walk_nil _ _, rfl⟩
      · have hs' : s' = bit :: s0 := by
          have : bit :: (s0 ++ [b0]) = (bit :: s0) ++ [b0] := by simp
          rw [this] at hsb
          exact (List.append_inj' hsb rfl).1.symm
        subst hs'
        rw [List.map_cons, walk_cons]
        have hd := decodeStep_descend root st.result (st.bitsRead + 1) none f l r (charBit bit)
          (by rw [hsel]; exact full_ne_null hfull)
        rw [hd, hsel]
        simp only [Option.some_bind]
        exact hpend root ⟨st.result, HuffmanNode.mk none f l r, st.bitsRead + 1⟩ s0 b0 rfl
    rcases List.mem_append.mp he with he | he
    · exact key l '0' hl (by simp [charBit]) ihl he
    · exact key r '1' hr (by simp [charBit]) ihr he

/-- From the root, the walk along a written code without its last bit emits nothing. -/
theorem root_walk_pending (root : HuffmanNode) (hr : RootOK root) (e : Symbol × List Char)
    (he : e ∈ codeWrites root []) (w' : List Char) (b : Char) (hw : e.2 = w' ++ [b])
    (res : List Symbol) (k : Nat) :
    ∃ st', walk root (w'.map charBit) ⟨res, root, k⟩ = some st' ∧ st'.result = res := by
  obtain ⟨f, l, r, rfl, hl, hr⟩ := hr
  rw [codeWrites_node] at he
  have key : ∀ (child : HuffmanNode) (bit : Char), Full child →
      (if charBit bit = 0 then l else r) = child → e ∈ codeWrites child ([] ++ [bit]) →
      ∃ st', walk (HuffmanNode.mk none f l r) (w'.map charBit)
        ⟨res, HuffmanNode.mk none f l r, k⟩ = some st' ∧ st'.result = res := by
    intro child bit hfull hsel hmem
    obtain ⟨s, hs, hpend⟩ := full_walk_pending child hfull _ (by simp) e hmem
    rw [hw] at hs
    rcases nil_or_snoc s with rfl | ⟨s0, b0, rfl⟩
    · have : w' = [] := by
        cases w' with
        | nil => rfl
        | cons x xs =>
          have := congrArg List.length hs
          simp at this
      subst this
      exact ⟨_, walk_nil _ _, rfl⟩
    · have hs' : w' = bit :: s0 := by
        have : [] ++ [bit] ++ (s0 ++ [b0]) = (bit :: s0) ++ [b0] := by simp
        rw [this] at hs
        exact (List.append_inj' hs rfl).1
      subst hs'
      rw [List.map_cons, walk_cons]
      have hd := decodeStep_descend (HuffmanNode.mk none f l r) res k none f l r (charBit bit)
        (by rw [hsel]; exact full_ne_null hfull)
      rw [hd, hsel]
      simp only [Option.some_bind]
      exact hpend (HuffmanNode.mk none f l r) ⟨res, HuffmanNode.mk none f l r, k⟩ s0 b0 rfl
  rcases List.mem_append.mp he with he | he
  · exact key l '0' hl (by simp [charBit]) he
  · rcases hr with hr | rfl
    · exact key r '1' hr (by simp [charBit]) he
    · simp [codeWrites] at he

theorem walk_prefix_some (root : HuffmanNode) (a b : List Nat) (st st2 : DecodeState)
    (h : walk root (a ++ b) st = some st2) : ∃ st1, walk root a st = some st1 := by
  rw [walk_append] at h
  cases hw : walk root a st with
  | none => rw [hw] at h; simp at h
  | some st1 => exact ⟨st1, rfl⟩

/-- C19: for every non-empty text `T`, decoding the bytes and `bitLength` that `encodeText`
produced, with the tree of `T`, never steps to a missing child: after every number of bits up
to `bitLength` the walk is at a node. After the last bit the text is complete and the current
node is the root again; before the last bit the last symbol was still pending, so the last bit
ends exactly on a leaf. -/
theorem decode_alignment (T : List Symbol) (hT : T ≠ []) :
    decodeBytesState
      (encodeText T (codeTable (buildHuffmanTree (buildFrequencyTable T)))).dataBytes
      (buildHuffmanTree (buildFrequencyTable T))
      (encodeText T (codeTable (buildHuffmanTree (buildFrequencyTable T)))).bitLength
      = some ⟨T, buildHuffmanTree (buildFrequencyTable T),
          (encodeText T (codeTable (buildHuffmanTree (buildFrequencyTable T)))).bitLength⟩ ∧
    (∀ k, k ≤ (encodeText T (codeTable (buildHuffmanTree (buildFrequencyTable T)))).bitLength →
      ∃ st, decodeBytesState
        (encodeText T (codeTable (buildHuffmanTree (buildFrequencyTable T)))).dataBytes
        (buildHuffmanTree (buildFrequencyTable T)) k = some st ∧ st.bitsRead = k) ∧
    1 ≤ (encodeText T (codeTable (buildHuffmanTree (buildFrequencyTable T)))).bitLength ∧
    ∃ st, decodeBytesState
        (encodeText T (codeTable (buildHuffmanTree (buildFrequencyTable T)))).dataBytes
        (buildHuffmanTree (buildFrequencyTable T))
        ((encodeText T (codeTable (buildHuffmanTree (buildFrequencyTable T)))).bitLength - 1)
        = some st ∧ st.result = T.dropLast := by
  have hF : buildFrequencyTable T ≠ [] := by
    intro h
    obtain ⟨c, hc⟩ := List.exists_mem_of_ne_nil T hT
    have := objGet_buildFrequencyTable T c
    rw [h] at this
    simp [objGet, hc] at this
  have hroot := (buildHuffmanTree_root (buildFrequencyTable T) hF).1
  have hC := text_codes T
  generalize buildHuffmanTree (buildFrequencyTable T) = R at *
  generalize hCdef : codeTable R = C at *
  have hfull := decode_encode R hroot C T (fun ch hch => hC ch hch)
  have hbits := take_bitsOfBytes_encodeText T C
  have hL : (encodeText T C).bitLength = (bitStringOf T C).length := rfl
  obtain ⟨T', c, rfl⟩ : ∃ T' c, T = T' ++ [c] := by
    rcases List.eq_nil_or_concat T with h | ⟨T', c, h⟩
    · exact absurd h hT
    · exact ⟨T', c, by rw [h, List.concat_eq_append]⟩
  obtain ⟨w, hw, hm⟩ := hC c (by simp)
  have hwne : w ≠ [] := (codeWrites_shape R [] (c, w) hm).2.1
  obtain ⟨w', b, rfl⟩ : ∃ w' b, w = w' ++ [b] := by
    rcases nil_or_snoc w with h | h
    · exact absurd h hwne
    · exact h
  have hS : bitStringOf (T' ++ [c]) C =
      T'.flatMap (fun ch => codeText (objGet C ch)) ++ w' ++ [b] := by
    rw [bitStringOf_eq_flatMap, List.flatMap_append]
    simp [hw, codeText_some]
  have hlen : ((bitsOfBytes (encodeText (T' ++ [c]) C).dataBytes).take
      (encodeText (T' ++ [c]) C).bitLength).length = (encodeText (T' ++ [c]) C).bitLength := by
    rw [hbits, List.length_map, hL]
  refine ⟨hfull, ?_, ?_, ?_⟩
  · intro k hk
    rw [decodeBytesState_eq_walk] at hfull ⊢
    have hsplit : (bitsOfBytes (encodeText (T' ++ [c]) C).dataBytes).take
        (encodeText (T' ++ [c]) C).bitLength =
        (bitsOfBytes (encodeText (T' ++ [c]) C).dataBytes).take k ++
        ((bitsOfBytes (encodeText (T' ++ [c]) C).dataBytes).take
          (encodeText (T' ++ [c]) C).bitLength).drop k := by
      have := List.take_append_drop k ((bitsOfBytes (encodeText (T' ++ [c]) C).dataBytes).take
        (encodeText (T' ++ [c]) C).bitLength)
      rw [List.take_take, Nat.min_eq_left hk] at this
      exact this.symm
    rw [hsplit] at hfull
    obtain ⟨st1, h1⟩ := walk_prefix_some _ _ _ _ _ hfull
    refine ⟨st1, h1, ?_⟩
    have hb := walk_bitsRead _ _ _ _ h1
    have hlk : ((bitsOfBytes (encodeText (T' ++ [c]) C).dataBytes).take k).length = k := by
      have := congrArg List.length hsplit
      rw [hlen, List.length_append, List.length_drop, hlen] at this
      omega
    rw [hlk] at hb
    simpa using hb
  · rw [hL, hS, List.length_append, List.length_singleton]; omega
  · rw [decodeBytesState_eq_walk]
    have htake : (bitsOfBytes (encodeText (T' ++ [c]) C).dataBytes).take
        ((encodeText (T' ++ [c]) C).bitLength - 1) =
        (T'.flatMap (fun ch => codeText (objGet C ch))).map charBit ++ w'.map charBit := by
      have h1 : (bitsOfBytes (encodeText (T' ++ [c]) C).dataBytes).take
          ((encodeText (T' ++ [c]) C).bitLength - 1) =
          ((bitsOfBytes (encodeText (T' ++ [c]) C).dataBytes).take
            (encodeText (T' ++ [c]) C).bitLength).take
            ((encodeText (T' ++ [c]) C).bitLength - 1) := by
        rw [List.take_take, Nat.min_eq_left (Nat.sub_le _ _)]
      rw [h1, hbits, hL, hS]
      simp only [List.map_append, List.length_append, List.length_map, List.length_singleton,
        List.map_cons, List.map_nil, Nat.add_sub_cancel, ← List.append_assoc]
      rw [List.take_left']
      simp
    rw [htake, walk_append,
      walk_text R hroot C T' (fun ch hch => hC ch (List.mem_append_left _ hch)) [] 0]
    simp only [Option.some_bind, List.nil_append]
    obtain ⟨st', h1, h2⟩ := root_walk_pending R hroot (c, w' ++ [b]) hm w' b rfl T'
      (0 + (T'.flatMap (fun ch => codeText (objGet C ch))).length)
    exact ⟨st', h1, by rw [h2, List.dropLast_concat]⟩

/-- An instance of the alignment property: the text "abracadabra"; after 22 of its 23 bits
the last symbol is still pending. -/
theorem decode_alignment_witness :
    textAbracadabra ≠ [] ∧
    (decodeBytesState
      (encodeText textAbracadabra
        (codeTable (buildHuffmanTree (buildFrequencyTable textAbracadabra)))).dataBytes
      (buildHuffmanTree (buildFrequencyTable textAbracadabra)) 22).map (fun st => st.result)
      = some textAbracadabra.dropLast ∧
    (decodeBytesState
      (encodeText textAbracadabra
        (codeTable (buildHuffmanTree (buildFrequencyTable textAbracadabra)))).dataBytes
      (buildHuffmanTree (buildFrequencyTable textAbracadabra))
      (encodeText textAbracadabra
        (codeTable (buildHuffmanTree (buildFrequencyTable textAbracadabra)))).bitLength
      = some ⟨textAbracadabra, buildHuffmanTree (buildFrequencyTable textAbracadabra),
          (encodeText textAbracadabra
            (codeTable (buildHuffmanTree (buildFrequencyTable textAbracadabra)))).bitLength⟩ ∧
    (∀ k, k ≤ (encodeText textAbracadabra
        (codeTable (buildHuffmanTree (buildFrequencyTable textAbracadabra)))).bitLength →
      ∃ st, decodeBytesState
        (encodeText textAbracadabra
          (codeTable (buildHuffmanTree (buildFrequencyTable textAbracadabra)))).dataBytes
        (buildHuffmanTree (buildFrequencyTable textAbracadabra)) k = some st ∧
        st.bitsRead = k) ∧
    1 ≤ (encodeText textAbracadabra
      (codeTable (buildHuffmanTree (buildFrequencyTable textAbracadabra)))).bitLength ∧
    ∃ st, decodeBytesState
        (encodeText textAbracadabra
          (codeTable (buildHuffmanTree (buildFrequencyTable textAbracadabra)))).dataBytes
        (buildHuffmanTree (buildFrequencyTable textAbracadabra))
        ((encodeText textAbracadabra
          (codeTable (buildHuffmanTree (buildFrequencyTable textAbracadabra)))).bitLength - 1)
        = some st ∧ st.result = textAbracadabra.dropLast) :=
  ⟨by decide, by decide, decode_alignment textAbracadabra (by decide)⟩

/-! ## Malformed containers -/

theorem decodeBytes_nil (root : HuffmanNode) (L : Nat) : decodeBytes [] root L = some [] := rfl

theorem decodeBytes_zero (data : List Nat) (root : HuffmanNode) :
    decodeBytes data root 0 = some [] := by
  rw [decodeBytes, decodeBytesState_eq_walk, List.take_zero, walk_nil]
  rfl

theorem splitContainer_oversized (buffer : List Nat) (n : Nat)
    (hn : getUint32 buffer 0 = some n) (hbig : buffer.length - 4 < n) :
    splitContainer buffer = some (n, buffer.drop 4, []) := by
  rw [splitContainer, hn]
  simp only [Option.some_bind, uint8Slice]
  rw [List.take_of_length_le (show buffer.length ≤ 4 + n by omega),
    List.drop_of_length_le (show buffer.length ≤ 4 + n by omega)]

/-- The call of `enableDownloadLink` in the decompress handler hands a string to
`URL.createObjectURL`, so the `try` block never reaches its end: whatever the buffer, the
handler logs the error and the download link stays hidden. -/
theorem decompressHandler_error (parse : List Nat → Option Header) (buffer : List Nat) :
    decompressHandler parse buffer = ⟨LogLine.error, none⟩ := by
  rw [decompressHandler]
  cases decompressText parse buffer <;> rfl

theorem decompressText_oversized (parse : List Nat → Option Header) (buffer : List Nat)
    (n : Nat) (hn : getUint32 buffer 0 = some n) (hbig : buffer.length - 4 < n) :
    decompressText parse buffer =
      (parse (buffer.drop 4)).bind (fun header => header.freq.map (fun _ => [])) := by
  rw [decompressText, splitContainer_oversized buffer n hn hbig]
  simp only [Option.some_bind]
  cases hp : parse (buffer.drop 4) with
  | none => rfl
  | some header =>
    simp only [Option.some_bind]
    cases hf : header.freq with
    | none => rfl
    | some F => simp [decodeBytes_nil]

/-- C11: on a container buffer of at least 4 bytes whose `headerLength` field is larger than
the number of bytes after the field, the decompress handler logs the error and offers no
decoded text: the download link stays hidden. Inside the `try` block the header slice is all
the remaining bytes and the data bytes are empty, so the block either raises an exception
before a text is decoded or decodes the empty text and raises the exception in
`enableDownloadLink`; no text other than the empty one is ever decoded. -/
theorem oversized_header_rejected (parse : List Nat → Option Header) (buffer : List Nat)
    (n : Nat) (hn : getUint32 buffer 0 = some n) (hbig : buffer.length - 4 < n) :
    (decompressHandler parse buffer).log = LogLine.error ∧
    (decompressHandler parse buffer).link = none ∧
    splitContainer buffer = some (n, buffer.drop 4, []) ∧
    (decompressText parse buffer = none ∨ decompressText parse buffer = some []) := by
  refine ⟨by rw [decompressHandler_error], by rw [decompressHandler_error],
    splitContainer_oversized buffer n hn hbig, ?_⟩
  rw [decompressText_oversized parse buffer n hn hbig]
  cases parse (buffer.drop 4) with
  | none => exact Or.inl rfl
  | some header =>
    cases hf : header.freq with
    | none => left; simp [hf]
    | some F => right; simp [hf]

/-- An instance of the oversized header property: the field says 100, and the 30 bytes of the
header text `{"bitLength":4,"freq":{"a":4}}` follow. -/
theorem oversized_header_rejected_witness :
    getUint32 ([0, 0, 0, 100] ++ headerFull) 0 = some 100 ∧
    ([0, 0, 0, 100] ++ headerFull).length - 4 < 100 ∧
    ((decompressHandler parseExamples ([0, 0, 0, 100] ++ headerFull)).log = LogLine.error ∧
    (decompressHandler parseExamples ([0, 0, 0, 100] ++ headerFull)).link = none ∧
    splitContainer ([0, 0, 0, 100] ++ headerFull) =
      some (100, ([0, 0, 0, 100] ++ headerFull).drop 4, []) ∧
    (decompressText parseExamples ([0, 0, 0, 100] ++ headerFull) = none ∨
      decompressText parseExamples ([0, 0, 0, 100] ++ headerFull) = some [])) :=
  ⟨by decide, by decide,
    oversized_header_rejected parseExamples ([0, 0, 0, 100] ++ headerFull) 100 (by decide)
      (by decide)⟩

/-- C12: on a container whose header text parses but lacks the `bitLength` field or lacks the
`freq` field, the decompress handler logs the error and offers no output text: the download
link stays hidden. Without `freq` the exception is the `TypeError` of
`Object.entries(undefined)` in `buildHuffmanTree`, and no text is decoded; with `freq` but
without `bitLength` the loop of `decodeBytes` reads no bit, the decoded text is empty, and the
exception is the one of `enableDownloadLink`. -/
theorem missing_fields_rejected (parse : List Nat → Option Header) (buffer : List Nat)
    (parts : Nat × List Nat × List Nat) (header : Header)
    (hs : splitContainer buffer = some parts) (hp : parse parts.2.1 = some header)
    (hmiss : header.bitLength = none ∨ header.freq = none) :
    (decompressHandler parse buffer).log = LogLine.error ∧
    (decompressHandler parse buffer).link = none ∧
    (header.freq = none → decompressText parse buffer = none) ∧
    (header.freq ≠ none → decompressText parse buffer = some []) := by
  refine ⟨by rw [decompressHandler_error], by rw [decompressHandler_error], ?_, ?_⟩
  · intro hf
    rw [decompressText, hs]
    simp only [Option.some_bind, hp, hf]
  · intro hf
    rw [decompressText, hs]
    simp only [Option.some_bind, hp]
    cases hfr : header.freq with
    | none => exact absurd hfr hf
    | some F =>
      rcases hmiss with hb | hb
      · simp only [hb, Option.getD_none]
        exact decodeBytes_zero _ _
      · rw [hb] at hfr; cases hfr

/-- An instance of the missing fields property: the header `{"freq":{"a":4}}` before one data
byte. -/
theorem missing_fields_rejected_witness :
    splitContainer ([0, 0, 0, 16] ++ headerNoBitLength ++ [0]) =
      some (16, headerNoBitLength, [0]) ∧
    parseExamples (16, headerNoBitLength, [0]).2.1 = some ⟨none, some [(97, 4)]⟩ ∧
    ((⟨none, some [(97, 4)]⟩ : Header).bitLength = none ∨
      (⟨none, some [(97, 4)]⟩ : Header).freq = none) ∧
    ((decompressHandler parseExamples ([0, 0, 0, 16] ++ headerNoBitLength ++ [0])).log
      = LogLine.error ∧
    (decompressHandler parseExamples ([0, 0, 0, 16] ++ headerNoBitLength ++ [0])).link = none ∧
    ((⟨none, some [(97, 4)]⟩ : Header).freq = none →
      decompressText parseExamples ([0, 0, 0, 16] ++ headerNoBitLength ++ [0]) = none) ∧
    ((⟨none, some [(97, 4)]⟩ : Header).freq ≠ none →
      decompressText parseExamples ([0, 0, 0, 16] ++ headerNoBitLength ++ [0]) = some [])) :=
  ⟨by decide, by decide, Or.inl rfl,
    missing_fields_rejected parseExamples ([0, 0, 0, 16] ++ headerNoBitLength ++ [0])
      (16, headerNoBitLength, [0]) ⟨none, some [(97, 4)]⟩ (by decide) (by decide) (Or.inl rfl)⟩

end Huffman
